import Mathlib

/-
  Formal model of the FactorioCalc core: the exact rational arithmetic module
  (factoriocalc/fracs.py) and the linear-equation simplifier and lexicographic
  simplex solver (factoriocalc/solver.py).

  Python values of type int / Frac / NaN are modelled by `PyVal`; Python
  exceptions are modelled with `Except PyErr`.  Python integers are unbounded,
  so `Int` models them exactly.  Python `//` (floor division) is `Int.fdiv`,
  `math.gcd` is `Int.gcd` (which is nonnegative, like the Python function).

  The two ambient context variables of fracs.py (`assume_positive_zero` and
  `allow_nans`) are threaded explicitly as two booleans `apz` and `nans`
  wherever the corresponding Python code would read them.
-/

set_option maxHeartbeats 1000000

/-- Python-level numeric values flowing through fracs.py: a plain `int`, a
`Frac` (the stored `(numerator, denominator)` tuple of the tuple subclass),
or the NaN singleton.  The denominator is stored as an arbitrary `Int` so
that the normalization invariant is a provable property, not a built-in. -/
inductive PyVal where
  | intv  : Int → PyVal
  | fracv : Int → Int → PyVal
  | nan   : PyVal
deriving DecidableEq, Repr

/-- Python exceptions raised by the modelled code paths. -/
inductive PyErr where
  | notANumber      -- NotANumberError from _nan()
  | zeroDivision    -- ZeroDivisionError
  | valueError      -- e.g. bool(Invalid)
  | typeErr         -- TypeError
  | keyErr          -- KeyError (dict.pop on a missing key)
  | assertFail      -- AssertionError
  | notImplemented  -- NotImplementedError (Frac.__truediv__)
  | indexErr        -- IndexError (out-of-range list access)
  | fuelOut         -- not a Python exception: recursion fuel ran out
deriving DecidableEq, Repr

namespace PyVal

/-- `x.numerator`: an int is the pair (n, 1); a Frac exposes its stored pair.
NaN has no `numerator` attribute in the source (touching it raises
AttributeError); every caller below tests for NaN before using `nump`. -/
def nump : PyVal → Int
  | intv n => n
  | fracv n _ => n
  | nan => 0

/-- `x.denominator`; see `nump` for the NaN caveat. -/
def denp : PyVal → Int
  | intv _ => 1
  | fracv _ d => d
  | nan => 0

/-- `Inf = tuple.__new__(Frac, (1, 0))` -/
def inf : PyVal := fracv 1 0

/-- `-Inf`, i.e. `Frac.__neg__(Inf) = (-1, 0)` -/
def ninf : PyVal := fracv (-1) 0

/-- `isfinite` from fracs.py: not NaN and denominator nonzero. -/
def isFin : PyVal → Bool
  | intv _ => true
  | fracv _ d => d ≠ 0
  | nan => false

/-- The rational number represented by a finite value (meaningful only on
finite values: NaN and the infinities collapse to junk via division by 0). -/
def toQ : PyVal → ℚ
  | intv n => (n : ℚ)
  | fracv n d => (n : ℚ) / (d : ℚ)
  | nan => 0

end PyVal

namespace Fracs

open PyVal

/-- `_nan()`: NaN if the ambient `allow_nans` is set, else NotANumberError. -/
def mkNan (nans : Bool) : Except PyErr PyVal :=
  if nans then .ok .nan else .error .notANumber

/-- `_add(na, da, nb, db)` from fracs.py (the raw helper on number pairs). -/
def rawAdd (na da nb db : Int) : Int × Int :=
  if da = db then
    if da = 0 then
      if na = nb then (na, 0) else (0, 0)
    else
      let num := na + nb
      let den := da
      if den = 1 then (num, den)
      else
        let g : Int := Int.gcd num den
        if g > 1 then (num.fdiv g, den.fdiv g) else (num, den)
  else
    let g : Int := Int.gcd da db
    if g ≤ 1 then (na * db + da * nb, da * db)
    else
      let s := da.fdiv g
      let t := na * (db.fdiv g) + nb * s
      let g2 : Int := Int.gcd t g
      if g2 = 1 then (t, s * db)
      else (t.fdiv g2, s * (db.fdiv g2))

/-- `_mul(na, da, nb, db)` from fracs.py. -/
def rawMul (na da nb db : Int) : Int × Int :=
  let g1 : Int := Int.gcd na db
  let na' := if g1 > 1 then na.fdiv g1 else na
  let db' := if g1 > 1 then db.fdiv g1 else db
  let g2 : Int := Int.gcd nb da
  let nb' := if g2 > 1 then nb.fdiv g2 else nb
  let da' := if g2 > 1 then da.fdiv g2 else da
  (na' * nb', db' * da')

/-- Shared tail of `Frac.__add__` / `__sub__` / `__rsub__`: collapse a raw
result pair to an int when the denominator is 1, to NaN (or a raised
NotANumberError) when it is (0, 0), and to a stored Frac otherwise. -/
def collapse (nans : Bool) (res : Int × Int) : Except PyErr PyVal :=
  if res.2 = 1 then .ok (.intv res.1)
  else if res.1 = 0 ∧ res.2 = 0 then mkNan nans
  else .ok (.fracv res.1 res.2)

/-- Python `a + b` on modelled values.  NaN absorbs (`NanType._binop`);
int + int is plain integer addition; otherwise `Frac.__add__` runs with
`self` the Frac operand (`__radd__ = __add__`, and addition of the raw
pairs is symmetric). -/
def pyAdd (nans : Bool) : PyVal → PyVal → Except PyErr PyVal
  | .nan, _ => .ok .nan
  | _, .nan => .ok .nan
  | .intv x, .intv y => .ok (.intv (x + y))
  | .fracv sn sd, other =>
      -- Frac.__add__(self = (sn, sd), other)
      if other.nump = 0 then .ok (.fracv sn sd)
      else collapse nans (rawAdd sn sd other.nump other.denp)
  | .intv x, .fracv bn bd =>
      -- int.__add__ returns NotImplemented; Frac.__radd__ = Frac.__add__
      if x = 0 then .ok (.fracv bn bd)
      else collapse nans (rawAdd bn bd x 1)

/-- Python `a - b`.  `Frac.__sub__` when `a` is a Frac, `Frac.__rsub__`
when only `b` is. -/
def pySub (nans : Bool) : PyVal → PyVal → Except PyErr PyVal
  | .nan, _ => .ok .nan
  | _, .nan => .ok .nan
  | .intv x, .intv y => .ok (.intv (x - y))
  | .fracv sn sd, other =>
      -- Frac.__sub__(self = (sn, sd), other)
      if other.nump = 0 then .ok (.fracv sn sd)
      else collapse nans (rawAdd sn sd (-other.nump) other.denp)
  | .intv x, .fracv bn bd =>
      -- Frac.__rsub__(self = (bn, bd), other = x)
      if x = 0 then .ok (.fracv (-bn) bd)
      else collapse nans (rawAdd x 1 (-bn) bd)

/-- Python `a * b`.  `Frac.__mul__` runs with `self` the Frac operand
(`__rmul__ = __mul__`); its special cases for `other` equal to 1, 0 or -1
are kept verbatim. -/
def pyMul (nans : Bool) : PyVal → PyVal → Except PyErr PyVal
  | .nan, _ => .ok .nan
  | _, .nan => .ok .nan
  | .intv x, .intv y => .ok (.intv (x * y))
  | .fracv sn sd, other =>
      mulFrac nans sn sd other
  | .intv x, .fracv bn bd =>
      mulFrac nans bn bd (.intv x)
where
  /-- `Frac.__mul__(self = (sn, sd), other)` -/
  mulFrac (nans : Bool) (sn sd : Int) (other : PyVal) : Except PyErr PyVal :=
    if other.denp = 1 then
      if other.nump = 1 then .ok (.fracv sn sd)
      else if other.nump = 0 ∧ sd ≠ 0 then .ok other
      else if other.nump = -1 then .ok (.fracv (-sn) sd)
      else
        let res := rawMul sn sd other.nump other.denp
        if res.2 = 1 then .ok (.intv res.1)
        else if res.1 = 0 ∧ res.2 = 0 then mkNan nans
        else .ok (.fracv res.1 res.2)
    else
      let res := rawMul sn sd other.nump other.denp
      if res.2 = 1 then .ok (.intv res.1)
      else if res.1 = 0 ∧ res.2 = 0 then mkNan nans
      else .ok (.fracv res.1 res.2)

/-- Python unary `-a` (`Frac.__neg__`, `int.__neg__`, `NanType.__neg__`). -/
def pyNeg : PyVal → PyVal
  | .nan => .nan
  | .intv n => .intv (-n)
  | .fracv n d => if n = 0 then .fracv n d else .fracv (-n) d

/-- Python `abs(a)` (`Frac.__abs__`, `int.__abs__`, `NanType.__abs__`). -/
def pyAbs : PyVal → PyVal
  | .nan => .nan
  | .intv n => .intv n.natAbs
  | .fracv n d => if n ≥ 0 then .fracv n d else .fracv (-n) d

/-- The nonzero-int-by-nonzero-int tail of `div`: flip the divisor's sign
onto the dividend, reduce by the gcd, and collapse denominator 1 to an
int. -/
def divII (n dn : Int) : Except PyErr PyVal :=
  let n1 := if dn < 0 then -n else n
  let d1 := if dn < 0 then -dn else dn
  let g : Int := Int.gcd n1 d1
  let n2 := if g > 1 then n1.fdiv g else n1
  let d2 := if g > 1 then d1.fdiv g else d1
  if d2 = 1 then .ok (.intv n2) else .ok (.fracv n2 d2)

/-- `div(num, den)` from fracs.py, with the two ambient policy flags made
explicit arguments (`assume_positive_zero` = `apz`, `allow_nans` = `nans`);
they are read exactly where `div` reads the context variables. -/
def div (apz nans : Bool) (num den : PyVal) : Except PyErr PyVal :=
  if num = .nan ∨ den = .nan then mkNan nans
  else if den.denp = 1 then
    if den.nump = 1 then .ok num
    else if den.nump = 0 then
      if apz then
        if num.nump > 0 then .ok inf
        else if num.nump = 0 then .ok .nan
        else .ok ninf
      else if nans then .ok .nan
      else .error .zeroDivision
    else if num.denp = 1 then
      -- num is (an) int; den acts as the nonzero, non-one integer den.nump
      if num.nump = 0 then .ok (.intv 0)  -- `den == 0` is impossible in this branch
      else divII num.nump den.nump
    else divGeneral nans num den
  else divGeneral nans num den
where
  /-- the general tail of `div` (reached when the fast integer paths do not
  apply): flip the divisor's sign into its denominator and multiply by the
  reciprocal. -/
  divGeneral (nans : Bool) (num den : PyVal) : Except PyErr PyVal :=
    let dn := if den.nump < 0 then -den.nump else den.nump
    let dd := if den.nump < 0 then -den.denp else den.denp
    let res := rawMul num.nump num.denp dd dn
    if res.2 = 1 then .ok (.intv res.1)
    else if res.1 = 0 ∧ res.2 = 0 then mkNan nans
    else .ok (.fracv res.1 res.2)

/-- `Frac.__truediv__` / `Frac.__rtruediv__`: the `/` operator on Frac is
deliberately unimplemented and always raises (use `div` instead). -/
def fracTruediv (_self _other : PyVal) : Except PyErr PyVal :=
  .error .notImplemented

/-- Result of a Python comparison in fracs.py: a plain bool, or the
`Invalid` singleton produced whenever either operand is NaN. -/
inductive CmpRes where
  | toB : Bool → CmpRes
  | invalid : CmpRes
deriving DecidableEq, Repr

/-- `InvalidType.__bool__` raises ValueError; a genuine bool converts to
itself.  This is what an `if` over a comparison result executes. -/
def CmpRes.toBool : CmpRes → Except PyErr Bool
  | .toB b => .ok b
  | .invalid => .error .valueError

/-- `Frac.__lt__`-style comparison core (`Frac.__compare`): subtract and
test the sign of the resulting numerator against 0 with `op`. -/
def cmpCore (op : Int → Int → Bool) (sn sd on_ od : Int) : Bool :=
  let res := if on_ = 0 then (sn, sd) else rawAdd sn sd (-on_) od
  op res.1 0

/-- Python `a < b` on modelled values.  NaN on either side yields `Invalid`
(`NanType._cmp`, reached directly or through the reflected operator after
`Frac.__compare`/int return NotImplemented for a NaN operand). -/
def pyLt : PyVal → PyVal → CmpRes
  | .nan, _ => .invalid
  | _, .nan => .invalid
  | .intv x, .intv y => .toB (x < y)
  | .fracv sn sd, other => .toB (cmpCore (· < ·) sn sd other.nump other.denp)
  | .intv x, .fracv bn bd =>
      -- int.__lt__ returns NotImplemented; reflected: Frac.__gt__(b, x)
      .toB (cmpCore (· > ·) bn bd x 1)

/-- Python `a <= b`; see `pyLt`. -/
def pyLe : PyVal → PyVal → CmpRes
  | .nan, _ => .invalid
  | _, .nan => .invalid
  | .intv x, .intv y => .toB (x ≤ y)
  | .fracv sn sd, other => .toB (cmpCore (· ≤ ·) sn sd other.nump other.denp)
  | .intv x, .fracv bn bd => .toB (cmpCore (· ≥ ·) bn bd x 1)

/-- Python `a > b`; see `pyLt`. -/
def pyGt : PyVal → PyVal → CmpRes
  | .nan, _ => .invalid
  | _, .nan => .invalid
  | .intv x, .intv y => .toB (x > y)
  | .fracv sn sd, other => .toB (cmpCore (· > ·) sn sd other.nump other.denp)
  | .intv x, .fracv bn bd => .toB (cmpCore (· < ·) bn bd x 1)

/-- Python `a >= b`; see `pyLt`. -/
def pyGe : PyVal → PyVal → CmpRes
  | .nan, _ => .invalid
  | _, .nan => .invalid
  | .intv x, .intv y => .toB (x ≥ y)
  | .fracv sn sd, other => .toB (cmpCore (· ≥ ·) sn sd other.nump other.denp)
  | .intv x, .fracv bn bd => .toB (cmpCore (· ≤ ·) bn bd x 1)

/-- Python `a == b`: `Frac.__eq__` is structural on the (numerator,
denominator) pairs; NaN on either side yields `Invalid`. -/
def pyEq : PyVal → PyVal → CmpRes
  | .nan, _ => .invalid
  | _, .nan => .invalid
  | .intv x, .intv y => .toB (x = y)
  | .fracv sn sd, other => .toB (sn = other.nump ∧ sd = other.denp)
  | .intv x, .fracv bn bd => .toB (bn = x ∧ bd = 1)

/-- Python `a != b` (`Frac.__ne__` is the structural negation). -/
def pyNe : PyVal → PyVal → CmpRes
  | .nan, _ => .invalid
  | _, .nan => .invalid
  | .intv x, .intv y => .toB (x ≠ y)
  | .fracv sn sd, other => .toB (sn ≠ other.nump ∨ sd ≠ other.denp)
  | .intv x, .fracv bn bd => .toB (bn ≠ x ∨ bd ≠ 1)

/-- Selector for the six comparison operators, used to state claims that
quantify over all of them. -/
inductive CmpSel where
  | lt | le | gt | ge | eq | ne
deriving DecidableEq, Repr

/-- Dispatch a comparison selector to the corresponding operator. -/
def pyCmp : CmpSel → PyVal → PyVal → CmpRes
  | .lt => pyLt
  | .le => pyLe
  | .gt => pyGt
  | .ge => pyGe
  | .eq => pyEq
  | .ne => pyNe

/-- Comparison coerced to bool, as every `if`-context in solver.py does. -/
def pyLtB (a b : PyVal) : Except PyErr Bool := (pyLt a b).toBool

/-- see `pyLtB` -/
def pyLeB (a b : PyVal) : Except PyErr Bool := (pyLe a b).toBool

/-- see `pyLtB` -/
def pyGtB (a b : PyVal) : Except PyErr Bool := (pyGt a b).toBool

/-- see `pyLtB` -/
def pyGeB (a b : PyVal) : Except PyErr Bool := (pyGe a b).toBool

/-- see `pyLtB` -/
def pyEqB (a b : PyVal) : Except PyErr Bool := (pyEq a b).toBool

/-- see `pyLtB` -/
def pyNeB (a b : PyVal) : Except PyErr Bool := (pyNe a b).toBool

end Fracs

-- quick sanity checks of the arithmetic model (kept as examples)
example : Fracs.pyAdd false (.fracv 1 2) (.fracv 1 2) = .ok (.intv 1) := rfl
example : Fracs.pyAdd false (.fracv 1 2) (.fracv 1 3) = .ok (.fracv 5 6) := rfl
example : Fracs.pyAdd false PyVal.inf PyVal.ninf = .error .notANumber := rfl
example : Fracs.pyAdd true PyVal.inf PyVal.ninf = .ok .nan := rfl
example : Fracs.pyMul false (.fracv 2 3) (.fracv 3 4) = .ok (.fracv 1 2) := rfl
example : Fracs.pyMul false (.intv 0) PyVal.inf = .error .notANumber := rfl
example : Fracs.div false false (.intv 3) (.intv 2) = .ok (.fracv 3 2) := rfl
example : Fracs.div false false (.fracv 3 2) (.fracv 3 2) = .ok (.intv 1) := rfl
example : Fracs.div false false (.intv 4) (.intv (-2)) = .ok (.intv (-2)) := rfl
example : Fracs.div false false (.intv 1) (.intv 0) = .error .zeroDivision := rfl
example : Fracs.div true false (.intv 1) (.intv 0) = .ok PyVal.inf := rfl
example : Fracs.div true false (.intv (-1)) (.intv 0) = .ok PyVal.ninf := rfl
example : Fracs.div true false (.intv 0) (.intv 0) = .ok .nan := rfl
example : Fracs.div false true (.intv 5) (.intv 0) = .ok .nan := rfl
example : Fracs.pyLt (.fracv 1 2) (.intv 1) = .toB true := rfl
example : Fracs.pyLt PyVal.inf PyVal.inf = .toB false := rfl
example : Fracs.pyLt PyVal.nan (.intv 0) = .invalid := rfl
example : Fracs.pyEq (.fracv 1 2) (.fracv 1 2) = .toB true := rfl

/-- C5: For every rational value `a` and exact zero divisor: `div` raises
ZeroDivisionError when neither ambient flag is enabled; with
`assume_positive_zero` it returns Inf / -Inf / NaN by the sign of `a`;
with only `allow_nans` it returns NaN.  `Frac.__truediv__` and
`__rtruediv__` always raise. -/
theorem C5_div_zero_policy (nans : Bool) (a : PyVal)
    (hnan : a ≠ .nan) (hden : 0 < a.denp) :
    (Fracs.div false false a (.intv 0) = .error .zeroDivision)
    ∧ (Fracs.div true nans a (.intv 0) =
        .ok (if 0 < a.toQ then PyVal.inf else if a.toQ < 0 then PyVal.ninf else .nan))
    ∧ (Fracs.div false true a (.intv 0) = .ok .nan)
    ∧ (∀ b : PyVal, Fracs.fracTruediv a b = .error .notImplemented) := by
  cases a with
  | nan => exact absurd rfl hnan
  | intv n =>
      have hpos : (0 < PyVal.toQ (.intv n)) ↔ 0 < n := by
        simp only [PyVal.toQ]; exact_mod_cast Iff.rfl
      have hneg : (PyVal.toQ (.intv n) < 0) ↔ n < 0 := by
        simp only [PyVal.toQ]; exact_mod_cast Iff.rfl
      refine ⟨rfl, ?_, rfl, fun b => rfl⟩
      rcases lt_trichotomy n 0 with h | h | h
      · rw [if_neg (by rw [hpos]; omega), if_pos (by rw [hneg]; exact h)]
        simp [Fracs.div, PyVal.denp, PyVal.nump, h, not_lt_of_gt h, h.ne]
      · subst h
        rw [if_neg (by rw [hpos]; omega), if_neg (by rw [hneg]; omega)]
        simp [Fracs.div, PyVal.denp, PyVal.nump]
      · rw [if_pos (by rw [hpos]; exact h)]
        simp [Fracs.div, PyVal.denp, PyVal.nump, h]
  | fracv n d =>
      simp only [PyVal.denp] at hden
      have hdq : (0 : ℚ) < (d : ℚ) := by exact_mod_cast hden
      have hpos : (0 < PyVal.toQ (.fracv n d)) ↔ 0 < n := by
        simp only [PyVal.toQ]
        rw [lt_div_iff₀ hdq]
        constructor
        · intro h; exact_mod_cast (by simpa using h)
        · intro h; have : (0:ℚ) < (n:ℚ) := by exact_mod_cast h
          simpa using this
      have hneg : (PyVal.toQ (.fracv n d) < 0) ↔ n < 0 := by
        simp only [PyVal.toQ]
        rw [div_lt_iff₀ hdq]
        constructor
        · intro h; exact_mod_cast (by simpa using h)
        · intro h; have : (n:ℚ) < (0:ℚ) := by exact_mod_cast h
          simpa using this
      refine ⟨rfl, ?_, rfl, fun b => rfl⟩
      rcases lt_trichotomy n 0 with h | h | h
      · rw [if_neg (by rw [hpos]; omega), if_pos (by rw [hneg]; exact h)]
        simp [Fracs.div, PyVal.denp, PyVal.nump, h, not_lt_of_gt h, h.ne]
      · subst h
        rw [if_neg (by rw [hpos]; omega), if_neg (by rw [hneg]; omega)]
        simp [Fracs.div, PyVal.denp, PyVal.nump]
      · rw [if_pos (by rw [hpos]; exact h)]
        simp [Fracs.div, PyVal.denp, PyVal.nump, h]

/-- C5 witness: the policy at the concrete input a = -3/2. -/
theorem C5_div_zero_policy_witness :
    (Fracs.div false false (.fracv (-3) 2) (.intv 0) = .error .zeroDivision)
    ∧ (Fracs.div true true (.fracv (-3) 2) (.intv 0) =
        .ok (if 0 < PyVal.toQ (.fracv (-3) 2) then PyVal.inf
             else if PyVal.toQ (.fracv (-3) 2) < 0 then PyVal.ninf else .nan))
    ∧ (Fracs.div false true (.fracv (-3) 2) (.intv 0) = .ok .nan)
    ∧ (∀ b : PyVal, Fracs.fracTruediv (.fracv (-3) 2) b = .error .notImplemented) :=
  C5_div_zero_policy true (.fracv (-3) 2) (by decide) (by decide)

/-- C6: every comparison with a NaN operand produces the Invalid marker,
whose coercion to bool raises ValueError; comparisons between non-NaN
operands produce a plain boolean. -/
theorem C6_nan_comparisons (sel : Fracs.CmpSel) (a b : PyVal) :
    ((a = .nan ∨ b = .nan) →
      Fracs.pyCmp sel a b = .invalid
      ∧ (Fracs.pyCmp sel a b).toBool = .error .valueError)
    ∧ (a ≠ .nan → b ≠ .nan → ∃ bl : Bool, Fracs.pyCmp sel a b = .toB bl) := by
  constructor
  · rintro (h | h) <;> subst h <;>
      cases sel <;> first
        | exact ⟨rfl, rfl⟩
        | (cases a <;> exact ⟨rfl, rfl⟩)
        | (cases b <;> exact ⟨rfl, rfl⟩)
  · intro ha hb
    cases sel <;> cases a <;> cases b <;> first
      | exact absurd rfl ha
      | exact absurd rfl hb
      | exact ⟨_, rfl⟩

/-- C6 witness: NaN < 0 is Invalid (raising on bool coercion), while
1/2 ≤ 1 is a plain boolean. -/
theorem C6_nan_comparisons_witness :
    (Fracs.pyCmp .lt .nan (.intv 0) = .invalid
      ∧ (Fracs.pyCmp .lt .nan (.intv 0)).toBool = .error .valueError)
    ∧ (∃ bl : Bool, Fracs.pyCmp .le (.fracv 1 2) (.intv 1) = .toB bl) :=
  ⟨(C6_nan_comparisons .lt .nan (.intv 0)).1 (Or.inl rfl),
   (C6_nan_comparisons .le (.fracv 1 2) (.intv 1)).2 (by decide) (by decide)⟩

namespace Fracs

/-- The normalization invariant for a stored Frac pair, as documented and
asserted in fracs.py: either an infinity `(±1, 0)`, or a denominator
strictly greater than 1 with a coprime numerator.  (A denominator equal to
1 is excluded because every operator collapses such a result to an int;
`(0, 0)` is excluded because it becomes NaN or raises.) -/
def normPair (n d : Int) : Prop :=
  (d = 0 ∧ (n = 1 ∨ n = -1)) ∨ (1 < d ∧ Int.gcd n d = 1)

instance (n d : Int) : Decidable (normPair n d) := by
  unfold normPair; infer_instance

/-- A well-formed Python numeric value: ints and NaN are always fine, a
Frac must satisfy the stored-pair invariant. -/
def normV : PyVal → Prop
  | .intv _ => True
  | .fracv n d => normPair n d
  | .nan => True

instance : DecidablePred normV := fun v =>
  match v with
  | .intv _ => .isTrue trivial
  | .fracv n d => (inferInstance : Decidable (normPair n d))
  | .nan => .isTrue trivial

/-- The `(numerator, denominator)` pairs that non-NaN well-formed values
expose to `_add` and `_mul`: integer pairs `(n, 1)` or normalized Frac
pairs. -/
def goodPair (n d : Int) : Prop := d = 1 ∨ normPair n d

/-- The possible raw results: an integer pair (denominator 1), the NaN
marker pair (0, 0), or a normalized pair. -/
def resOk (p : Int × Int) : Prop :=
  p.2 = 1 ∨ (p.1 = 0 ∧ p.2 = 0) ∨ normPair p.1 p.2

instance (p : Int × Int) : Decidable (resOk p) := by
  unfold resOk; infer_instance

theorem gcd_one_right' (n : Int) : Int.gcd n 1 = 1 := by
  simp [Int.gcd_eq_natAbs]

theorem gcd_pm_one_left {n : Int} (h : n = 1 ∨ n = -1) (d : Int) :
    Int.gcd n d = 1 := by
  rcases h with h | h <;> subst h <;> simp [Int.gcd_eq_natAbs]

theorem goodPair_facts {n d : Int} (h : goodPair n d) :
    Int.gcd n d = 1 ∧ 0 ≤ d := by
  rcases h with h | ⟨hd, hn⟩ | ⟨hd, hg⟩
  · subst h; exact ⟨gcd_one_right' n, by omega⟩
  · subst hd
    refine ⟨?_, le_refl 0⟩
    rcases hn with h | h <;> subst h <;> simp [Int.gcd_eq_natAbs]
  · exact ⟨hg, by omega⟩

theorem goodPair_zero {n d : Int} (h : goodPair n d) (hd : d = 0) :
    n = 1 ∨ n = -1 := by
  subst hd
  rcases h with h | ⟨_, hn⟩ | ⟨hd, _⟩
  · omega
  · exact hn
  · omega

theorem goodPair_neg {n d : Int} (h : goodPair n d) : goodPair (-n) d := by
  rcases h with h | ⟨hd, hn⟩ | ⟨hd, hg⟩
  · exact Or.inl h
  · exact Or.inr (Or.inl ⟨hd, by omega⟩)
  · exact Or.inr (Or.inr ⟨hd, by rwa [Int.neg_gcd]⟩)

theorem ediv_pos_of_dvd {a b : Int} (ha : 0 < a) (hb : 0 < b) (h : b ∣ a) :
    0 < a / b := by
  rcases h with ⟨c, rfl⟩
  rw [Int.mul_ediv_cancel_left c hb.ne']
  nlinarith

/-- Core coprimality fact behind `_add`: a cross-multiplied sum over two
coprime fractions with coprime denominators is coprime to the product of
the denominators. -/
theorem isCoprime_add_mul {x s y e : Int}
    (hxs : IsCoprime x s) (hye : IsCoprime y e) (hse : IsCoprime s e) :
    IsCoprime (x * e + y * s) (s * e) := by
  have h1 : IsCoprime (x * e + y * s) s := by
    have hx : IsCoprime (x * e) s := hxs.mul_left hse.symm
    exact hx.add_mul_right_left y
  have h2 : IsCoprime (x * e + y * s) e := by
    have hy : IsCoprime (y * s) e := hye.mul_left hse
    have h := hy.add_mul_left_left x
    rwa [show y * s + e * x = x * e + y * s by ring] at h
  exact h1.mul_right h2


theorem quot_dvd_self {a G : Int} (h : G ∣ a) : (a / G) ∣ a :=
  ⟨G, (Int.ediv_mul_cancel h).symm⟩

/-- Both coprimality halves of the cross-multiplied numerator `na*e + nb*s`
against the two (coprime) denominator parts. -/
theorem crossNum_coprime {na nb s e : Int}
    (hnas : IsCoprime na s) (hnbe : IsCoprime nb e) (hse : IsCoprime s e) :
    IsCoprime (na * e + nb * s) s ∧ IsCoprime (na * e + nb * s) e := by
  constructor
  · exact (hnas.mul_left hse.symm).add_mul_right_left nb
  · have h := (hnbe.mul_left hse).add_mul_left_left na
    rwa [show nb * s + e * na = na * e + nb * s by ring] at h

/-- `_add` maps well-formed input pairs to well-formed results: the raw sum
is an integer pair (denominator 1), the NaN marker (0, 0), or a normalized
pair. -/
theorem rawAdd_ok {na da nb db : Int} (ha : goodPair na da) (hb : goodPair nb db) :
    resOk (rawAdd na da nb db) := by
  obtain ⟨hga, hda⟩ := goodPair_facts ha
  obtain ⟨hgb, hdb⟩ := goodPair_facts hb
  simp only [rawAdd]
  split_ifs with h1 h2 h3 h4 h5 h6 h7
  · -- da = db = 0, na = nb: result (na, 0)
    exact Or.inr (Or.inr (Or.inl ⟨rfl, goodPair_zero ha h2⟩))
  · -- da = db = 0, na ≠ nb: result (0, 0)
    exact Or.inr (Or.inl ⟨rfl, rfl⟩)
  · -- da = db = 1: result (na + nb, 1)
    exact Or.inl h4
  · -- da = db > 1, reduced by g = gcd(na+nb, da) > 1
    subst h1
    have hlt : 1 < da := by omega
    have hgnat : 0 < Int.gcd (na + nb) da := by
      rcases Nat.eq_zero_or_pos (Int.gcd (na + nb) da) with h | h
      · rw [Int.gcd_eq_zero_iff] at h; omega
      · exact h
    have hg0 : (0:Int) < (Int.gcd (na + nb) da : Int) := by exact_mod_cast hgnat
    rw [Int.fdiv_eq_ediv _ hg0.le, Int.fdiv_eq_ediv _ hg0.le]
    have hco : Int.gcd ((na + nb) / (Int.gcd (na + nb) da : Int))
        (da / (Int.gcd (na + nb) da : Int)) = 1 := Int.gcd_div_gcd_div_gcd hgnat
    have hq : 0 < da / (Int.gcd (na + nb) da : Int) :=
      ediv_pos_of_dvd (by omega) hg0 Int.gcd_dvd_right
    rcases eq_or_ne (da / (Int.gcd (na + nb) da : Int)) 1 with he | he
    · exact Or.inl he
    · exact Or.inr (Or.inr (Or.inr ⟨by omega, hco⟩))
  · -- da = db > 1, g = 1: result (na + nb, da)
    subst h1
    have hlt : 1 < da := by omega
    have hgnat : 0 < Int.gcd (na + nb) da := by
      rcases Nat.eq_zero_or_pos (Int.gcd (na + nb) da) with h | h
      · rw [Int.gcd_eq_zero_iff] at h; omega
      · exact h
    have hone : Int.gcd (na + nb) da = 1 := by omega
    exact Or.inr (Or.inr (Or.inr ⟨hlt, hone⟩))
  · -- da ≠ db, gcd(da, db) ≤ 1: result (na*db + da*nb, da*db)
    rcases eq_or_ne da 0 with h0 | h0
    · -- a is an infinity, and db must be 1
      subst h0
      have hna := goodPair_zero ha rfl
      have hdb1 : db = 1 := by
        have := Int.gcd_zero_left db
        omega
      subst hdb1
      refine Or.inr (Or.inr (Or.inl ⟨by ring, ?_⟩))
      rcases hna with h | h <;> subst h <;> norm_num
    rcases eq_or_ne db 0 with h0' | h0'
    · subst h0'
      have hnb := goodPair_zero hb rfl
      have hda1 : da = 1 := by
        have := Int.gcd_zero_right da
        omega
      subst hda1
      refine Or.inr (Or.inr (Or.inl ⟨by ring, ?_⟩))
      rcases hnb with h | h <;> subst h <;> norm_num
    · -- both denominators positive and coprime
      have hda1 : 0 < da := by omega
      have hdb1 : 0 < db := by omega
      have hcd : Int.gcd da db = 1 := by
        have : 0 < Int.gcd da db := by rw [Int.gcd_pos_iff]; left; exact h0
        omega
      obtain ⟨hts, hte⟩ := crossNum_coprime (Int.gcd_eq_one_iff_coprime.mp hga)
        (Int.gcd_eq_one_iff_coprime.mp hgb) (Int.gcd_eq_one_iff_coprime.mp hcd)
      have hcop : IsCoprime (na * db + da * nb) (da * db) := by
        have h := hts.mul_right hte
        rwa [show na * db + nb * da = na * db + da * nb by ring] at h
      have hg1 : Int.gcd (na * db + da * nb) (da * db) = 1 :=
        Int.gcd_eq_one_iff_coprime.mpr hcop
      have hpos := mul_pos hda1 hdb1
      rcases eq_or_ne (da * db) 1 with he | he
      · exact Or.inl he
      · exact Or.inr (Or.inr (Or.inr ⟨by omega, hg1⟩))
  · -- da ≠ db, g = gcd(da, db) > 1, g2 = gcd(t, g) = 1: result (t, s*db)
    have hgnat : 1 < Int.gcd da db := by omega
    have hg0 : (0:Int) < (Int.gcd da db : Int) := by omega
    rcases eq_or_ne da 0 with h0 | h0
    · -- a is an infinity
      subst h0
      have hna := goodPair_zero ha rfl
      have hdbne : db ≠ 0 := by
        intro hc; subst hc; simp [Int.gcd_zero_left] at hgnat
      have hGdb : ((Int.gcd (0:ℤ) db : Int)) = db := by
        rw [Int.gcd_zero_left, Int.natAbs_of_nonneg hdb]
      rw [Int.zero_fdiv, Int.fdiv_eq_ediv db hg0.le, hGdb, Int.ediv_self hdbne]
      simp only [mul_one, mul_zero, add_zero, zero_mul]
      exact Or.inr (Or.inr (Or.inl ⟨rfl, hna⟩))
    rcases eq_or_ne db 0 with h0' | h0'
    · -- b is an infinity
      subst h0'
      have hnb := goodPair_zero hb rfl
      have hGda : ((Int.gcd da (0:ℤ) : Int)) = da := by
        rw [Int.gcd_zero_right, Int.natAbs_of_nonneg hda]
      rw [Int.zero_fdiv, Int.fdiv_eq_ediv da hg0.le, hGda, Int.ediv_self h0]
      simp only [mul_zero, mul_one, zero_add, one_mul]
      exact Or.inr (Or.inr (Or.inl ⟨rfl, hnb⟩))
    · -- both denominators positive
      have hda1 : 0 < da := by omega
      have hdb1 : 0 < db := by omega
      rw [Int.fdiv_eq_ediv da hg0.le, Int.fdiv_eq_ediv db hg0.le] at h7 ⊢
      have hsdvd : ((Int.gcd da db : Int)) ∣ da := Int.gcd_dvd_left
      have hedvd : ((Int.gcd da db : Int)) ∣ db := Int.gcd_dvd_right
      have hs : 0 < da / (Int.gcd da db : Int) := ediv_pos_of_dvd hda1 hg0 hsdvd
      have hse : IsCoprime (da / (Int.gcd da db : Int)) (db / (Int.gcd da db : Int)) :=
        Int.gcd_eq_one_iff_coprime.mp (Int.gcd_div_gcd_div_gcd (by omega))
      have hnas : IsCoprime na (da / (Int.gcd da db : Int)) :=
        (Int.gcd_eq_one_iff_coprime.mp hga).of_isCoprime_of_dvd_right (quot_dvd_self hsdvd)
      have hnbe : IsCoprime nb (db / (Int.gcd da db : Int)) :=
        (Int.gcd_eq_one_iff_coprime.mp hgb).of_isCoprime_of_dvd_right (quot_dvd_self hedvd)
      obtain ⟨hts, hte⟩ := crossNum_coprime hnas hnbe hse
      have htgnat : Int.gcd (na * (db / (Int.gcd da db : Int)) +
          nb * (da / (Int.gcd da db : Int))) (Int.gcd da db : Int) = 1 := by
        exact_mod_cast h7
      have htg := Int.gcd_eq_one_iff_coprime.mp htgnat
      have hden : IsCoprime (na * (db / (Int.gcd da db : Int)) +
          nb * (da / (Int.gcd da db : Int))) ((da / (Int.gcd da db : Int)) * db) := by
        have hdbeq : (db / (Int.gcd da db : Int)) * (Int.gcd da db : Int) = db :=
          Int.ediv_mul_cancel hedvd
        have h := hts.mul_right (hte.mul_right htg)
        rwa [hdbeq] at h
      have hdenpos : 0 < (da / (Int.gcd da db : Int)) * db := mul_pos hs hdb1
      rcases eq_or_ne ((da / (Int.gcd da db : Int)) * db) 1 with hone | hone
      · exact Or.inl hone
      · exact Or.inr (Or.inr (Or.inr ⟨by omega, Int.gcd_eq_one_iff_coprime.mpr hden⟩))
  · -- da ≠ db, g = gcd(da, db) > 1, g2 = gcd(t, g) > 1
    have hgnat : 1 < Int.gcd da db := by omega
    have hg0 : (0:Int) < (Int.gcd da db : Int) := by omega
    rcases eq_or_ne da 0 with h0 | h0
    · -- impossible: t = na = ±1 so g2 = 1
      subst h0
      have hna := goodPair_zero ha rfl
      exfalso
      apply h7
      have hdbne : db ≠ 0 := by
        intro hc; subst hc; simp [Int.gcd_zero_left] at hgnat
      have hGdb : ((Int.gcd (0:ℤ) db : Int)) = db := by
        rw [Int.gcd_zero_left, Int.natAbs_of_nonneg hdb]
      rw [Int.zero_fdiv, Int.fdiv_eq_ediv db hg0.le, hGdb, Int.ediv_self hdbne]
      simp only [mul_one, mul_zero, add_zero]
      exact_mod_cast gcd_pm_one_left hna db
    rcases eq_or_ne db 0 with h0' | h0'
    · subst h0'
      have hnb := goodPair_zero hb rfl
      exfalso
      apply h7
      have hGda : ((Int.gcd da (0:ℤ) : Int)) = da := by
        rw [Int.gcd_zero_right, Int.natAbs_of_nonneg hda]
      rw [Int.zero_fdiv, Int.fdiv_eq_ediv da hg0.le, hGda, Int.ediv_self h0]
      simp only [mul_zero, mul_one, zero_add]
      exact_mod_cast gcd_pm_one_left hnb da
    · -- both denominators positive; divide out g2 as well
      have hda1 : 0 < da := by omega
      have hdb1 : 0 < db := by omega
      rw [Int.fdiv_eq_ediv da hg0.le, Int.fdiv_eq_ediv db hg0.le] at h7 ⊢
      have hsdvd : ((Int.gcd da db : Int)) ∣ da := Int.gcd_dvd_left
      have hedvd : ((Int.gcd da db : Int)) ∣ db := Int.gcd_dvd_right
      have hs : 0 < da / (Int.gcd da db : Int) := ediv_pos_of_dvd hda1 hg0 hsdvd
      have hse : IsCoprime (da / (Int.gcd da db : Int)) (db / (Int.gcd da db : Int)) :=
        Int.gcd_eq_one_iff_coprime.mp (Int.gcd_div_gcd_div_gcd (by omega))
      have hnas : IsCoprime na (da / (Int.gcd da db : Int)) :=
        (Int.gcd_eq_one_iff_coprime.mp hga).of_isCoprime_of_dvd_right (quot_dvd_self hsdvd)
      have hnbe : IsCoprime nb (db / (Int.gcd da db : Int)) :=
        (Int.gcd_eq_one_iff_coprime.mp hgb).of_isCoprime_of_dvd_right (quot_dvd_self hedvd)
      obtain ⟨hts, hte⟩ := crossNum_coprime hnas hnbe hse
      have hg2pos : 0 < Int.gcd (na * (db / (Int.gcd da db : Int)) +
          nb * (da / (Int.gcd da db : Int))) (Int.gcd da db : Int) := by
        rw [Int.gcd_pos_iff]; right
        exact_mod_cast hg0.ne'
      have hg2_0 : (0:Int) < (Int.gcd (na * (db / (Int.gcd da db : Int)) +
          nb * (da / (Int.gcd da db : Int))) (Int.gcd da db : Int) : Int) := by
        exact_mod_cast hg2pos
      rw [Int.fdiv_eq_ediv _ hg2_0.le, Int.fdiv_eq_ediv db hg2_0.le]
      have hg2t : ((Int.gcd (na * (db / (Int.gcd da db : Int)) +
          nb * (da / (Int.gcd da db : Int))) (Int.gcd da db : Int) : Int)) ∣
          (na * (db / (Int.gcd da db : Int)) + nb * (da / (Int.gcd da db : Int))) :=
        Int.gcd_dvd_left
      have hg2g : ((Int.gcd (na * (db / (Int.gcd da db : Int)) +
          nb * (da / (Int.gcd da db : Int))) (Int.gcd da db : Int) : Int)) ∣
          (Int.gcd da db : Int) :=
        Int.gcd_dvd_right
      have hg2db := hg2g.trans hedvd
      have hdbg : (db / (Int.gcd da db : Int)) * (Int.gcd da db : Int) = db :=
        Int.ediv_mul_cancel hedvd
      have hsplit := Int.mul_ediv_assoc (db / (Int.gcd da db : Int)) hg2g
      rw [hdbg] at hsplit
      have htq := quot_dvd_self hg2t
      have hq1 := hts.of_isCoprime_of_dvd_left htq
      have hq2 := hte.of_isCoprime_of_dvd_left htq
      have hq3 := Int.gcd_eq_one_iff_coprime.mp (Int.gcd_div_gcd_div_gcd hg2pos)
      have hden := hq1.mul_right (hq2.mul_right hq3)
      rw [← hsplit] at hden
      have hqpos : 0 < db / (Int.gcd (na * (db / (Int.gcd da db : Int)) +
          nb * (da / (Int.gcd da db : Int))) (Int.gcd da db : Int) : Int) :=
        ediv_pos_of_dvd hdb1 hg2_0 hg2db
      have hdenpos := mul_pos hs hqpos
      rcases eq_or_ne ((da / (Int.gcd da db : Int)) *
          (db / (Int.gcd (na * (db / (Int.gcd da db : Int)) +
            nb * (da / (Int.gcd da db : Int))) (Int.gcd da db : Int) : Int))) 1 with hone | hone
      · exact Or.inl hone
      · exact Or.inr (Or.inr (Or.inr ⟨by omega, Int.gcd_eq_one_iff_coprime.mpr hden⟩))

theorem small_gcd_quot {x y : Int} (h : (Int.gcd x y : Int) ≤ 1) :
    x / (Int.gcd x y : Int) = x ∧ y / (Int.gcd x y : Int) = y := by
  have h01 : Int.gcd x y = 0 ∨ Int.gcd x y = 1 := by omega
  rcases h01 with h' | h'
  · have := Int.gcd_eq_zero_iff.mp h'
    obtain ⟨rfl, rfl⟩ := this
    simp
  · rw [h']
    norm_num

/-- goodPair with a zero numerator forces denominator 1 (the value is the
int 0). -/
theorem goodPair_num_zero {d : Int} (h : goodPair 0 d) : d = 1 := by
  rcases h with h | ⟨hd, hn⟩ | ⟨hd, hg⟩
  · exact h
  · omega
  · rw [Int.gcd_eq_natAbs] at hg
    simp at hg
    omega

/-- The fully reduced form of `_mul` output, with all divisions as exact
euclidean divisions. -/
theorem rawMul_core {na da nb db : Int} (ha : goodPair na da) (hb : goodPair nb db) :
    resOk (na / (Int.gcd na db : Int) * (nb / (Int.gcd nb da : Int)),
           db / (Int.gcd na db : Int) * (da / (Int.gcd nb da : Int))) := by
  obtain ⟨hga, hda⟩ := goodPair_facts ha
  obtain ⟨hgb, hdb⟩ := goodPair_facts hb
  rcases eq_or_ne da 0 with hda0 | hda0
  · -- a is an infinity: na = ±1
    have hna := goodPair_zero ha hda0
    subst hda0
    have hg1 : Int.gcd na db = 1 := gcd_pm_one_left hna db
    rcases eq_or_ne nb 0 with hnb0 | hnb0
    · -- 0 * Inf: the (0, 0) NaN marker
      subst hnb0
      rw [hg1]
      simp only [Nat.cast_one, Int.ediv_one, Int.zero_ediv, mul_zero]
      exact Or.inr (Or.inl ⟨rfl, rfl⟩)
    · -- finite-or-infinite nonzero b times an infinity: result (±1, 0)
      have hg2 : (Int.gcd nb (0:ℤ) : Int) = nb.natAbs := by rw [Int.gcd_zero_right]
      rw [hg1, hg2]
      have h1 : nb / (nb.natAbs : Int) = 1 ∨ nb / (nb.natAbs : Int) = -1 := by
        rcases lt_trichotomy nb 0 with h | h | h
        · right
          rw [show ((nb.natAbs : Int)) = -nb by omega]
          rw [Int.ediv_neg, Int.ediv_self hnb0]
        · omega
        · left
          rw [Int.natAbs_of_nonneg h.le, Int.ediv_self hnb0]
      have h2 : (0:Int) / (nb.natAbs : Int) = 0 := Int.zero_ediv _
      rw [h2]
      simp only [Int.ediv_one, mul_zero]
      rcases hna with h | h <;> rcases h1 with h' | h' <;> rw [h, h'] <;>
        exact Or.inr (Or.inr (Or.inl ⟨rfl, by norm_num⟩))
  rcases eq_or_ne db 0 with hdb0 | hdb0
  · -- b is an infinity: nb = ±1
    have hnb := goodPair_zero hb hdb0
    subst hdb0
    have hg2 : Int.gcd nb da = 1 := gcd_pm_one_left hnb da
    rcases eq_or_ne na 0 with hna0 | hna0
    · subst hna0
      rw [hg2]
      simp only [Nat.cast_one, Int.ediv_one, Int.zero_ediv, mul_zero, zero_mul]
      exact Or.inr (Or.inl ⟨rfl, rfl⟩)
    · have hg1 : (Int.gcd na (0:ℤ) : Int) = na.natAbs := by rw [Int.gcd_zero_right]
      rw [hg1, hg2]
      have h1 : na / (na.natAbs : Int) = 1 ∨ na / (na.natAbs : Int) = -1 := by
        rcases lt_trichotomy na 0 with h | h | h
        · right
          rw [show ((na.natAbs : Int)) = -na by omega]
          rw [Int.ediv_neg, Int.ediv_self hna0]
        · omega
        · left
          rw [Int.natAbs_of_nonneg h.le, Int.ediv_self hna0]
      have h2 : (0:Int) / (na.natAbs : Int) = 0 := Int.zero_ediv _
      rw [h2]
      simp only [Int.ediv_one, zero_mul, mul_zero]
      rcases hnb with h | h <;> rcases h1 with h' | h' <;> rw [h, h'] <;>
        norm_num <;> exact Or.inr (Or.inr (Or.inl ⟨rfl, by norm_num⟩))
  · -- both values finite: positive denominators
    have hda1 : 0 < da := by omega
    have hdb1 : 0 < db := by omega
    rcases eq_or_ne na 0 with hna0 | hna0
    · -- a is the int 0
      have hda' : da = 1 := goodPair_num_zero (hna0 ▸ ha)
      subst hna0; subst hda'
      have hg1 : ((Int.gcd 0 db : Int)) = db := by
        rw [Int.gcd_zero_left, Int.natAbs_of_nonneg hdb]
      have hg2 : Int.gcd nb 1 = 1 := gcd_one_right' nb
      rw [hg1, hg2, Int.zero_ediv, Int.ediv_self hdb0]
      norm_num
      exact Or.inl rfl
    rcases eq_or_ne nb 0 with hnb0 | hnb0
    · have hdb' : db = 1 := goodPair_num_zero (hnb0 ▸ hb)
      subst hnb0; subst hdb'
      have hg2 : ((Int.gcd 0 da : Int)) = da := by
        rw [Int.gcd_zero_left, Int.natAbs_of_nonneg hda]
      have hg1 : Int.gcd na 1 = 1 := gcd_one_right' na
      rw [hg1, hg2, Int.zero_ediv, Int.ediv_self hda0]
      norm_num
      exact Or.inl rfl
    · -- the generic coprime-reduction case
      have hg1pos : 0 < Int.gcd na db := by rw [Int.gcd_pos_iff]; left; exact hna0
      have hg2pos : 0 < Int.gcd nb da := by rw [Int.gcd_pos_iff]; left; exact hnb0
      have hg1_0 : (0:Int) < (Int.gcd na db : Int) := by exact_mod_cast hg1pos
      have hg2_0 : (0:Int) < (Int.gcd nb da : Int) := by exact_mod_cast hg2pos
      have hd1 : ((Int.gcd na db : Int)) ∣ db := Int.gcd_dvd_right
      have hd2 : ((Int.gcd nb da : Int)) ∣ da := Int.gcd_dvd_right
      have hd1n : ((Int.gcd na db : Int)) ∣ na := Int.gcd_dvd_left
      have hd2n : ((Int.gcd nb da : Int)) ∣ nb := Int.gcd_dvd_left
      have p1 : IsCoprime (na / (Int.gcd na db : Int)) (db / (Int.gcd na db : Int)) :=
        Int.gcd_eq_one_iff_coprime.mp (Int.gcd_div_gcd_div_gcd hg1pos)
      have p3 : IsCoprime (nb / (Int.gcd nb da : Int)) (da / (Int.gcd nb da : Int)) :=
        Int.gcd_eq_one_iff_coprime.mp (Int.gcd_div_gcd_div_gcd hg2pos)
      have p2 : IsCoprime (na / (Int.gcd na db : Int)) (da / (Int.gcd nb da : Int)) :=
        ((Int.gcd_eq_one_iff_coprime.mp hga).of_isCoprime_of_dvd_left
          (quot_dvd_self hd1n)).of_isCoprime_of_dvd_right (quot_dvd_self hd2)
      have p4 : IsCoprime (nb / (Int.gcd nb da : Int)) (db / (Int.gcd na db : Int)) :=
        ((Int.gcd_eq_one_iff_coprime.mp hgb).of_isCoprime_of_dvd_left
          (quot_dvd_self hd2n)).of_isCoprime_of_dvd_right (quot_dvd_self hd1)
      have hA := p1.mul_right p2
      have hB := p4.mul_right p3
      have hco := hA.mul_left hB
      have hq1 : 0 < db / (Int.gcd na db : Int) := ediv_pos_of_dvd hdb1 hg1_0 hd1
      have hq2 : 0 < da / (Int.gcd nb da : Int) := ediv_pos_of_dvd hda1 hg2_0 hd2
      have hdenpos := mul_pos hq1 hq2
      rcases eq_or_ne ((db / (Int.gcd na db : Int)) * (da / (Int.gcd nb da : Int))) 1
        with hone | hone
      · exact Or.inl hone
      · exact Or.inr (Or.inr (Or.inr ⟨by omega, Int.gcd_eq_one_iff_coprime.mpr hco⟩))

/-- `_mul` maps well-formed input pairs to well-formed results. -/
theorem rawMul_ok {na da nb db : Int} (ha : goodPair na da) (hb : goodPair nb db) :
    resOk (rawMul na da nb db) := by
  have core := rawMul_core ha hb
  simp only [rawMul]
  split_ifs with h1 h2
  · rw [Int.fdiv_eq_ediv na (by omega), Int.fdiv_eq_ediv db (by omega),
        Int.fdiv_eq_ediv nb (by omega), Int.fdiv_eq_ediv da (by omega)]
    exact core
  · obtain ⟨e1, e2⟩ := small_gcd_quot (x := nb) (y := da) (by omega)
    rw [e1, e2] at core
    rw [Int.fdiv_eq_ediv na (by omega), Int.fdiv_eq_ediv db (by omega)]
    exact core
  · obtain ⟨e1, e2⟩ := small_gcd_quot (x := na) (y := db) (by omega)
    rw [e1, e2] at core
    rw [Int.fdiv_eq_ediv nb (by omega), Int.fdiv_eq_ediv da (by omega)]
    exact core
  · obtain ⟨e1, e2⟩ := small_gcd_quot (x := na) (y := db) (by omega)
    obtain ⟨e3, e4⟩ := small_gcd_quot (x := nb) (y := da) (by omega)
    rw [e1, e2, e3, e4] at core
    exact core

/-- Every value an operation returns successfully is well-formed. -/
def normRes (r : Except PyErr PyVal) : Prop :=
  ∀ v : PyVal, r = .ok v → normV v

theorem normPair_neg {n d : Int} (h : normPair n d) : normPair (-n) d := by
  rcases h with ⟨hd, hn⟩ | ⟨hd, hg⟩
  · exact Or.inl ⟨hd, by omega⟩
  · exact Or.inr ⟨hd, by rwa [Int.neg_gcd]⟩

theorem normV_good {v : PyVal} (h : normV v) (hnan : v ≠ .nan) :
    goodPair v.nump v.denp := by
  cases v with
  | intv n => exact Or.inl rfl
  | fracv n d => exact Or.inr h
  | nan => exact absurd rfl hnan

theorem collapse_norm {nans : Bool} {p : Int × Int} (h : resOk p) :
    normRes (collapse nans p) := by
  intro v hv
  unfold collapse at hv
  rcases h with h | h | h
  · rw [if_pos h] at hv
    cases hv; trivial
  · rw [if_neg (by omega), if_pos h] at hv
    unfold mkNan at hv
    split at hv <;> cases hv
    trivial
  · have h2 : p.2 ≠ 1 := by
      rcases h with ⟨hd, _⟩ | ⟨hd, _⟩ <;> omega
    have h0 : ¬(p.1 = 0 ∧ p.2 = 0) := by
      rintro ⟨ha, hb⟩
      rcases h with ⟨hd, hn⟩ | ⟨hd, _⟩ <;> omega
    rw [if_neg h2, if_neg h0] at hv
    cases hv
    exact h

theorem pyAdd_norm (nans : Bool) {a b : PyVal} (ha : normV a) (hb : normV b) :
    normRes (pyAdd nans a b) := by
  cases a with
  | nan => cases b <;> (intro v hv; cases hv; trivial)
  | intv x =>
      cases b with
      | nan => intro v hv; cases hv; trivial
      | intv y => intro v hv; cases hv; trivial
      | fracv bn bd =>
          simp only [pyAdd]
          split_ifs with h
          · intro v hv; cases hv; exact hb
          · exact collapse_norm (rawAdd_ok (Or.inr hb) (Or.inl rfl))
  | fracv sn sd =>
      cases b with
      | nan => intro v hv; cases hv; trivial
      | intv y =>
          simp only [pyAdd]
          split_ifs with h
          · intro v hv; cases hv; exact ha
          · exact collapse_norm (rawAdd_ok (Or.inr ha) (Or.inl rfl))
      | fracv bn bd =>
          simp only [pyAdd]
          split_ifs with h
          · intro v hv; cases hv; exact ha
          · exact collapse_norm (rawAdd_ok (Or.inr ha) (Or.inr hb))

theorem pySub_norm (nans : Bool) {a b : PyVal} (ha : normV a) (hb : normV b) :
    normRes (pySub nans a b) := by
  cases a with
  | nan => cases b <;> (intro v hv; cases hv; trivial)
  | intv x =>
      cases b with
      | nan => intro v hv; cases hv; trivial
      | intv y => intro v hv; cases hv; trivial
      | fracv bn bd =>
          simp only [pySub]
          split_ifs with h
          · intro v hv; cases hv; exact normPair_neg hb
          · exact collapse_norm (rawAdd_ok (Or.inl rfl) (Or.inr (normPair_neg hb)))
  | fracv sn sd =>
      cases b with
      | nan => intro v hv; cases hv; trivial
      | intv y =>
          simp only [pySub]
          split_ifs with h
          · intro v hv; cases hv; exact ha
          · exact collapse_norm (rawAdd_ok (Or.inr ha) (Or.inl rfl))
      | fracv bn bd =>
          simp only [pySub]
          split_ifs with h
          · intro v hv; cases hv; exact ha
          · exact collapse_norm (rawAdd_ok (Or.inr ha) (Or.inr (normPair_neg hb)))

theorem mulFrac_norm (nans : Bool) {sn sd : Int} {other : PyVal}
    (hs : normPair sn sd) (ho : normV other) (hnan : other ≠ .nan) :
    normRes (pyMul.mulFrac nans sn sd other) := by
  unfold pyMul.mulFrac
  split_ifs with h1 h2 h3 h4
  · intro v hv; cases hv; exact hs
  · intro v hv; cases hv; exact ho
  · intro v hv; cases hv; exact normPair_neg hs
  · exact collapse_norm (rawMul_ok (Or.inr hs) (normV_good ho hnan))
  · exact collapse_norm (rawMul_ok (Or.inr hs) (normV_good ho hnan))

theorem pyMul_norm (nans : Bool) {a b : PyVal} (ha : normV a) (hb : normV b) :
    normRes (pyMul nans a b) := by
  cases a with
  | nan => cases b <;> (intro v hv; cases hv; trivial)
  | intv x =>
      cases b with
      | nan => intro v hv; cases hv; trivial
      | intv y => intro v hv; cases hv; trivial
      | fracv bn bd => exact mulFrac_norm nans hb (by trivial) (by simp)
  | fracv sn sd =>
      cases b with
      | nan => intro v hv; cases hv; trivial
      | intv y => exact mulFrac_norm nans ha (by trivial) (by simp)
      | fracv bn bd => exact mulFrac_norm nans ha hb (by simp)

/-- The sign-flipped divisor pair fed to `_mul` by the general path of
`div` is well-formed whenever the divisor value is. -/
theorem flipPair_good {den : PyVal} (h : normV den) (hnan : den ≠ .nan) :
    goodPair (if den.nump < 0 then -den.denp else den.denp)
             (if den.nump < 0 then -den.nump else den.nump) := by
  cases den with
  | nan => exact absurd rfl hnan
  | intv k =>
      simp only [PyVal.nump, PyVal.denp]
      rcases lt_trichotomy k 0 with hk | hk | hk
      · rw [if_pos hk, if_pos hk]
        rcases eq_or_ne k (-1) with h1 | h1
        · subst h1; exact Or.inl rfl
        · refine Or.inr (Or.inr ⟨by omega, ?_⟩)
          rw [Int.gcd_eq_natAbs]
          simp
      · subst hk
        exact Or.inr (Or.inl ⟨rfl, Or.inl rfl⟩)
      · rw [if_neg (by omega), if_neg (by omega)]
        rcases eq_or_ne k 1 with h1 | h1
        · subst h1; exact Or.inl rfl
        · refine Or.inr (Or.inr ⟨by omega, ?_⟩)
          rw [Int.gcd_eq_natAbs]
          simp
  | fracv p q =>
      simp only [PyVal.nump, PyVal.denp]
      rcases h with ⟨hq, hp⟩ | ⟨hq, hg⟩
      · subst hq
        rcases hp with h1 | h1 <;> subst h1
        · rw [if_neg (by omega), if_neg (by omega)]
          exact Or.inl rfl
        · rw [if_pos (by omega), if_pos (by omega)]
          exact Or.inl rfl
      · have hp0 : p ≠ 0 := by
          intro hc; subst hc
          rw [Int.gcd_eq_natAbs] at hg
          simp at hg
          omega
        have hgq : Int.gcd (if p < 0 then -q else q) (if p < 0 then -p else p) = 1 := by
          rcases lt_or_ge p 0 with h | h
          · rw [if_pos h, if_pos h, Int.neg_gcd, Int.gcd_eq_natAbs,
               Int.natAbs_neg, ← Int.gcd_eq_natAbs, Int.gcd_comm]
            exact hg
          · rw [if_neg (by omega), if_neg (by omega), Int.gcd_comm]
            exact hg
        rcases eq_or_ne (p.natAbs) 1 with h1 | h1
        · refine Or.inl ?_
          rcases lt_or_ge p 0 with h | h
          · rw [if_pos h]; omega
          · rw [if_neg (by omega)]; omega
        · refine Or.inr (Or.inr ⟨?_, hgq⟩)
          rcases lt_or_ge p 0 with h | h
          · rw [if_pos h]; omega
          · rw [if_neg (by omega)]; omega

theorem divGeneral_norm (nans : Bool) {num den : PyVal}
    (hn : normV num) (hd : normV den)
    (hnn : num ≠ .nan) (hdn : den ≠ .nan) :
    normRes (div.divGeneral nans num den) := by
  unfold div.divGeneral
  exact collapse_norm (rawMul_ok (normV_good hn hnn) (flipPair_good hd hdn))

theorem divII_red {n1 d1 : Int} (hn1 : n1 ≠ 0) (hd1 : 0 ≤ d1) :
    normRes (if d1 / (Int.gcd n1 d1 : Int) = 1
             then .ok (.intv (n1 / (Int.gcd n1 d1 : Int)))
             else .ok (.fracv (n1 / (Int.gcd n1 d1 : Int))
                              (d1 / (Int.gcd n1 d1 : Int)))) := by
  have hgpos : 0 < Int.gcd n1 d1 := by rw [Int.gcd_pos_iff]; left; exact hn1
  have hgi : (0:Int) < (Int.gcd n1 d1 : Int) := by exact_mod_cast hgpos
  have hco := Int.gcd_div_gcd_div_gcd hgpos
  rcases eq_or_ne d1 0 with h0 | h0
  · subst h0
    have hzq : (0:Int) / (Int.gcd n1 0 : Int) = 0 := Int.zero_ediv _
    rw [hzq, if_neg (by omega)]
    intro v hv
    cases hv
    refine Or.inl ⟨rfl, ?_⟩
    have : ((Int.gcd n1 0 : Int)) = n1.natAbs := by rw [Int.gcd_zero_right]
    rw [this]
    rcases lt_trichotomy n1 0 with h | h | h
    · right
      rw [show ((n1.natAbs : Int)) = -n1 by omega, Int.ediv_neg, Int.ediv_self hn1]
    · omega
    · left
      rw [Int.natAbs_of_nonneg h.le, Int.ediv_self hn1]
  · have hd1p : 0 < d1 := by omega
    have hq : 0 < d1 / (Int.gcd n1 d1 : Int) :=
      ediv_pos_of_dvd hd1p hgi Int.gcd_dvd_right
    split_ifs with hone
    · intro v hv; cases hv; trivial
    · intro v hv; cases hv
      exact Or.inr ⟨by omega, hco⟩

theorem divII_norm {n dn : Int} (hn : n ≠ 0) : normRes (divII n dn) := by
  simp only [divII]
  set n1 := (if dn < 0 then -n else n) with hn1
  set d1 := (if dn < 0 then -dn else dn) with hd1
  have hn1ne : n1 ≠ 0 := by
    rw [hn1]; split_ifs <;> omega
  have hd1nn : 0 ≤ d1 := by
    rw [hd1]; split_ifs with h <;> omega
  have core := divII_red hn1ne hd1nn
  by_cases hgt : ((Int.gcd n1 d1 : Int)) > 1
  · rw [if_pos hgt, if_pos hgt,
        Int.fdiv_eq_ediv _ (by positivity), Int.fdiv_eq_ediv _ (by positivity)]
    exact core
  · obtain ⟨e1, e2⟩ := small_gcd_quot (x := n1) (y := d1) (by omega)
    rw [if_neg hgt, if_neg hgt]
    rw [e1, e2] at core
    exact core

theorem div_norm (apz nans : Bool) {a b : PyVal} (ha : normV a) (hb : normV b) :
    normRes (Fracs.div apz nans a b) := by
  unfold Fracs.div
  by_cases hnan : a = .nan ∨ b = .nan
  · rw [if_pos hnan]
    intro v hv
    unfold mkNan at hv
    split_ifs at hv
    cases hv
    trivial
  rw [if_neg hnan]
  push_neg at hnan
  obtain ⟨hna, hnb⟩ := hnan
  by_cases hd1 : b.denp = 1
  · rw [if_pos hd1]
    by_cases hb1 : b.nump = 1
    · rw [if_pos hb1]
      intro v hv; cases hv; exact ha
    rw [if_neg hb1]
    by_cases hb0 : b.nump = 0
    · rw [if_pos hb0]
      intro v hv
      split_ifs at hv <;> cases hv <;> trivial
    rw [if_neg hb0]
    by_cases hnd : a.denp = 1
    · rw [if_pos hnd]
      by_cases h0 : a.nump = 0
      · rw [if_pos h0]
        intro v hv; cases hv; trivial
      · rw [if_neg h0]
        exact divII_norm h0
    · rw [if_neg hnd]
      exact divGeneral_norm nans ha hb hna hnb
  · rw [if_neg hd1]
    exact divGeneral_norm nans ha hb hna hnb

theorem pyNeg_norm {a : PyVal} (ha : normV a) : normV (pyNeg a) := by
  cases a with
  | nan => trivial
  | intv n => trivial
  | fracv n d =>
      simp only [pyNeg]
      split_ifs with h
      · exact ha
      · exact normPair_neg ha

theorem pyAbs_norm {a : PyVal} (ha : normV a) : normV (pyAbs a) := by
  cases a with
  | nan => trivial
  | intv n => trivial
  | fracv n d =>
      simp only [pyAbs]
      split_ifs with h
      · exact ha
      · exact normPair_neg ha

end Fracs

/-- C9: every value reachable through the public constructors and
operators (+, -, *, `div`, unary negation, abs — `frac(num, den)` reduces
to `div`) from well-formed values is well-formed: denominators are
nonnegative and never 1 (such results collapse to plain ints), stored
pairs are in lowest terms, infinities are exactly (±1, 0), and (0, 0) is
never stored (it becomes NaN or raises). -/
theorem C9_normalized (apz nans : Bool) (a b : PyVal)
    (ha : Fracs.normV a) (hb : Fracs.normV b) :
    Fracs.normRes (Fracs.pyAdd nans a b)
    ∧ Fracs.normRes (Fracs.pySub nans a b)
    ∧ Fracs.normRes (Fracs.pyMul nans a b)
    ∧ Fracs.normRes (Fracs.div apz nans a b)
    ∧ Fracs.normV (Fracs.pyNeg a)
    ∧ Fracs.normV (Fracs.pyAbs a) :=
  ⟨Fracs.pyAdd_norm nans ha hb, Fracs.pySub_norm nans ha hb,
   Fracs.pyMul_norm nans ha hb, Fracs.div_norm apz nans ha hb,
   Fracs.pyNeg_norm ha, Fracs.pyAbs_norm ha⟩

/-- C9 witness: concrete instances — 1/2 + 1/6 = 2/3 is stored normalized,
(3/2) * (2/3) collapses to the int 1, and 5 / (-10) is stored as -1/2. -/
theorem C9_normalized_witness :
    Fracs.normV (.fracv 2 3)
    ∧ Fracs.pyAdd false (.fracv 1 2) (.fracv 1 6) = .ok (.fracv 2 3)
    ∧ Fracs.pyMul false (.fracv 3 2) (.fracv 2 3) = .ok (.intv 1)
    ∧ Fracs.div false false (.intv 5) (.intv (-10)) = .ok (.fracv (-1) 2)
    ∧ Fracs.normV (.fracv (-1) 2) :=
  ⟨(C9_normalized false false (.fracv 1 2) (.fracv 1 6)
      (by decide) (by decide)).1 (.fracv 2 3) rfl,
   rfl, rfl, rfl,
   (C9_normalized false false (.intv 5) (.intv (-10))
      (by decide) (by decide)).2.2.2.1 (.fracv (-1) 2) rfl⟩

/-
  ===================  solver.py : data model  ===================
-/

/-- `Var` from solver.py: a unique id, and a max bound (1 for throttle
variables, Inf for unbounded count variables).  The display name is
omitted (it is only used for printing).  Python compares Vars by id; the
model compares whole structures, which agrees on the one-object-per-id
values the builder creates. -/
structure VarT where
  vid : Nat
  vmax : PyVal
deriving DecidableEq, Repr

/-- The relational operator of a constraint (`Cond` in solver.py: EQ, GE,
LE, and the `Cond.NONE` marker used for external flows). -/
inductive Cond where
  | EQ | GE | LE | NONE
deriving DecidableEq, Repr

/-- `cond(x, y)`: apply the operator's comparison function. `Cond.NONE`
has `fun = None`; calling it raises TypeError. -/
def Cond.app : Cond → PyVal → PyVal → Except PyErr Bool
  | .EQ, x, y => Fracs.pyEqB x y
  | .GE, x, y => Fracs.pyGeB x y
  | .LE, x, y => Fracs.pyLeB x y
  | .NONE, _, _ => .error .typeErr

/-- A `Terms` dict: variable to rate, in insertion order, at most one
entry per variable. -/
abbrev TermsL := List (VarT × PyVal)

namespace TermsL

/-- dict lookup with default. -/
def getD (ts : TermsL) (v : VarT) (d : PyVal) : PyVal :=
  match ts.find? (fun p => p.1 = v) with
  | some p => p.2
  | none => d

/-- is the key present? -/
def hasKey (ts : TermsL) (v : VarT) : Bool := (ts.find? (fun p => p.1 = v)).isSome

/-- dict assignment `self[var] = rate`: update in place, else append. -/
def setK (ts : TermsL) (v : VarT) (r : PyVal) : TermsL :=
  if ts.hasKey v then ts.map (fun p => if p.1 = v then (v, r) else p)
  else ts ++ [(v, r)]

/-- dict deletion (used by `pop`): remove the key, keeping order. -/
def delK (ts : TermsL) (v : VarT) : TermsL := ts.filter (fun p => ¬(p.1 = v))

/-- `Terms.add(var, rate)`: accumulate into the entry and drop it when the
sum is exactly 0 (`self.pop(var)` raises KeyError if the variable was
absent and the given rate was 0, as in the source). -/
def add (nans : Bool) (ts : TermsL) (v : VarT) (rate : PyVal) : Except PyErr TermsL := do
  let r ← Fracs.pyAdd nans (ts.getD v (.intv 0)) rate
  let z ← Fracs.pyEqB r (.intv 0)
  if z then
    if ts.hasKey v then pure (ts.delK v) else .error .keyErr
  else
    pure (ts.setK v r)

/-- `Terms.merge(other, mul)` for a sequence argument. -/
def merge (nans : Bool) (ts : TermsL) (other : TermsL) (mul : PyVal) :
    Except PyErr TermsL :=
  other.foldlM (fun acc p => do
    let m ← Fracs.pyMul nans mul p.2
    add nans acc p.1 m) ts

/-- `Terms.sub(var, repl)`: `factor = self.pop(var, 0)`, no-op when the
variable is absent, else merge the replacement scaled by the factor. -/
def sub (nans : Bool) (ts : TermsL) (v : VarT) (repl : TermsL) :
    Except PyErr TermsL := do
  match ts.find? (fun p => p.1 = v) with
  | none => pure ts
  | some p => do
      let factor := p.2
      let z ← Fracs.pyEqB factor (.intv 0)
      if z then pure (ts.delK v)
      else merge nans (ts.delK v) repl factor

/-- `Terms.__itruediv__`: divide every rate by the factor. -/
def divAll (apz nans : Bool) (ts : TermsL) (factor : PyVal) :
    Except PyErr TermsL :=
  ts.mapM (fun p => do
    let q ← Fracs.div apz nans p.2 factor
    pure (p.1, q))

/-- `Terms.neg`: negate every rate in place. -/
def neg (ts : TermsL) : TermsL := ts.map (fun p => (p.1, Fracs.pyNeg p.2))

/-- `Terms.apply(values)` with the default empty values: every variable
contributes `rate * var.max`. -/
def applyMax (nans : Bool) (ts : TermsL) : Except PyErr PyVal :=
  ts.foldlM (fun acc p => do
    let m ← Fracs.pyMul nans p.2 p.1.vmax
    Fracs.pyAdd nans acc m) (.intv 0)

/-- `Terms(seq)`: build a dict by `add`-folding the (var, rate) pairs
(each pair goes through `merge`, i.e. `add(var, 1*rate)`). -/
def ofSeq (nans : Bool) (l : List (VarT × PyVal)) : Except PyErr TermsL := do
  l.foldlM (fun acc p => do
    let m ← Fracs.pyMul nans (.intv 1) p.2
    add nans acc p.1 m) []

end TermsL

/-- `LinearEq`: an input constraint row (id, ordered terms, operator,
right-hand side).  Ids are opaque. -/
structure LinEq where
  eid : Nat
  terms : List (VarT × PyVal)
  cond : Cond
  rate : PyVal
deriving DecidableEq, Repr

/-- `_Equation` from solver.py: the mutable working form used by
`_simplify` and `Solver.reset` — `rhs` is a `Term` (optional variable and
rate). -/
structure Eqn where
  eid : Option Nat
  terms : TermsL
  cond : Cond
  rhsVar : Option VarT
  rhsRate : PyVal
deriving DecidableEq, Repr

/-
  ===================  solver.py : _simplify  ===================
-/

namespace Simp

/-- A scan candidate: forced to zero (`ZERO`), a unique substitution row
(the equation's index in the working list), or marked ambiguous (`None`,
deleted before substitution). -/
inductive Cand where
  | zero
  | eqRef : Nat → Cand
  | amb
deriving DecidableEq, Repr

/-- How one scan iteration treats a row (refactoring of the body of the
`for eq in eqs` loop in `_simplify`): skipped (nonzero rhs), forcing all
of its variables to zero, proposing a substitution for its unique
positive variable, or nothing. -/
inductive RowClass where
  | skip
  | force
  | propose : VarT → RowClass
  | plain
deriving DecidableEq, Repr

/-- Classify a row exactly as the scan does: skip rows with nonzero rhs
rate; compute the positive-rate variables; all-positive (under EQ/LE) or
all-negative (under EQ/GE) rows force all their variables to zero; an EQ
row with exactly one positive term proposes that variable. -/
def rowClass (eq : Eqn) : Except PyErr RowClass := do
  let nz ← Fracs.pyNeB eq.rhsRate (.intv 0)
  if nz then pure .skip
  else do
    let posVars ← eq.terms.filterM (fun p => Fracs.pyGtB p.2 (.intv 0))
    let allPositive := posVars.length = eq.terms.length ∧ (eq.cond = .EQ ∨ eq.cond = .LE)
    let allNegative := posVars.length = 0 ∧ (eq.cond = .EQ ∨ eq.cond = .GE)
    if allPositive ∨ allNegative then pure .force
    else if eq.cond = .EQ ∧ posVars.length = 1 then
      pure (.propose (posVars.headD (⟨0, .intv 0⟩, .intv 0)).1)
    else pure .plain

/-- The candidates dict (insertion-ordered). -/
abbrev Cands := List (VarT × Cand)

/-- dict read -/
def clookup (cs : Cands) (v : VarT) : Option Cand :=
  match cs.find? (fun p => p.1 = v) with
  | some p => some p.2
  | none => none

/-- dict write (update in place or append) -/
def cset (cs : Cands) (v : VarT) (c : Cand) : Cands :=
  if (cs.find? (fun p => p.1 = v)).isSome then
    cs.map (fun p => if p.1 = v then (v, c) else p)
  else cs ++ [(v, c)]

/-- Accumulate one row's contribution to the candidates dict. -/
def scanRow (cs : Cands) (i : Nat) (eq : Eqn) : Except PyErr Cands := do
  let rc ← rowClass eq
  match rc with
  | .skip => pure cs
  | .plain => pure cs
  | .force =>
      -- `for var in eq.terms.keys(): candidates[var] = ZERO`
      pure (eq.terms.foldl (fun acc p => cset acc p.1 .zero) cs)
  | .propose v =>
      match clookup cs v with
      | none => pure (cset cs v (.eqRef i))
      | some .zero => pure cs
      | some _ => pure (cset cs v .amb)

/-- One full scan over the working equations, then deletion of the
ambiguous (`None`) candidates. -/
def scan (eqs : List Eqn) : Except PyErr Cands := do
  let cs ← (eqs.enum.foldlM (fun acc p => scanRow acc p.1 p.2) ([] : Cands))
  pure (cs.filter (fun p => ¬(p.2 = Cand.amb)))

/-- Substitute one candidate: rewrite its equation to `terms = var` and
eliminate the variable from every other row (for ZERO candidates a fresh
`() = var` row is appended first, then the variable is just removed). -/
def applyCand (apz nans : Bool) (eqs : List Eqn) (v : VarT) (c : Cand) :
    Except PyErr (List Eqn) := do
  match c with
  | .amb => pure eqs  -- never present after the scan's deletion pass
  | .zero => do
      let eqs := eqs ++ [⟨none, [], .EQ, some v, .intv 1⟩]
      eqs.mapM (fun e2 => do
        let ts ← TermsL.sub nans e2.terms v []
        pure { e2 with terms := ts })
  | .eqRef i => do
      match eqs.get? i with
      | none => .error .indexErr
      | some e =>
          if e.terms = [] then do
            -- empty equation: only the rhs is rewritten
            let e' := { e with rhsVar := some v, rhsRate := (.intv 1 : PyVal) }
            let eqs := eqs.set i e'
            eqs.mapM (fun e2 => do
              let ts ← TermsL.sub nans e2.terms v []
              pure { e2 with terms := ts })
          else do
            -- `factor = -eq.terms.pop(var)` (KeyError if var was eliminated
            -- earlier in this pass), then divide and substitute everywhere
            match e.terms.find? (fun p => p.1 = v) with
            | none => .error .keyErr
            | some p => do
                let factor := Fracs.pyNeg p.2
                let ts ← TermsL.divAll apz nans (e.terms.delK v) factor
                let e' := { e with terms := ts, rhsVar := some v, rhsRate := (.intv 1 : PyVal) }
                let eqs := eqs.set i e'
                eqs.mapM (fun e2 => do
                  let ts2 ← TermsL.sub nans e2.terms v ts
                  pure { e2 with terms := ts2 })

/-- Process all candidates of one pass, in dict order. -/
def applyCands (apz nans : Bool) (cands : Cands) (eqs : List Eqn) :
    Except PyErr (List Eqn) :=
  cands.foldlM (fun acc p => applyCand apz nans acc p.1 p.2) eqs

/-- The `while True` loop of `_simplify`: scan, stop when no candidates,
otherwise substitute and repeat.  Fuel models the (in practice finite)
number of passes; exhaustion is reported as an error, never as a result. -/
def simplifyLoop (apz nans : Bool) : Nat → List Eqn → Except PyErr (List Eqn)
  | 0, _ => .error .fuelOut
  | fuel + 1, eqs => do
      let cands ← scan eqs
      if cands.isEmpty then pure eqs
      else do
        let eqs' ← applyCands apz nans cands eqs
        simplifyLoop apz nans fuel eqs'

/-- `_simplify(leq)`: build the working rows and run the loop. -/
def simplify (apz nans : Bool) (fuel : Nat) (leqs : List LinEq) :
    Except PyErr (List Eqn) := do
  let eqs ← leqs.mapM (fun eq => do
    let ts ← TermsL.ofSeq nans eq.terms
    pure (⟨some eq.eid, ts, eq.cond, none, eq.rate⟩ : Eqn))
  simplifyLoop apz nans fuel eqs

end Simp

/-
  ===================  solver.py : SolveRes  ===================
-/

/-- `SolveRes` is an `OrdEnum`: members are identified by their integer
values, ordered, and `r1 | r2` is the member with the larger value.  The
model uses the values directly. -/
abbrev SolveRes := Int

namespace SolveRes

def UNSOLVED : SolveRes := -2
def NOOP : SolveRes := -1
def OPTIMAL : SolveRes := 1
def UNIQUE : SolveRes := 2
def MULTI : SolveRes := 3
def OK : SolveRes := 4
def PARTIAL : SolveRes := 5
def UNBOUNDED : SolveRes := 6

/-- `__or__` / `|=` on an OrdEnum: the maximum by value. -/
def join (a b : SolveRes) : SolveRes := max a b

/-- `SolveRes.ok()`: strictly better than PARTIAL. -/
def okB (r : SolveRes) : Bool := r < PARTIAL

end SolveRes

/-
  ===================  solver.py : Solver.reset row classification  =========
-/

namespace Slv

/-- The state accumulated by the row-classification loop of
`Solver.reset` (the `if simplify:` branch): the rebuilt equation list,
the recorded substitutions, the invalid (infeasible) rows, and the
result code. -/
structure ResetSt where
  eqs : List Eqn
  subs : List (VarT × TermsL)
  invalidEqs : List Eqn
  result : SolveRes
deriving DecidableEq, Repr

/-- One iteration of the `for eq in eqs` classification loop in
`Solver.reset`: rows with a plain rhs keep their constraint (except
trivially-true `≥ 0` rows over nonnegative rates), empty rows become
either nothing (true constant) or an invalid record plus a PARTIAL
result; rows rewritten to `terms = var` become substitutions, plus a
bound row when the substituted terms can exceed the variable's max. -/
def resetRow (nans : Bool) (st : ResetSt) (eq : Eqn) : Except PyErr ResetSt := do
  match eq.rhsVar with
  | none =>
      if eq.terms ≠ [] then do
        let z ← Fracs.pyEqB eq.rhsRate (.intv 0)
        let trivough ←
          if eq.cond = .GE ∧ z then
            eq.terms.allM (fun p => Fracs.pyGeB p.2 (.intv 0))
          else pure false
        if trivough then pure st
        else pure { st with eqs := st.eqs ++ [eq] }
      else do
        let sat ← eq.cond.app (.intv 0) eq.rhsRate
        if ¬sat then
          pure { st with invalidEqs := st.invalidEqs ++ [eq],
                         result := st.result.join SolveRes.PARTIAL }
        else pure st
  | some v => do
      if ¬(eq.cond = .EQ) then .error .assertFail
      let r1 ← Fracs.pyEqB eq.rhsRate (.intv 1)
      if ¬r1 then .error .assertFail
      let st := { st with subs := st.subs ++ [(v, eq.terms)] }
      let vne ← Fracs.pyNeB v.vmax PyVal.inf
      if vne then do
        let applied ← TermsL.applyMax nans eq.terms
        let gt ← Fracs.pyGtB applied v.vmax
        if gt then
          pure { st with eqs := st.eqs ++ [⟨eq.eid, eq.terms, .LE, none, v.vmax⟩] }
        else pure st
      else pure st

/-- The classification pass over all simplified rows. -/
def resetClassify (nans : Bool) (eqs : List Eqn) : Except PyErr ResetSt :=
  eqs.foldlM (resetRow nans) ⟨[], [], [], SolveRes.UNSOLVED⟩

end Slv

/-
  ===================  solver.py : Tableau  ===================
-/

/-- A tableau column: a structural variable, a slack variable, an
artificial variable, or a partial-artificial variable (`PartialVar`,
the ArtificialVar subclass used for nonzero-rhs rows). -/
inductive Col where
  | cvar : VarT → Col
  | slack : Nat → Col
  | art : Nat → Col
  | part : Nat → Col
deriving DecidableEq, Repr

/-- `isinstance(var, ArtificialVar)` (PartialVar is a subclass). -/
def Col.isArt : Col → Bool
  | .art _ => true
  | .part _ => true
  | _ => false

/-- An objective-function row's bookkeeping (`_OptFun`): its label
('max' here `true`, 'aux' here `false`), the ceiling discovered for an
aux row (the dynamically-assigned `.max` attribute), and the
dynamically-assigned `.optimal` flag.  The `terms`/`note` fields only
feed printing and are omitted. -/
structure OptInfo where
  isMax : Bool
  maxVal : PyVal := .intv 0
  optimalF : Bool := true
deriving DecidableEq, Repr

/-- A key of an objective terms dict handed to `addObjective`: either a
raw column index (used by `__init__` for the artificial objectives) or a
variable. -/
inductive ObjKey where
  | idx : Nat → ObjKey
  | ovar : VarT → ObjKey
deriving DecidableEq, Repr

/-- One objective function spec (the `OptFun.terms` dict, in order). -/
abbrev ObjSpec := List (ObjKey × PyVal)

/-- The Tableau state: columns, the permanently-zeroed flags (kept at its
original length even after column deletions, as in the source), the rows
(constraint rows, then objective rows; each of length `cols.length + 1`
with the rhs last), the basic column of each constraint row, the number
of constraint rows, per-row objective bookkeeping (`none` for constraint
rows), the recorded unbounded variables, and the pending objectives. -/
structure Tab where
  cols : List Col
  zeroed : List Bool
  rows : List (List PyVal)
  basic : List Col
  optFunBegin : Nat
  optFunInfo : List (Option OptInfo)
  unboundedVars : List Col
  pending : List (List ObjSpec)
deriving DecidableEq, Repr

namespace Tab

/-- `colsByVar[var]`: the dict maps each column object to its index; a
duplicated object would keep the last index, so look up from the right.
Missing keys model `KeyError`. -/
def colsByVar (cols : List Col) (c : Col) : Option Nat :=
  match cols.reverse.findIdx? (fun x => x = c) with
  | none => none
  | some k => some (cols.length - 1 - k)

/-- list access that models Python IndexError on overflow. -/
def getE {α : Type} (l : List α) (i : Nat) : Except PyErr α :=
  match l.get? i with
  | some x => pure x
  | none => .error .indexErr

/-- `row[-1]`: the rhs entry. -/
def rhsOf (row : List PyVal) : Except PyErr PyVal :=
  match row.getLast? with
  | some x => pure x
  | none => .error .indexErr

/-- `row[j] -= factor * val` over a whole row, `val` drawn from the pivot
row.  (The Python loop runs over the pivot row's indices; rows all have
equal length.) -/
def rowSub (nans : Bool) (row pivot : List PyVal) (factor : PyVal) :
    Except PyErr (List PyVal) :=
  (row.zip pivot).mapM (fun p => do
    let m ← Fracs.pyMul nans factor p.2
    Fracs.pySub nans p.1 m)

/-- `Tableau.normalize(rowIdx, colIdx)`: divide the row by its pivot
entry; a pivot of exactly 1 is left alone, a pivot of exactly 0 raises
ZeroDivisionError. -/
def normalize (apz nans : Bool) (t : Tab) (rowIdx colIdx : Nat) :
    Except PyErr Tab := do
  let row ← getE t.rows rowIdx
  let r ← getE row colIdx
  let one ← Fracs.pyEqB r (.intv 1)
  if one then pure t
  else do
    let zero ← Fracs.pyEqB r (.intv 0)
    if zero then .error .zeroDivision
    else do
      let row' ← row.mapM (fun rate => Fracs.div apz nans rate r)
      pure { t with rows := t.rows.set rowIdx row' }

/-- `Tableau.clear(rowIdx, colIdx)`: normalize the pivot row and
eliminate the column from every other row; the pivot row's column
becomes basic. -/
def clear (apz nans : Bool) (t : Tab) (rowIdx colIdx : Nat) :
    Except PyErr Tab := do
  let t ← normalize apz nans t rowIdx colIdx
  let pivot ← getE t.rows rowIdx
  let rows' ← t.rows.enum.mapM (fun p => do
    if p.1 = rowIdx then pure p.2
    else do
      let factor ← getE p.2 colIdx
      let fz ← Fracs.pyEqB factor (.intv 0)
      if fz then pure p.2
      else rowSub nans p.2 pivot factor)
  let c ← getE t.cols colIdx
  pure { t with rows := rows', basic := t.basic.set rowIdx c }

/-- `Tableau.fixClearedCol(rowIdx, colIdx, rowIdxToFix)`: subtract
`factor` times the cleared row from the row to fix (no zero-factor
shortcut here). -/
def fixClearedCol (nans : Bool) (t : Tab) (rowIdx colIdx rowIdxToFix : Nat) :
    Except PyErr Tab := do
  let pivot ← getE t.rows rowIdx
  let row ← getE t.rows rowIdxToFix
  let factor ← getE row colIdx
  let row' ← rowSub nans row pivot factor
  pure { t with rows := t.rows.set rowIdxToFix row' }

/-- `Tableau.ratios(colIdx)`: over the constraint rows only, for each row
with a positive coefficient in the column, the ratio rhs/coefficient when
it is nonnegative. -/
def ratios (apz nans : Bool) (t : Tab) (colIdx : Nat) :
    Except PyErr (List (Nat × PyVal)) := do
  (t.rows.take t.optFunBegin).enum.foldlM (fun acc p => do
    let coeff ← getE p.2 colIdx
    let pos ← Fracs.pyGtB coeff (.intv 0)
    if pos then do
      let rhs ← rhsOf p.2
      let r ← Fracs.div apz nans rhs coeff
      let nn ← Fracs.pyGeB r (.intv 0)
      if nn then pure (acc ++ [(p.1, r)]) else pure acc
    else pure acc) []

/-- `Tableau.bestRow(colIdx)`: the row minimizing the ratio (`min` keeps
the first row at the minimum), or None when there are no ratios. -/
def bestRow (apz nans : Bool) (t : Tab) (colIdx : Nat) :
    Except PyErr (Option Nat) := do
  let rs ← ratios apz nans t colIdx
  match rs with
  | [] => pure none
  | first :: rest => do
      let best ← rest.foldlM (fun cur p => do
        let lt ← Fracs.pyLtB p.2 cur.2
        pure (if lt then p else cur)) first
      pure (some best.1)

/-- `Tableau.clearCol(colIdx)`: pivot on the best row if there is one. -/
def clearCol (apz nans : Bool) (t : Tab) (colIdx : Nat) :
    Except PyErr (Option Nat × Tab) := do
  let r ← bestRow apz nans t colIdx
  match r with
  | none => pure (none, t)
  | some rowIdx => do
      let t' ← clear apz nans t rowIdx colIdx
      pure (some rowIdx, t')

/-- `Tableau.zeroCol(colIdx)`: clamp the column to 0 in every row and
mark it permanently zeroed. -/
def zeroCol (t : Tab) (colIdx : Nat) : Tab :=
  { t with rows := t.rows.map (fun row => row.set colIdx (.intv 0)),
           zeroed := t.zeroed.set colIdx true }

/-- The entering-column search at the head of `Tableau.max`:
`col, val = None, 0`, then keep the most negative objective entry
(first index on ties), over all non-rhs positions. -/
def findNeg (opt : List PyVal) : Except PyErr (Option Nat × PyVal) :=
  (List.range (opt.length - 1)).foldlM (fun cur j => do
    let e ← getE opt j
    let lt ← Fracs.pyLtB e cur.2
    if lt then pure (some j, e) else pure cur) ((none : Option Nat), (.intv 0 : PyVal))

/-- The pivot loop of `Tableau.max`: pick the most negative objective
entry; stop at 0; otherwise pivot on the best row, or — when no row
limits the column — zero the column, record the variable as unbounded,
fold UNBOUNDED into the result, and continue. -/
def maxLoop (apz nans : Bool) : Nat → Tab → Nat → SolveRes →
    Except PyErr (SolveRes × Tab)
  | 0, _, _, _ => .error .fuelOut
  | fuel + 1, t, rowIdx, res => do
      let opt ← getE t.rows rowIdx
      let fn ← findNeg opt
      let z ← Fracs.pyEqB fn.2 (.intv 0)
      if z then pure (res, t)
      else do
        match fn.1 with
        | none => .error .typeErr  -- unreachable: val ≠ 0 only with a column found
        | some col => do
            let res := res.join SolveRes.OPTIMAL
            let (r, t') ← clearCol apz nans t col
            match r with
            | some _ => maxLoop apz nans fuel t' rowIdx res
            | none => do
                -- the solution is likely unbounded: zero the var for a
                -- partial solution
                let t'' := zeroCol t' col
                let c ← getE t''.cols col
                maxLoop apz nans fuel
                  { t'' with unboundedVars := t''.unboundedVars ++ [c] }
                  rowIdx (res.join SolveRes.UNBOUNDED)

/-- `Tableau.max(rowIdx)` errors on a constraint row, otherwise runs the
pivot loop starting from NOOP. -/
def tmax (apz nans : Bool) (fuel : Nat) (t : Tab) (rowIdx : Nat) :
    Except PyErr (SolveRes × Tab) := do
  if rowIdx < t.optFunBegin then .error .valueError
  else maxLoop apz nans fuel t rowIdx SolveRes.NOOP

/-- `sum(v != 0 for v in opt)` over a whole row (the rhs included). -/
def countNonzero (opt : List PyVal) : Except PyErr Nat :=
  opt.foldlM (fun n v => do
    let b ← Fracs.pyNeB v (.intv 0)
    pure (if b then n + 1 else n)) 0

/-- First aux sweep of `Tableau.solve`: maximize each aux row after the
main one to learn its ceiling, asserting each result is ok, and record
the ceiling in its info. -/
def auxPass1 (apz nans : Bool) (fuel : Nat) : Nat → Tab → Nat →
    Except PyErr Tab
  | 0, _, _ => .error .fuelOut
  | n + 1, t, i => do
      match t.optFunInfo.get? i with
      | some (some info) =>
          if info.isMax then pure t
          else do
            let (r, t') ← tmax apz nans fuel t i
            if ¬(SolveRes.okB r) then .error .assertFail
            else do
              let row ← getE t'.rows i
              let rhs ← rhsOf row
              let newInfos := t'.optFunInfo.set i (some { info with maxVal := rhs })
              let t'' := { t' with optFunInfo := newInfos }
              auxPass1 apz nans fuel n t'' (i + 1)
      | _ => pure t

/-- Second aux sweep of `Tableau.solve`: check each aux row is still at
its recorded ceiling; a drop marks the solution non-unique. -/
def auxPass2 : Nat → Tab → Nat → Option Bool →
    Except PyErr (Option Bool × Tab)
  | 0, _, _, _ => .error .fuelOut
  | n + 1, t, i, unique => do
      match t.optFunInfo.get? i with
      | some (some info) =>
          if info.isMax then pure (unique, t)
          else do
            let row ← getE t.rows i
            let rhs ← rhsOf row
            let drop ← Fracs.pyGtB info.maxVal rhs
            if drop then
              let newInfos := t.optFunInfo.set i (some { info with optimalF := false })
              let t' := { t with optFunInfo := newInfos }
              auxPass2 n t' (i + 1) (some false)
            else
              auxPass2 n t (i + 1) (if unique = none then some true else unique)
      | _ => pure (unique, t)

/-- `delStop` computation of the zero-commit: advance past the aux rows
following the committed main row (the source loop reads
`optFunInfo[delStop].label`; entries are never None in its range). -/
def delStopFrom (infos : List (Option OptInfo)) (start : Nat) : Nat :=
  go (infos.length + 1) start
where
  go : Nat → Nat → Nat
    | 0, i => i
    | n + 1, i =>
        match infos.get? i with
        | some (some info) => if info.isMax then i else go n (i + 1)
        | _ => i

/-- `del lst[a:b]` -/
def delRange {α : Type} (l : List α) (a b : Nat) : List α :=
  l.take a ++ l.drop (max a b)

/-- `_multiDel(lst, idxsToDel)`: remove the elements at the listed
indices (the source walks the list once, consuming the index list in
order; for the strictly increasing index lists produced by the caller
this removes exactly those positions). -/
def multiDel {α : Type} (l : List α) (idxs : List Nat) : List α :=
  go l 0 idxs
where
  go : List α → Nat → List Nat → List α
    | [], _, _ => []
    | x :: xs, i, [] => x :: go xs (i + 1) []
    | x :: xs, i, d :: ds =>
        if i = d then go xs (i + 1) ds
        else x :: go xs (i + 1) (d :: ds)

/-- One column of the zero-commit scan (the body of the
`for colIdx in range(0, len(opt) - 1)` loop): structural columns with a
nonzero entry in the committed objective row are zeroed; other columns
that are zeroed or have a nonzero entry are unmarked and collected for
deletion.  (Each position is read before any later position is written,
so reading from the snapshot row equals the source's aliased reads.) -/
def commitStep (opt : List PyVal) (st : Tab × List Nat) (colIdx : Nat) :
    Except PyErr (Tab × List Nat) := do
  let (t, toClear) := st
  let c ← getE t.cols colIdx
  match c with
  | .cvar _ => do
      let e ← getE opt colIdx
      let nz ← Fracs.pyNeB e (.intv 0)
      if nz then pure (zeroCol t colIdx, toClear)
      else pure (t, toClear)
  | _ => do
      let zb ← getE t.zeroed colIdx
      let hit ←
        if zb then pure true
        else do
          let e ← getE opt colIdx
          Fracs.pyNeB e (.intv 0)
      if hit then
        pure ({ t with zeroed := t.zeroed.set colIdx false }, toClear ++ [colIdx])
      else pure (t, toClear)

/-- The `if zero:` commit block of `Tableau.solve`: scan the committed
objective row with `commitStep`, then delete the objective row block and
the collected columns.  (`self.zeroed` itself is not re-indexed by the
deletion, exactly as in the source.) -/
def zeroCommit (t : Tab) (rowIdx : Nat) :
    Except PyErr Tab := do
  let opt ← getE t.rows rowIdx
  let (t1, toClear) ← (List.range (opt.length - 1)).foldlM (commitStep opt)
    (t, ([] : List Nat))
  let delStop := delStopFrom t1.optFunInfo (rowIdx + 1)
  let t2 := { t1 with rows := delRange t1.rows rowIdx delStop,
                      optFunInfo := delRange t1.optFunInfo rowIdx delStop }
  if toClear.isEmpty then pure t2
  else pure { t2 with cols := multiDel t2.cols toClear,
                      rows := t2.rows.map (fun row => multiDel row toClear) }

/-- `Tableau.solve(rowIdx, zero)`. -/
def solveT (apz nans : Bool) (fuel : Nat) (t : Tab) (rowIdx? : Option Nat)
    (zero : Bool) : Except PyErr (SolveRes × Tab) := do
  match rowIdx? with
  | none =>
      if t.optFunBegin = t.rows.length then pure (SolveRes.NOOP, t)
      else solveCore apz nans fuel t t.optFunBegin zero
  | some r =>
      if r < t.optFunBegin then .error .valueError
      else solveCore apz nans fuel t r zero
where
  solveCore (apz nans : Bool) (fuel : Nat) (t : Tab) (rowIdx : Nat)
      (zero : Bool) : Except PyErr (SolveRes × Tab) := do
    let opt0 ← getE t.rows rowIdx
    let cnt ← countNonzero opt0
    let res0 : SolveRes := if cnt = 1 then SolveRes.UNIQUE else SolveRes.OPTIMAL
    let (r1, t) ← maxLoop apz nans fuel t rowIdx SolveRes.NOOP
    let res := res0.join r1
    let t ← auxPass1 apz nans fuel (t.optFunInfo.length + 1) t (rowIdx + 1)
    let (r2, t) ← maxLoop apz nans fuel t rowIdx SolveRes.NOOP
    if ¬(SolveRes.okB r2) then .error .assertFail
    else do
      let (unique, t) ← auxPass2 (t.optFunInfo.length + 1) t (rowIdx + 1) none
      let res := match unique with
        | some true => res.join SolveRes.UNIQUE
        | some false => res.join SolveRes.OK
        | none => res
      if zero then do
        let t' ← zeroCommit t rowIdx
        pure (res, t')
      else pure (res, t)

/-- `Tableau.cleared()`: -2 all-zero, -1 not cleared, `rowIdx` for basic
columns. -/
def cleared (t : Tab) : Except PyErr (List Int) := do
  let init := List.replicate t.cols.length (-2 : Int)
  let c1 ← t.basic.enum.foldlM (fun acc p => do
    match colsByVar t.cols p.2 with
    | none => .error .keyErr
    | some colIdx => pure (acc.set colIdx (p.1 : Int))) init
  c1.enum.mapM (fun p => do
    if p.2 = -2 then do
      let nz ← (List.range t.basic.length).anyM (fun rowIdx => do
        let row ← getE t.rows rowIdx
        let e ← getE row p.1
        Fracs.pyNeB e (.intv 0))
      pure (if nz then (-1 : Int) else -2)
    else pure p.2)

/-- `Tableau.solution()`: read each basic row's rhs into its variable;
negative slacks and all (remaining) artificial values go to `other`. -/
def solution (t : Tab) :
    Except PyErr (List (VarT × PyVal) × List (Col × PyVal)) := do
  let res0 : List (VarT × PyVal) :=
    t.cols.filterMap (fun c => match c with
      | .cvar v => some (v, (.intv 0 : PyVal))
      | _ => none)
  t.basic.enum.foldlM (fun st p => do
    let (res, other) := st
    match colsByVar t.cols p.2 with
    | none => .error .keyErr
    | some colIdx => do
        let row ← getE t.rows p.1
        let e ← getE row colIdx
        let isOne ← Fracs.pyEqB e (.intv 1)
        if ¬isOne then .error .assertFail
        else do
          let sol ← rhsOf row
          match p.2 with
          | .cvar v =>
              pure (res.map (fun q => if q.1 = v then (v, sol) else q), other)
          | .slack _ => do
              let neg ← Fracs.pyLtB sol (.intv 0)
              if neg then pure (res, other ++ [(p.2, sol)]) else pure (res, other)
          | .art _ => pure (res, other ++ [(p.2, sol)])
          | .part _ => pure (res, other ++ [(p.2, sol)])) (res0, ([] : List (Col × PyVal)))

end Tab

namespace Tab

/-- `Tableau.addObjective(terms, note, label)`: build the (negated)
objective row, skipping unknown variables and zeroed columns; clear it
against every already-basic column it mentions. -/
def addObjective (_apz nans : Bool) (t : Tab) (terms : ObjSpec) (isMax : Bool) :
    Except PyErr Tab := do
  let row0 := List.replicate (t.cols.length + 1) (.intv 0 : PyVal)
  let cl ← cleared t
  let (row, toClear) ← terms.foldlM (fun st p => do
    let (row, toClear) := st
    let colIdx? : Option Nat :=
      match p.1 with
      | .idx i => some i
      | .ovar v => colsByVar t.cols (.cvar v)  -- KeyError → continue
    match colIdx? with
    | none => pure (row, toClear)
    | some colIdx => do
        let zb ← getE t.zeroed colIdx
        if zb then pure (row, toClear)
        else do
          let row := row.set colIdx (Fracs.pyNeg p.2)
          let ci ← getE cl colIdx
          if ci ≥ 0 then pure (row, toClear ++ [colIdx])
          else pure (row, toClear)) (row0, ([] : List Nat))
  let t := { t with rows := t.rows ++ [row],
                    optFunInfo := t.optFunInfo ++ [some ⟨isMax, .intv 0, true⟩] }
  toClear.foldlM (fun t colIdx => do
    let ci ← getE cl colIdx
    fixClearedCol nans t ci.toNat colIdx (t.rows.length - 1)) t

/-- `Tableau.addPendingObjective()`: pop the next objective group; its
first spec is the main objective, the rest are aux. -/
def addPendingObjective (apz nans : Bool) (t : Tab) : Except PyErr Tab := do
  match t.pending with
  | [] => .error .indexErr  -- pop(0) on an empty list
  | grp :: rest =>
      let t := { t with pending := rest }
      match grp with
      | [] => .error .indexErr  -- next() on an empty iterator
      | main :: auxes => do
          let t ← addObjective apz nans t main true
          auxes.foldlM (fun t a => addObjective apz nans t a false) t

/-- First loop of `Tableau.solveAll`: drain the already-added objective
rows (each `solve(zero=True)` removes at least one row). -/
def drainRows (apz nans : Bool) (fuel : Nat) : Nat → SolveRes → Tab →
    Except PyErr (SolveRes × Tab)
  | 0, res, t =>
      if t.optFunBegin < t.rows.length then .error .fuelOut else pure (res, t)
  | n + 1, res, t =>
      if t.optFunBegin < t.rows.length then do
        let (r, t') ← solveT apz nans fuel t none true
        drainRows apz nans fuel n (res.join r) t'
      else pure (res, t)

/-- Second loop of `Tableau.solveAll`: add and solve each pending
objective group. -/
def drainPending (apz nans : Bool) (fuel : Nat) : Nat → SolveRes → Tab →
    Except PyErr (SolveRes × Tab)
  | 0, res, t =>
      if t.pending.isEmpty then pure (res, t) else .error .fuelOut
  | n + 1, res, t =>
      if t.pending.isEmpty then pure (res, t)
      else do
        let t ← addPendingObjective apz nans t
        let (r, t') ← solveT apz nans fuel t none true
        drainPending apz nans fuel n (res.join r) t'

/-- `Tableau.solveAll()`: drain everything, then flag MULTI when any
column is left uncleared. -/
def solveAll (apz nans : Bool) (fuel : Nat) (t : Tab) :
    Except PyErr (SolveRes × Tab) := do
  let (res, t) ← drainRows apz nans fuel fuel SolveRes.NOOP t
  let (res, t) ← drainPending apz nans fuel fuel res t
  let cl ← cleared t
  let res := if cl.any (fun c => c = -1) then res.join SolveRes.MULTI else res
  pure (res, t)

end Tab

namespace Tab

/-- One merged-dict entry of the `addEq` phase: the frozenset key (for
equality), the first-inserted representative term list (the dict keeps
the first key object, which is what later iteration walks), and the
value triple (lower bound, upper bound, merged ids). -/
structure MergedEq where
  key : Finset (VarT × PyVal)
  rep : List (VarT × PyVal)
  lo : PyVal
  hi : PyVal
  ids : List (Option Nat)
deriving DecidableEq

/-- The accumulator of the `addEq` phase of `Tableau.__init__`: the
structural columns seen so far (in first-appearance order) and the merged
equation dict in insertion order. -/
structure InitSt where
  cols : List VarT
  eqs : List MergedEq
deriving DecidableEq

/-- Python `max(a, b)` (returns `b` exactly when `b > a`). -/
def pyMax (a b : PyVal) : Except PyErr PyVal := do
  let g ← Fracs.pyGtB b a
  pure (if g then b else a)

/-- Python `min(a, b)` (returns `b` exactly when `b < a`). -/
def pyMin (a b : PyVal) : Except PyErr PyVal := do
  let l ← Fracs.pyLtB b a
  pure (if l then b else a)

/-- `addEq(terms, minv, maxv, id)` from `Tableau.__init__`: normalize the
row by the sum of the absolute coefficients (negated when the row is a
pure lower bound: `minv <= 0 and maxv == Inf`), then merge it into the
dict entry of its normalized term set — the bounds intersect (max of
lower, min of upper) and the ids accumulate. -/
def addEq (apz nans : Bool) (st : InitSt) (terms : List (VarT × PyVal))
    (minv maxv : PyVal) (id? : Option Nat) : Except PyErr InitSt := do
  let (factor, cols) ← terms.foldlM (fun p q => do
    let f ← Fracs.pyAdd nans p.1 (Fracs.pyAbs q.2)
    let cs := if p.2.contains q.1 then p.2 else p.2 ++ [q.1]
    pure (f, cs)) ((.intv 0 : PyVal), st.cols)
  let fz ← Fracs.pyEqB factor (.intv 0)
  if fz then .error .assertFail  -- assert(factor != 0)
  else do
    let le0 ← Fracs.pyLeB minv (.intv 0)
    let isInf ← Fracs.pyEqB maxv PyVal.inf
    let factor ← if le0 ∧ isInf then Fracs.pyMul nans factor (.intv (-1))
                 else pure factor
    let nterms ← terms.mapM (fun q => do
      let r ← Fracs.div apz nans q.2 factor
      pure (q.1, r))
    let key := nterms.toFinset
    let minv' ← Fracs.div apz nans minv factor
    let maxv' ← Fracs.div apz nans maxv factor
    let neg ← Fracs.pyLtB factor (.intv 0)
    let lo := if neg then maxv' else minv'
    let hi := if neg then minv' else maxv'
    match st.eqs.find? (fun e => e.key = key) with
    | none =>
        pure ⟨cols, st.eqs ++ [⟨key, nterms, lo, hi, [id?]⟩]⟩
    | some e => do
        let mn ← pyMax e.lo lo
        let mx ← pyMin e.hi hi
        pure ⟨cols, st.eqs.map (fun q =>
          if q.key = key then { q with lo := mn, hi := mx, ids := q.ids ++ [id?] }
          else q)⟩

/-- Feed one input constraint to `addEq` with the bounds implied by its
operator (equalities pin both bounds; inequalities leave one infinite). -/
def addEqOf (apz nans : Bool) (st : InitSt) (eq : Eqn) : Except PyErr InitSt :=
  match eq.cond with
  | .EQ => addEq apz nans st eq.terms eq.rhsRate eq.rhsRate eq.eid
  | .LE => addEq apz nans st eq.terms PyVal.ninf eq.rhsRate eq.eid
  | .GE => addEq apz nans st eq.terms eq.rhsRate PyVal.inf eq.eid
  | .NONE => .error .valueError

/-- One standardized row of the `eql` list: (terms, cond, rhs); by
construction cond is EQ or LE. -/
abbrev EqlRow := List (VarT × PyVal) × Cond × PyVal

/-- Turn one merged dict entry into 0, 1 or 2 standardized rows. -/
def eqlOf (entry : MergedEq) : Except PyErr (List EqlRow) := do
  let same ← Fracs.pyEqB entry.lo entry.hi
  if same then pure [(entry.rep, .EQ, entry.lo)]
  else do
    let glo ← Fracs.pyGtB entry.lo PyVal.ninf
    let r1 : List EqlRow :=
      if glo then
        [(entry.rep.map (fun q => (q.1, Fracs.pyNeg q.2)), .LE, Fracs.pyNeg entry.lo)]
      else []
    let lhi ← Fracs.pyLtB entry.hi PyVal.inf
    let r2 : List EqlRow := if lhi then [(entry.rep, .LE, entry.hi)] else []
    pure (r1 ++ r2)

/-- `Tableau.__init__(eqs, objectives)`.  The input rows are the
`LinearEq`-shaped records from `Solver.reset` (`rhsVar` unused).  Also
returns the `rowInfo` ids lists (one per merged dict entry, as in the
source) next to the tableau. -/
def mkTableau (apz nans : Bool) (eqs0 : List Eqn)
    (objectives : List (List ObjSpec)) :
    Except PyErr (Tab × List (List (Option Nat))) := do
  -- phase A: merge all rows into the normalized dict
  let stA ← eqs0.foldlM (addEqOf apz nans) (⟨[], []⟩ : InitSt)
  -- the per-variable max-bound rows
  let stB ← stA.cols.foldlM (fun st v => do
    let vne ← Fracs.pyNeB v.vmax PyVal.inf
    if vne then addEq apz nans st [(v, .intv 1)] PyVal.ninf v.vmax none
    else pure st) stA
  let rowInfo := stB.eqs.map (fun e => e.ids)
  -- phase B: standardized rows
  let eqlParts ← stB.eqs.mapM eqlOf
  let eql := eqlParts.flatten
  -- phase C: columns
  let cols0 : List Col := stB.cols.map .cvar
  let (cols1, slackAssoc) := eql.enum.foldl (fun p q =>
    if q.2.2.1 = Cond.LE then
      (p.1 ++ [Col.slack q.1], p.2 ++ [(q.1, p.1.length)])
    else p) (cols0, ([] : List (Nat × Nat)))
  let (cols2, artAssoc) ← eql.enum.foldlM (fun p q => do
    let neg ← Fracs.pyLtB q.2.2.2 (.intv 0)
    if neg ∨ q.2.2.1 = Cond.EQ then do
      let z ← Fracs.pyEqB q.2.2.2 (.intv 0)
      let c : Col := if z then .art q.1 else .part q.1
      pure (p.1 ++ [c], p.2 ++ [(q.1, p.1.length)])
    else pure p) (cols1, ([] : List (Nat × Nat)))
  -- phase D: the constraint rows and their basic columns
  let (rowsR, basicR) ← eql.enum.foldlM (fun p q => do
    let (rowIdx, (tlist, _, rhs)) := q
    let nonneg ← Fracs.pyGeB rhs (.intv 0)
    let sign : Int := if nonneg then 1 else -1
    let row0 := List.replicate (cols2.length + 1) (.intv 0 : PyVal)
    let row1 ← tlist.foldlM (fun row tq => do
      match colsByVar cols2 (.cvar tq.1) with
      | none => .error .keyErr
      | some ci => do
          let m ← Fracs.pyMul nans (.intv sign) tq.2
          pure (row.set ci m)) row0
    let (row2, colIdx?) :=
      match slackAssoc.lookup rowIdx with
      | some si => (row1.set si (.intv sign), some si)
      | none => (row1, (none : Option Nat))
    let (row3, colIdx?) :=
      match artAssoc.lookup rowIdx with
      | some ai => (row2.set ai (.intv 1 : PyVal), some ai)
      | none => (row2, colIdx?)
    match colIdx? with
    | none => .error .keyErr  -- a row always has a slack or artificial
    | some ci => do
        let bc ← getE cols2 ci
        let rhs' ← Fracs.pyMul nans (.intv sign) rhs
        let row4 := row3.set cols2.length rhs'
        pure (p.1 ++ [row4], p.2 ++ [bc])) (([] : List (List PyVal)), ([] : List Col))
  let t0 : Tab :=
    { cols := cols2, zeroed := List.replicate cols2.length false,
      rows := rowsR, basic := basicR, optFunBegin := rowsR.length,
      optFunInfo := List.replicate rowsR.length none,
      unboundedVars := [], pending := objectives }
  -- the two phase-1 objectives over the artificial columns
  let obj1 : ObjSpec := artAssoc.filterMap (fun p =>
    match cols2.get? p.2 with
    | some (.art _) => some (.idx p.2, (.intv (-1) : PyVal))
    | _ => none)
  let obj2 : ObjSpec := artAssoc.filterMap (fun p =>
    match cols2.get? p.2 with
    | some (.part _) => some (.idx p.2, (.intv (-1) : PyVal))
    | _ => none)
  let t1 ← if obj1.isEmpty then pure t0 else addObjective apz nans t0 obj1 true
  let t2 ← if obj2.isEmpty then pure t1 else addObjective apz nans t1 obj2 true
  pure (t2, rowInfo)

end Tab

/-
  ===================  claim proofs : C4  ===================
-/

@[simp]
theorem bindE_ok {α β : Type} (a : α) (f : α → Except PyErr β) :
    (Except.ok a >>= f) = f a := rfl

@[simp]
theorem bindE_err {α β : Type} (e : PyErr) (f : α → Except PyErr β) :
    ((Except.error e : Except PyErr α) >>= f) = .error e := rfl

@[simp]
theorem pureE_eq {α : Type} (a : α) : (pure a : Except PyErr α) = .ok a := rfl

/-- The result argument of the pivot loop only ever grows: any successful
run returns at least what it started with. -/
theorem maxLoop_res_mono (apz nans : Bool) (fuel : Nat) (t : Tab) (rowIdx : Nat)
    (res : SolveRes) (r : SolveRes) (tf : Tab)
    (h : Tab.maxLoop apz nans fuel t rowIdx res = .ok (r, tf)) : res ≤ r := by
  induction fuel generalizing t res r tf with
  | zero => simp [Tab.maxLoop] at h
  | succ n ih =>
      rw [Tab.maxLoop] at h
      cases hopt : Tab.getE t.rows rowIdx with
      | error e => rw [hopt] at h; simp at h
      | ok opt =>
        rw [hopt] at h; rw [bindE_ok] at h
        cases hfn : Tab.findNeg opt with
        | error e => rw [hfn] at h; simp at h
        | ok fn =>
          rw [hfn, bindE_ok] at h
          cases hz : Fracs.pyEqB fn.2 (.intv 0) with
          | error e => rw [hz] at h; simp at h
          | ok z =>
            rw [hz, bindE_ok] at h
            cases z with
            | true =>
                have h' : (res, t) = (r, tf) := by simpa using h
                injection h' with ha hb
                subst ha
                exact le_refl res
            | false =>
              simp only [Bool.false_eq_true, if_false] at h
              cases hcol : fn.1 with
              | none => rw [hcol] at h; simp at h
              | some col =>
                rw [hcol] at h
                dsimp only at h
                cases hcc : Tab.clearCol apz nans t col with
                | error e => rw [hcc] at h; simp at h
                | ok p =>
                  rw [hcc, bindE_ok] at h
                  cases hp : p.1 with
                  | some ri =>
                      rw [hp] at h
                      dsimp only at h
                      have := ih p.2 (res.join SolveRes.OPTIMAL) r tf h
                      exact le_trans (le_max_left _ _) this
                  | none =>
                      rw [hp] at h
                      dsimp only at h
                      cases hgc : Tab.getE (Tab.zeroCol p.2 col).cols col with
                      | error e => rw [hgc] at h; simp at h
                      | ok c =>
                          rw [hgc, bindE_ok] at h
                          have := ih _ ((res.join SolveRes.OPTIMAL).join SolveRes.UNBOUNDED) r tf h
                          exact le_trans (le_max_left _ _) (le_trans (le_max_left _ _) this)

@[simp]
theorem zeroCol_cols (t : Tab) (c : Nat) : (Tab.zeroCol t c).cols = t.cols := rfl

/-- C4: when the chosen entering column (the most negative objective
entry, nonzero) has no constraint row with a positive coefficient and a
nonnegative ratio (`ratios` is empty), `Tableau.max` raises nothing: it
zeroes the column in every row, records its variable as unbounded, folds
OPTIMAL and UNBOUNDED into the accumulated result, and continues the
pivot loop; any overall result therefore includes UNBOUNDED. -/
theorem C4_unbounded_step (apz nans : Bool) (fuel : Nat) (t : Tab)
    (rowIdx : Nat) (res : SolveRes) (opt : List PyVal) (col : Nat)
    (val : PyVal) (c : Col)
    (hopt : Tab.getE t.rows rowIdx = .ok opt)
    (hfn : Tab.findNeg opt = .ok (some col, val))
    (hval : Fracs.pyEqB val (.intv 0) = .ok false)
    (hrat : Tab.ratios apz nans t col = .ok [])
    (hc : Tab.getE t.cols col = .ok c) :
    (Tab.maxLoop apz nans (fuel + 1) t rowIdx res =
      Tab.maxLoop apz nans fuel
        { Tab.zeroCol t col with unboundedVars := t.unboundedVars ++ [c] }
        rowIdx ((res.join SolveRes.OPTIMAL).join SolveRes.UNBOUNDED))
    ∧ (∀ (r : SolveRes) (tf : Tab),
        Tab.maxLoop apz nans (fuel + 1) t rowIdx res = .ok (r, tf) →
        SolveRes.UNBOUNDED ≤ r) := by
  have heq : Tab.maxLoop apz nans (fuel + 1) t rowIdx res =
      Tab.maxLoop apz nans fuel
        { Tab.zeroCol t col with unboundedVars := t.unboundedVars ++ [c] }
        rowIdx ((res.join SolveRes.OPTIMAL).join SolveRes.UNBOUNDED) := by
    rw [Tab.maxLoop]
    rw [hopt]
    simp only [bindE_ok]
    rw [hfn]
    simp only [bindE_ok]
    rw [hval]
    simp only [bindE_ok, Bool.false_eq_true, if_false]
    simp only [Tab.clearCol, Tab.bestRow]
    rw [hrat]
    simp only [bindE_ok, pureE_eq]
    rw [zeroCol_cols, hc]
    simp only [bindE_ok]
    rfl
  refine ⟨heq, fun r tf h => ?_⟩
  rw [heq] at h
  have := maxLoop_res_mono apz nans fuel _ rowIdx _ r tf h
  exact le_trans (le_max_right _ _) this

/-- Concrete tableau for the C4 witness: maximize an unbounded variable z
subject only to `-z ≤ 1` (no row limits z). -/
def c4tab : Tab :=
  { cols := [.cvar ⟨2, PyVal.inf⟩, .slack 0], zeroed := [false, false],
    rows := [[.intv (-1), .intv 1, .intv 1], [.intv (-1), .intv 0, .intv 0]],
    basic := [.slack 0], optFunBegin := 1,
    optFunInfo := [none, some ⟨true, .intv 0, true⟩],
    unboundedVars := [], pending := [] }

/-- The state `maxLoop` reaches at the C4 witness input. -/
def c4tabFin : Tab :=
  { cols := [.cvar ⟨2, PyVal.inf⟩, .slack 0], zeroed := [true, false],
    rows := [[.intv 0, .intv 1, .intv 1], [.intv 0, .intv 0, .intv 0]],
    basic := [.slack 0], optFunBegin := 1,
    optFunInfo := [none, some ⟨true, .intv 0, true⟩],
    unboundedVars := [.cvar ⟨2, PyVal.inf⟩], pending := [] }

/-- C4 witness: at `c4tab` the step equation holds and the overall result
(which evaluates to UNBOUNDED = 6) includes UNBOUNDED. -/
theorem C4_unbounded_step_witness :
    (Tab.maxLoop false false 6 c4tab 1 SolveRes.NOOP =
      Tab.maxLoop false false 5
        { Tab.zeroCol c4tab 0 with
            unboundedVars := c4tab.unboundedVars ++ [.cvar ⟨2, PyVal.inf⟩] }
        1 ((SolveRes.NOOP.join SolveRes.OPTIMAL).join SolveRes.UNBOUNDED))
    ∧ SolveRes.UNBOUNDED ≤ (6 : SolveRes) := by
  have h := C4_unbounded_step false false 5 c4tab 1 SolveRes.NOOP
    [(.intv (-1)), (.intv 0), (.intv 0)] 0 (.intv (-1)) (.cvar ⟨2, PyVal.inf⟩)
    rfl rfl rfl rfl rfl
  exact ⟨h.1, h.2 6 c4tabFin rfl⟩

/-
  ===================  claim proofs : C1  ===================
-/

/-- The pure content of the `!= 0` test on a non-NaN value: a plain int
is nonzero, a stored Frac pair differs structurally from the int 0. -/
def nzZero : PyVal → Bool
  | .intv x => decide (x ≠ 0)
  | .fracv n d => decide (n ≠ 0 ∨ d ≠ 1)
  | .nan => true

theorem pyNeB_zero {e : PyVal} (h : e ≠ .nan) :
    Fracs.pyNeB e (.intv 0) = .ok (nzZero e) := by
  cases e with
  | intv x => rfl
  | fracv n d => rfl
  | nan => exact absurd rfl h

/-- In every tableau the construction produces, the structural (Var)
columns form a prefix of the column list. -/
def varsFirst (cols : List Col) : Prop :=
  ∀ i j : Nat, i < j → (∃ v, cols.get? j = some (Col.cvar v)) →
    (∃ w, cols.get? i = some (Col.cvar w))

/-- does column `j` hold a structural variable? -/
def isVarAt (cols : List Col) (j : Nat) : Bool :=
  match cols.get? j with
  | some (.cvar _) => true
  | _ => false

/-- the commit's zeroing condition for a structural column. -/
def zCondAt (cols : List Col) (opt : List PyVal) (j : Nat) : Bool :=
  isVarAt cols j && nzZero (opt.getD j (.intv 0))

/-- the commit's collect condition for a non-structural column. -/
def p1hit (t : Tab) (opt : List PyVal) (j : Nat) : Bool :=
  match t.cols.get? j with
  | some (.cvar _) => false
  | some _ => t.zeroed.getD j false || nzZero (opt.getD j (.intv 0))
  | none => false

theorem multiDel_go_nil {α : Type} (l : List α) (i : Nat) :
    Tab.multiDel.go l i [] = l := by
  induction l generalizing i with
  | nil => rfl
  | cons x xs ih => simp [Tab.multiDel.go, ih]

/-- positions strictly below every deleted index survive `_multiDel`
unchanged. -/
theorem multiDel_go_get_lt {α : Type} (l : List α) (i : Nat) (ds : List Nat)
    (j : Nat) (h : ∀ d ∈ ds, i + j < d) :
    (Tab.multiDel.go l i ds).get? j = l.get? j := by
  induction l generalizing i ds j with
  | nil => cases ds <;> rfl
  | cons x xs ih =>
      cases ds with
      | nil => rw [multiDel_go_nil]
      | cons d rest =>
          have hd : i + j < d := h d (by simp)
          have : ¬(i = d) := by omega
          simp only [Tab.multiDel.go, if_neg this]
          cases j with
          | zero => rfl
          | succ k =>
              simp only [List.get?]
              exact ih (i + 1) (d :: rest) k (by
                intro d' hd'
                have := h d' hd'
                omega)

theorem multiDel_get_lt {α : Type} (l : List α) (ds : List Nat) (j : Nat)
    (h : ∀ d ∈ ds, j < d) :
    (Tab.multiDel l ds).get? j = l.get? j := by
  unfold Tab.multiDel
  exact multiDel_go_get_lt l 0 ds j (by simpa using h)

/-- `del l[a:b]` keeps positions below `a` unchanged. -/
theorem delRange_get_lt {α : Type} (l : List α) (a b j : Nat) (h : j < a) :
    (Tab.delRange l a b).get? j = l.get? j := by
  unfold Tab.delRange
  by_cases hj : j < l.length
  · rw [List.get?_eq_getElem?, List.get?_eq_getElem?, List.getElem?_append_left
      (by rw [List.length_take]; omega)]
    rw [List.getElem?_take, if_pos h]
  · rw [List.get?_eq_getElem?, List.get?_eq_getElem?,
        List.getElem?_eq_none (by
          simp only [List.length_append, List.length_take, List.length_drop]
          omega),
        List.getElem?_eq_none (by omega)]


/-- extending the scan range from `n` to `n + 1` does not change the
two-branch update decision at a position whose conditions fail at `n`. -/
theorem ifchain_ext {β : Type} (n k : Nat) (p q : Nat → Bool) (a b c : β)
    (hp : k = n → p n = false) (hq : k = n → q n = false) :
    (if k < n + 1 ∧ p k = true then a else if k < n + 1 ∧ q k = true then b else c)
    = (if k < n ∧ p k = true then a else if k < n ∧ q k = true then b else c) := by
  have h1 : (k < n + 1 ∧ p k = true) ↔ (k < n ∧ p k = true) := by
    constructor
    · rintro ⟨hlt, hpk⟩
      by_cases hkn : k = n
      · subst hkn; rw [hp rfl] at hpk; exact absurd hpk (by simp)
      · exact ⟨by omega, hpk⟩
    · rintro ⟨hlt, hpk⟩; exact ⟨by omega, hpk⟩
  have h2 : (k < n + 1 ∧ q k = true) ↔ (k < n ∧ q k = true) := by
    constructor
    · rintro ⟨hlt, hqk⟩
      by_cases hkn : k = n
      · subst hkn; rw [hq rfl] at hqk; exact absurd hqk (by simp)
      · exact ⟨by omega, hqk⟩
    · rintro ⟨hlt, hqk⟩; exact ⟨by omega, hqk⟩
  rw [if_congr h1 rfl (if_congr h2 rfl rfl)]

/-- single-branch version of `ifchain_ext`. -/
theorem if_ext1 {β : Type} (n k : Nat) (p : Nat → Bool) (a c : β)
    (hp : k = n → p n = false) :
    (if k < n + 1 ∧ p k = true then a else c)
    = (if k < n ∧ p k = true then a else c) := by
  have h1 : (k < n + 1 ∧ p k = true) ↔ (k < n ∧ p k = true) := by
    constructor
    · rintro ⟨hlt, hpk⟩
      by_cases hkn : k = n
      · subst hkn; rw [hp rfl] at hpk; exact absurd hpk (by simp)
      · exact ⟨by omega, hpk⟩
    · rintro ⟨hlt, hpk⟩; exact ⟨by omega, hpk⟩
  rw [if_congr h1 rfl rfl]

/-- the collect condition, read off the column entry. -/
theorem p1hit_eval (t : Tab) (opt : List PyVal) (n : Nat) (c : Col)
    (hc : t.cols.get? n = some c) :
    p1hit t opt n = if isVarAt t.cols n then false
      else t.zeroed.getD n false || nzZero (opt.getD n (.intv 0)) := by
  unfold p1hit isVarAt
  rw [hc]
  cases c <;> rfl

/-- one zero-commit scan step, evaluated: structural columns are zeroed
exactly when the objective entry is nonzero; other columns are unmarked
and collected exactly when already zeroed or carrying a nonzero entry. -/
theorem commitStep_eval (opt : List PyVal) (t : Tab) (tc : List Nat) (n : Nat)
    (c : Col) (hc : t.cols.get? n = some c)
    (e : PyVal) (he : opt.get? n = some e) (hene : e ≠ .nan)
    (zb : Bool) (hzb : t.zeroed.get? n = some zb) :
    Tab.commitStep opt (t, tc) n =
      .ok (if isVarAt t.cols n then
             (if nzZero e then Tab.zeroCol t n else t, tc)
           else if zb || nzZero e then
             ({ t with zeroed := t.zeroed.set n false }, tc ++ [n])
           else (t, tc)) := by
  have h1 : Tab.getE t.cols n = .ok c := by unfold Tab.getE; rw [hc]; rfl
  have h2 : Tab.getE opt n = .ok e := by unfold Tab.getE; rw [he]; rfl
  have h3 : Tab.getE t.zeroed n = .ok zb := by unfold Tab.getE; rw [hzb]; rfl
  unfold Tab.commitStep
  dsimp only
  rw [h1, bindE_ok]
  cases c with
  | cvar v =>
      have hv : isVarAt t.cols n = true := by unfold isVarAt; rw [hc]
      rw [if_pos hv]
      simp only [h2, bindE_ok, pyNeB_zero hene, bindE_ok]
      cases hnz : nzZero e <;> simp
  | slack s =>
      have hv : isVarAt t.cols n = false := by unfold isVarAt; rw [hc]
      rw [if_neg (by rw [hv]; exact fun hx => Bool.false_ne_true hx)]
      simp only [h3, bindE_ok]
      cases zb with
      | true => simp
      | false =>
          simp only [Bool.false_eq_true, if_false, h2, bindE_ok,
            pyNeB_zero hene, Bool.false_or]
          cases hnz : nzZero e <;> simp
  | art s =>
      have hv : isVarAt t.cols n = false := by unfold isVarAt; rw [hc]
      rw [if_neg (by rw [hv]; exact fun hx => Bool.false_ne_true hx)]
      simp only [h3, bindE_ok]
      cases zb with
      | true => simp
      | false =>
          simp only [Bool.false_eq_true, if_false, h2, bindE_ok,
            pyNeB_zero hene, Bool.false_or]
          cases hnz : nzZero e <;> simp
  | part s =>
      have hv : isVarAt t.cols n = false := by unfold isVarAt; rw [hc]
      rw [if_neg (by rw [hv]; exact fun hx => Bool.false_ne_true hx)]
      simp only [h3, bindE_ok]
      cases zb with
      | true => simp
      | false =>
          simp only [Bool.false_eq_true, if_false, h2, bindE_ok,
            pyNeB_zero hene, Bool.false_or]
          cases hnz : nzZero e <;> simp

/-- Full characterization of the zero-commit scan over the first `n`
columns: it never fails (given well-formed lengths and a NaN-free
objective row), zeroes exactly the structural columns with a nonzero
objective entry, unmarks-and-collects exactly the hit non-structural
columns, and touches nothing else. -/
theorem commitFold_char (t : Tab) (opt : List PyVal)
    (hlen : opt.length = t.cols.length + 1)
    (hzlen : t.cols.length ≤ t.zeroed.length)
    (hnn : ∀ e ∈ opt, e ≠ PyVal.nan)
    (n : Nat) : n ≤ t.cols.length →
    ∃ t1 tc,
      (List.range n).foldlM (Tab.commitStep opt) (t, ([] : List Nat)) = .ok (t1, tc)
      ∧ t1.cols = t.cols
      ∧ t1.basic = t.basic ∧ t1.optFunBegin = t.optFunBegin
      ∧ t1.optFunInfo = t.optFunInfo ∧ t1.pending = t.pending
      ∧ t1.unboundedVars = t.unboundedVars
      ∧ t1.zeroed.length = t.zeroed.length
      ∧ tc = (List.range n).filter (p1hit t opt)
      ∧ (∀ k, t1.zeroed.get? k =
          if k < n ∧ zCondAt t.cols opt k = true then
            (t.zeroed.get? k).map (fun _ => true)
          else if k < n ∧ p1hit t opt k = true then
            (t.zeroed.get? k).map (fun _ => false)
          else t.zeroed.get? k)
      ∧ t1.rows.length = t.rows.length
      ∧ (∀ ri row, t.rows.get? ri = some row → ∃ row1,
          t1.rows.get? ri = some row1 ∧ row1.length = row.length ∧
          ∀ k, row1.get? k =
            if k < n ∧ zCondAt t.cols opt k = true then
              (row.get? k).map (fun _ => (.intv 0 : PyVal))
            else row.get? k) := by
  induction n with
  | zero =>
      intro hn
      refine ⟨t, [], by simp, rfl, rfl, rfl, rfl, rfl, rfl, rfl, rfl, ?_, rfl, ?_⟩
      · intro k
        simp
      · intro ri row hrow
        exact ⟨row, hrow, rfl, fun k => by simp⟩
  | succ n ih =>
      intro hn
      obtain ⟨t1, tc, hfold, hcols, hbasic, hofb, hinfo, hpend, hub, hzl, htc,
        hzchar, hrlen, hrchar⟩ := ih (by omega)
      have hncol : n < t.cols.length := by omega
      obtain ⟨c, hc⟩ : ∃ c, t.cols.get? n = some c :=
        ⟨t.cols[n], by rw [List.get?_eq_getElem?]; exact List.getElem?_eq_getElem hncol⟩
      have hnopt : n < opt.length := by omega
      obtain ⟨e, he⟩ : ∃ e, opt.get? n = some e :=
        ⟨opt[n], by rw [List.get?_eq_getElem?]; exact List.getElem?_eq_getElem hnopt⟩
      have hene : e ≠ PyVal.nan := hnn e (List.get?_mem he)
      have hgetD : opt.getD n (.intv 0) = e := by
        rw [List.getD_eq_getElem?_getD, ← List.get?_eq_getElem?, he]; rfl
      have hnz : n < t.zeroed.length := by omega
      obtain ⟨zb, hzb⟩ : ∃ zb, t.zeroed.get? n = some zb :=
        ⟨t.zeroed[n], by rw [List.get?_eq_getElem?]; exact List.getElem?_eq_getElem hnz⟩
      have hzgd : t.zeroed.getD n false = zb := by
        rw [List.getD_eq_getElem?_getD, ← List.get?_eq_getElem?, hzb]; rfl
      have hc1 : t1.cols.get? n = some c := by rw [hcols]; exact hc
      have hzb1 : t1.zeroed.get? n = some zb := by
        rw [hzchar n,
            if_neg (fun hx => Nat.lt_irrefl n hx.1),
            if_neg (fun hx => Nat.lt_irrefl n hx.1)]
        exact hzb
      have hstep := commitStep_eval opt t1 tc n c hc1 e he hene zb hzb1
      have hvar1 : isVarAt t1.cols n = isVarAt t.cols n := by rw [hcols]
      rw [hvar1] at hstep
      have hzcn : zCondAt t.cols opt n = (isVarAt t.cols n && nzZero e) := by
        unfold zCondAt; rw [hgetD]
      have hpn : p1hit t opt n
          = (if isVarAt t.cols n then false else (zb || nzZero e)) := by
        rw [p1hit_eval t opt n c hc, hgetD, hzgd]
      rw [List.range_succ, List.foldlM_append, hfold, bindE_ok, List.foldlM_cons,
          hstep]
      simp only [bindE_ok, List.foldlM_nil, pureE_eq]
      by_cases hv : isVarAt t.cols n = true
      · rw [if_pos hv]
        have hpf : p1hit t opt n = false := by rw [hpn, if_pos hv]
        by_cases hze : nzZero e = true
        · rw [if_pos hze]
          have hzt : zCondAt t.cols opt n = true := by rw [hzcn, hv, hze]; rfl
          refine ⟨Tab.zeroCol t1 n, tc, rfl, hcols, hbasic, hofb, hinfo, hpend,
            hub, ?_, ?_, ?_, ?_, ?_⟩
          · show (t1.zeroed.set n true).length = t.zeroed.length
            rw [List.length_set]; exact hzl
          · rw [htc, List.filter_append]
            simp [hpf]
          · intro k
            show (t1.zeroed.set n true).get? k = _
            by_cases hkn : k = n
            · subst hkn
              rw [List.get?_eq_getElem?, List.getElem?_set_self (by omega),
                  if_pos ⟨Nat.lt_succ_self k, hzt⟩, hzb]
              rfl
            · rw [List.get?_set_ne _ t1.zeroed (fun h => hkn h.symm), hzchar k]
              exact (ifchain_ext n k (fun j => zCondAt t.cols opt j)
                (fun j => p1hit t opt j) _ _ _
                (fun h => absurd h hkn) (fun h => absurd h hkn)).symm
          · show (t1.rows.map (fun r => r.set n (.intv 0))).length = t.rows.length
            rw [List.length_map]; exact hrlen
          · intro ri row hrow
            obtain ⟨row1, hrow1, hrl, hrk⟩ := hrchar ri row hrow
            refine ⟨row1.set n (.intv 0), ?_,
              by rw [List.length_set]; exact hrl, ?_⟩
            · show (t1.rows.map (fun r => r.set n (.intv 0))).get? ri = _
              rw [List.get?_eq_getElem?, List.getElem?_map,
                  ← List.get?_eq_getElem?, hrow1]
              rfl
            · intro k
              by_cases hkn : k = n
              · subst hkn
                rw [if_pos ⟨Nat.lt_succ_self k, hzt⟩]
                by_cases hkl : k < row.length
                · rw [List.get?_eq_getElem?, List.getElem?_set_self (by omega),
                      List.get?_eq_getElem?, List.getElem?_eq_getElem hkl]
                  rfl
                · rw [List.get?_eq_getElem?,
                      List.getElem?_eq_none (by rw [List.length_set]; omega),
                      List.get?_eq_getElem?, List.getElem?_eq_none (by omega)]
                  rfl
              · rw [List.get?_set_ne _ row1 (fun h => hkn h.symm), hrk k]
                exact (if_ext1 n k (fun j => zCondAt t.cols opt j) _ _
                  (fun h => absurd h hkn)).symm
        · rw [if_neg hze]
          have hze' : nzZero e = false := by simpa using hze
          have hzf : zCondAt t.cols opt n = false := by rw [hzcn, hv, hze']; rfl
          refine ⟨t1, tc, rfl, hcols, hbasic, hofb, hinfo, hpend, hub, hzl,
            ?_, ?_, hrlen, ?_⟩
          · rw [htc, List.filter_append]
            simp [hpf]
          · intro k
            rw [hzchar k]
            exact (ifchain_ext n k (fun j => zCondAt t.cols opt j)
              (fun j => p1hit t opt j) _ _ _
              (fun _ => hzf) (fun _ => hpf)).symm
          · intro ri row hrow
            obtain ⟨row1, hrow1, hrl, hrk⟩ := hrchar ri row hrow
            refine ⟨row1, hrow1, hrl, fun k => ?_⟩
            rw [hrk k]
            exact (if_ext1 n k (fun j => zCondAt t.cols opt j) _ _
              (fun _ => hzf)).symm
      · rw [if_neg hv]
        have hvf : isVarAt t.cols n = false := by simpa using hv
        have hzf : zCondAt t.cols opt n = false := by rw [hzcn, hvf]; rfl
        have hpval : p1hit t opt n = (zb || nzZero e) := by rw [hpn, if_neg hv]
        by_cases hh : (zb || nzZero e) = true
        · rw [if_pos hh]
          have hpt : p1hit t opt n = true := by rw [hpval]; exact hh
          refine ⟨_, _, rfl, hcols, hbasic, hofb, hinfo, hpend, hub, ?_, ?_, ?_,
            hrlen, ?_⟩
          · show (t1.zeroed.set n false).length = t.zeroed.length
            rw [List.length_set]; exact hzl
          · rw [htc, List.filter_append]
            simp [hpt]
          · intro k
            show (t1.zeroed.set n false).get? k = _
            by_cases hkn : k = n
            · subst hkn
              rw [List.get?_eq_getElem?, List.getElem?_set_self (by omega),
                  if_neg (fun hx => by rw [hzf] at hx; exact Bool.false_ne_true hx.2),
                  if_pos ⟨Nat.lt_succ_self k, hpt⟩, hzb]
              rfl
            · rw [List.get?_set_ne _ t1.zeroed (fun h => hkn h.symm), hzchar k]
              exact (ifchain_ext n k (fun j => zCondAt t.cols opt j)
                (fun j => p1hit t opt j) _ _ _
                (fun h => absurd h hkn) (fun h => absurd h hkn)).symm
          · intro ri row hrow
            obtain ⟨row1, hrow1, hrl, hrk⟩ := hrchar ri row hrow
            refine ⟨row1, hrow1, hrl, fun k => ?_⟩
            rw [hrk k]
            exact (if_ext1 n k (fun j => zCondAt t.cols opt j) _ _
              (fun _ => hzf)).symm
        · rw [if_neg hh]
          have hpf : p1hit t opt n = false := by rw [hpval]; simpa using hh
          refine ⟨t1, tc, rfl, hcols, hbasic, hofb, hinfo, hpend, hub, hzl,
            ?_, ?_, hrlen, ?_⟩
          · rw [htc, List.filter_append]
            simp [hpf]
          · intro k
            rw [hzchar k]
            exact (ifchain_ext n k (fun j => zCondAt t.cols opt j)
              (fun j => p1hit t opt j) _ _ _
              (fun _ => hzf) (fun _ => hpf)).symm
          · intro ri row hrow
            obtain ⟨row1, hrow1, hrl, hrk⟩ := hrchar ri row hrow
            refine ⟨row1, hrow1, hrl, fun k => ?_⟩
            rw [hrk k]
            exact (if_ext1 n k (fun j => zCondAt t.cols opt j) _ _
              (fun _ => hzf)).symm

/-- a collected column is never a structural (Var) column. -/
theorem p1hit_true_not_var (t : Tab) (opt : List PyVal) (d : Nat)
    (h : p1hit t opt d = true) : isVarAt t.cols d = false := by
  unfold p1hit at h
  unfold isVarAt
  cases hc : t.cols.get? d with
  | none => rfl
  | some c =>
      cases c with
      | cvar v => rw [hc] at h; simp at h
      | slack s => rfl
      | art s => rfl
      | part s => rfl

/-- when the structural columns form a prefix, every collected column
index lies strictly above every structural index. -/
theorem var_lt_collected (t : Tab) (opt : List PyVal) (tc : List Nat)
    (hvf : varsFirst t.cols)
    (htc : tc = (List.range (t.cols.length)).filter (p1hit t opt))
    (j : Nat) (v : VarT) (hj : t.cols.get? j = some (Col.cvar v)) :
    ∀ d ∈ tc, j < d := by
  intro d hd
  rw [htc] at hd
  have hp : p1hit t opt d = true := (List.mem_filter.mp hd).2
  have hnv : isVarAt t.cols d = false := p1hit_true_not_var t opt d hp
  by_contra hge
  rcases Nat.lt_or_ge d j with hdj | hdj
  · obtain ⟨w, hw⟩ := hvf d j hdj ⟨v, hj⟩
    unfold isVarAt at hnv
    rw [hw] at hnv
    simp at hnv
  · have : d = j := by omega
    subst this
    unfold isVarAt at hnv
    rw [hj] at hnv
    simp at hnv

/-- C1 (amended): in the commit step of `Tableau.solve(zero=True)` the
structural (Var) columns that are permanently zeroed — flag set, entry
clamped to 0 in every surviving constraint row — are exactly the ones
whose committed objective entry is NONZERO; a structural column whose
committed entry is zero keeps its flag and its row entries, and every
structural column survives the column deletion at its own index. -/
theorem C1_zero_commit (t : Tab) (rowIdx : Nat) (opt : List PyVal)
    (hopt : t.rows.get? rowIdx = some opt)
    (hlen : opt.length = t.cols.length + 1)
    (hzlen : t.cols.length ≤ t.zeroed.length)
    (hnn : ∀ e ∈ opt, e ≠ PyVal.nan)
    (hvf : varsFirst t.cols) :
    ∃ t2, Tab.zeroCommit t rowIdx = .ok t2 ∧
      ∀ j v, t.cols.get? j = some (Col.cvar v) →
        t2.cols.get? j = some (Col.cvar v)
        ∧ t2.zeroed.get? j =
            (if nzZero (opt.getD j (.intv 0)) then some true else t.zeroed.get? j)
        ∧ ∀ ri row, ri < rowIdx → t.rows.get? ri = some row →
            ∃ row2, t2.rows.get? ri = some row2 ∧
              row2.get? j =
                (if nzZero (opt.getD j (.intv 0)) then
                  (row.get? j).map (fun _ => (.intv 0 : PyVal))
                else row.get? j) := by
  obtain ⟨t1, tc, hfold, hcols, hbasic, hofb, hinfo, hpend, hub, hzl, htc,
    hzchar, hrlen, hrchar⟩ :=
    commitFold_char t opt hlen hzlen hnn t.cols.length (Nat.le_refl _)
  have hoptE : Tab.getE t.rows rowIdx = .ok opt := by
    unfold Tab.getE; rw [hopt]; rfl
  have hn1 : opt.length - 1 = t.cols.length := by omega
  have htc' : tc = (List.range (t.cols.length)).filter (p1hit t opt) := htc
  -- facts at a structural index
  have hfacts : ∀ j v, t.cols.get? j = some (Col.cvar v) →
      j < t.cols.length ∧ zCondAt t.cols opt j = nzZero (opt.getD j (.intv 0))
        ∧ p1hit t opt j = false := by
    intro j v hj
    have hjlen : j < t.cols.length := by
      by_contra hge
      rw [List.get?_eq_getElem?, List.getElem?_eq_none (by omega)] at hj
      exact Option.noConfusion hj
    have hvj : isVarAt t.cols j = true := by unfold isVarAt; rw [hj]
    refine ⟨hjlen, ?_, ?_⟩
    · unfold zCondAt; rw [hvj]; rfl
    · unfold p1hit; rw [hj]
  -- the zeroed flags after the scan, at a structural index
  have hzeroed1 : ∀ j v, t.cols.get? j = some (Col.cvar v) →
      t1.zeroed.get? j =
        (if nzZero (opt.getD j (.intv 0)) then some true else t.zeroed.get? j) := by
    intro j v hj
    obtain ⟨hjlen, hzcj, hpj⟩ := hfacts j v hj
    have hjz : j < t.zeroed.length := by omega
    obtain ⟨zbj, hzbj⟩ : ∃ zbj, t.zeroed.get? j = some zbj :=
      ⟨t.zeroed[j], by rw [List.get?_eq_getElem?]; exact List.getElem?_eq_getElem hjz⟩
    rw [hzchar j]
    by_cases hnzj : nzZero (opt.getD j (.intv 0)) = true
    · rw [if_pos ⟨hjlen, by rw [hzcj]; exact hnzj⟩, if_pos hnzj, hzbj]
      rfl
    · rw [if_neg (fun hx => hnzj (hzcj ▸ hx.2)),
          if_neg (fun hx => by rw [hpj] at hx; exact Bool.false_ne_true hx.2),
          if_neg hnzj]
  -- a surviving constraint row after the scan, at a structural index
  have hrows1 : ∀ j v, t.cols.get? j = some (Col.cvar v) →
      ∀ ri row, t.rows.get? ri = some row →
        ∃ row1, t1.rows.get? ri = some row1 ∧
          row1.get? j =
            (if nzZero (opt.getD j (.intv 0)) then
              (row.get? j).map (fun _ => (.intv 0 : PyVal))
            else row.get? j) := by
    intro j v hj ri row hrow
    obtain ⟨hjlen, hzcj, hpj⟩ := hfacts j v hj
    obtain ⟨row1, hrow1, hrl, hrk⟩ := hrchar ri row hrow
    refine ⟨row1, hrow1, ?_⟩
    rw [hrk j]
    by_cases hnzj : nzZero (opt.getD j (.intv 0)) = true
    · rw [if_pos ⟨hjlen, by rw [hzcj]; exact hnzj⟩, if_pos hnzj]
    · rw [if_neg (fun hx => hnzj (hzcj ▸ hx.2)), if_neg hnzj]
  unfold Tab.zeroCommit
  rw [hoptE, bindE_ok, hn1, hfold, bindE_ok]
  dsimp only
  by_cases htce : tc.isEmpty = true
  · rw [if_pos htce]
    refine ⟨_, rfl, ?_⟩
    intro j v hj
    refine ⟨?_, hzeroed1 j v hj, ?_⟩
    · show t1.cols.get? j = _
      rw [hcols]; exact hj
    · intro ri row hri hrow
      obtain ⟨row1, hrow1, hval⟩ := hrows1 j v hj ri row hrow
      refine ⟨row1, ?_, hval⟩
      show (Tab.delRange t1.rows rowIdx _).get? ri = _
      rw [delRange_get_lt _ _ _ _ hri]
      exact hrow1
  · rw [if_neg htce]
    refine ⟨_, rfl, ?_⟩
    intro j v hj
    have hlt : ∀ d ∈ tc, j < d := var_lt_collected t opt tc hvf htc' j v hj
    refine ⟨?_, hzeroed1 j v hj, ?_⟩
    · show (Tab.multiDel t1.cols tc).get? j = _
      rw [multiDel_get_lt _ _ _ hlt, hcols]
      exact hj
    · intro ri row hri hrow
      obtain ⟨row1, hrow1, hval⟩ := hrows1 j v hj ri row hrow
      refine ⟨Tab.multiDel row1 tc, ?_, ?_⟩
      · show ((Tab.delRange t1.rows rowIdx _).map
            (fun row => Tab.multiDel row tc)).get? ri = _
        rw [List.get?_eq_getElem?, List.getElem?_map, ← List.get?_eq_getElem?,
            delRange_get_lt _ _ _ _ hri, hrow1]
        rfl
      · rw [multiDel_get_lt _ _ _ hlt]
        exact hval

/-- concrete commit scenario: two structural columns (entry 0 and entry
-1 in the committed objective row) and one slack column. -/
def c1x : VarT := ⟨0, PyVal.inf⟩

def c1y : VarT := ⟨1, PyVal.inf⟩

def c1opt : List PyVal := [.intv 0, .intv (-1), .intv 0, .intv 5]

def c1row0 : List PyVal := [.intv 1, .intv 1, .intv 1, .intv 7]

def c1tab : Tab :=
  { cols := [.cvar c1x, .cvar c1y, .slack 0],
    zeroed := [false, false, false],
    rows := [c1row0, c1opt],
    basic := [.slack 0],
    optFunBegin := 1,
    optFunInfo := [none, some ⟨true, .intv 0, true⟩],
    unboundedVars := [],
    pending := [] }

theorem c1tab_varsFirst : varsFirst c1tab.cols := by
  intro i j hij hv
  obtain ⟨v, hv⟩ := hv
  rcases j with _ | _ | _ | j
  · omega
  · have : i = 0 := by omega
    subst this
    exact ⟨c1x, rfl⟩
  · simp [c1tab] at hv
  · simp [c1tab] at hv

theorem C1_zero_commit_witness :
    ∃ t2, Tab.zeroCommit c1tab 1 = .ok t2 ∧
      ∀ j v, c1tab.cols.get? j = some (Col.cvar v) →
        t2.cols.get? j = some (Col.cvar v)
        ∧ t2.zeroed.get? j =
            (if nzZero (c1opt.getD j (.intv 0)) then some true
             else c1tab.zeroed.get? j)
        ∧ ∀ ri row, ri < 1 → c1tab.rows.get? ri = some row →
            ∃ row2, t2.rows.get? ri = some row2 ∧
              row2.get? j =
                (if nzZero (c1opt.getD j (.intv 0)) then
                  (row.get? j).map (fun _ => (.intv 0 : PyVal))
                else row.get? j) :=
  C1_zero_commit c1tab 1 c1opt rfl rfl (by decide) (by decide) c1tab_varsFirst

/-- C1 (counterexample to the stated direction): committing the tier
objective `[0, -1, 0, | 5]` zeroes the structural column holding a
NONZERO entry (column 1) and leaves the structural column that ended at
zero (column 0) unzeroed. -/
theorem C1_counterexample :
    ∃ t2, Tab.zeroCommit c1tab 1 = .ok t2
      ∧ c1tab.cols.get? 0 = some (Col.cvar c1x)
      ∧ c1opt.get? 0 = some (.intv 0)
      ∧ t2.zeroed.get? 0 = some false
      ∧ c1tab.cols.get? 1 = some (Col.cvar c1y)
      ∧ c1opt.get? 1 = some (.intv (-1))
      ∧ t2.zeroed.get? 1 = some true :=
  ⟨_, rfl, rfl, rfl, rfl, rfl, rfl, rfl⟩

/-
  ===================  claim proofs : C2  ===================
-/

/-- C2 (amended): a second `solveAll` on a drained tableau (no objective
rows left, no pending objectives) leaves the tableau — and hence the
solution read from it — unchanged, and returns NOOP exactly when no
column is left uncleared; with an uncleared column it returns MULTI
instead. -/
theorem C2_resolve (apz nans : Bool) (fuel : Nat) (t : Tab) (cl : List Int)
    (hdone : t.rows.length ≤ t.optFunBegin)
    (hpend : t.pending = [])
    (hcl : Tab.cleared t = .ok cl) :
    Tab.solveAll apz nans fuel t =
      .ok ((if cl.any (fun c => c = -1) then SolveRes.MULTI else SolveRes.NOOP),
        t) := by
  have hdr : Tab.drainRows apz nans fuel fuel SolveRes.NOOP t
      = .ok (SolveRes.NOOP, t) := by
    cases fuel with
    | zero =>
        unfold Tab.drainRows
        rw [if_neg (by omega)]
        rfl
    | succ n =>
        unfold Tab.drainRows
        rw [if_neg (by omega)]
        rfl
  have he : t.pending.isEmpty = true := by rw [hpend]; rfl
  have hdp : Tab.drainPending apz nans fuel fuel SolveRes.NOOP t
      = .ok (SolveRes.NOOP, t) := by
    cases fuel with
    | zero =>
        unfold Tab.drainPending
        rw [if_pos he]
        rfl
    | succ n =>
        unfold Tab.drainPending
        rw [if_pos he]
        rfl
  unfold Tab.solveAll
  rw [hdr, bindE_ok]
  dsimp only
  rw [hdp, bindE_ok]
  dsimp only
  rw [hcl, bindE_ok]
  by_cases hany : cl.any (fun c => c = -1) = true
  · rw [if_pos hany, if_pos hany]
    have hj : SolveRes.join SolveRes.NOOP SolveRes.MULTI = SolveRes.MULTI := by
      decide
    rw [hj]
    rfl
  · rw [if_neg hany, if_neg hany]
    rfl

/-- a drained tableau with one basic slack column and one structural
column that is not cleared. -/
def c2done : Tab :=
  { cols := [.cvar c1x, .slack 0],
    zeroed := [false, false],
    rows := [[.intv 1, .intv 1, .intv 2]],
    basic := [.slack 0],
    optFunBegin := 1,
    optFunInfo := [none],
    unboundedVars := [],
    pending := [] }

theorem C2_resolve_witness :
    Tab.solveAll false false 3 c2done =
      .ok ((if [(-1 : Int), 0].any (fun c => c = -1) then SolveRes.MULTI
            else SolveRes.NOOP), c2done) :=
  C2_resolve false false 3 c2done [(-1), 0] (by decide) rfl rfl

def c2vx : VarT := ⟨0, .intv 1⟩

def c2vy : VarT := ⟨1, .intv 1⟩

def c2sys : List Eqn :=
  [⟨some 10, [(c2vx, .intv 1), (c2vy, .intv 1)], .LE, none, .intv 2⟩]

def c2obj : List (List ObjSpec) :=
  [[[(.ovar c2vx, .intv 1), (.ovar c2vy, .intv 1)]]]

/-- C2 (counterexample): build the tableau of `x + y <= 2, x <= 1,
y <= 1` with objective `max x + y`, solve it to completion, and call
`solveAll` again: the second call leaves the tableau unchanged but
returns MULTI, not NOOP. -/
theorem C2_counterexample :
    ∃ tb info r1 t1,
      Tab.mkTableau false false c2sys c2obj = .ok (tb, info)
      ∧ Tab.solveAll false false 20 tb = .ok (r1, t1)
      ∧ Tab.solveAll false false 20 t1 = .ok (SolveRes.MULTI, t1)
      ∧ SolveRes.MULTI ≠ SolveRes.NOOP :=
  ⟨_, _, _, _, rfl, rfl, rfl, by decide⟩

/-
  ===================  claim proofs : C7  ===================
-/

/-- C7: a row with no remaining terms and a plain rhs never raises in
the classification loop of `Solver.reset`: when its constant condition
is false it is appended to the invalid-equations list and the result is
joined with PARTIAL; when the constant condition is true it is silently
dropped. -/
theorem C7_infeasible_rows (nans : Bool) (st : Slv.ResetSt) (eq : Eqn)
    (hrv : eq.rhsVar = none) (hterms : eq.terms = [])
    (sat : Bool) (hsat : eq.cond.app (.intv 0) eq.rhsRate = .ok sat) :
    Slv.resetRow nans st eq =
      .ok (if sat then st
           else { st with invalidEqs := st.invalidEqs ++ [eq],
                          result := st.result.join SolveRes.PARTIAL }) := by
  unfold Slv.resetRow
  rw [hrv]
  dsimp only
  rw [if_neg (by rw [hterms]; exact fun hx => hx rfl)]
  rw [hsat, bindE_ok]
  cases sat with
  | true => rfl
  | false => rfl

theorem C7_infeasible_rows_witness :
    Slv.resetRow false ⟨[], [], [], SolveRes.UNSOLVED⟩
        ⟨some 1, [], .EQ, none, .intv 5⟩ =
      .ok (if false then ⟨[], [], [], SolveRes.UNSOLVED⟩
           else { (⟨[], [], [], SolveRes.UNSOLVED⟩ : Slv.ResetSt) with
                    invalidEqs := [] ++ [⟨some 1, [], .EQ, none, .intv 5⟩],
                    result := SolveRes.join SolveRes.UNSOLVED SolveRes.PARTIAL }) :=
  C7_infeasible_rows false ⟨[], [], [], SolveRes.UNSOLVED⟩
    ⟨some 1, [], .EQ, none, .intv 5⟩ rfl rfl false rfl

/-
  ===================  claim proofs : C10  ===================
-/

/-- inversion of a successful Except bind. -/
theorem bind_ok_inv {α β : Type} {E : Except PyErr α} {k : α → Except PyErr β}
    {b : β} (h : (E >>= k) = .ok b) : ∃ a, E = .ok a ∧ k a = .ok b := by
  cases E with
  | error e => rw [bindE_err] at h; exact absurd h (by simp)
  | ok a => rw [bindE_ok] at h; exact ⟨a, rfl, h⟩


/-- C10: when the incoming constraint's normalized term-set (as computed
by running `addEq` on an empty dict from the same column state) already
keys an entry of the merged dict, `addEq` does not append a row: it
updates that entry in place, intersecting the bounds — the new lower
bound is the (Python) max of the lower bounds, the new upper bound the
min of the upper bounds — and appending the incoming id to the entry's
id list, which `__init__` later exposes as the row's rowInfo ids. -/
theorem C10_addEq_merge (apz nans : Bool) (st : Tab.InitSt)
    (terms : List (VarT × PyVal)) (minv maxv : PyVal) (id? : Option Nat)
    (cols' : List VarT) (key : Finset (VarT × PyVal))
    (rep : List (VarT × PyVal)) (lo hi : PyVal) (ids0 : List (Option Nat))
    (hrun : Tab.addEq apz nans ⟨st.cols, []⟩ terms minv maxv id? =
      .ok ⟨cols', [⟨key, rep, lo, hi, ids0⟩]⟩)
    (e : Tab.MergedEq) (hfind : st.eqs.find? (fun q => q.key = key) = some e)
    (mn mx : PyVal)
    (hmn : Tab.pyMax e.lo lo = .ok mn) (hmx : Tab.pyMin e.hi hi = .ok mx) :
    Tab.addEq apz nans st terms minv maxv id? =
      .ok ⟨cols', st.eqs.map (fun q =>
        if q.key = key then { q with lo := mn, hi := mx, ids := q.ids ++ [id?] }
        else q)⟩ := by
  unfold Tab.addEq at hrun ⊢
  dsimp only at hrun
  obtain ⟨p, hp, hrun⟩ := bind_ok_inv hrun
  obtain ⟨factor, cols⟩ := p
  rw [hp, bindE_ok]
  dsimp only at hrun ⊢
  obtain ⟨fz, hfz, hrun⟩ := bind_ok_inv hrun
  rw [hfz, bindE_ok]
  cases fz with
  | true =>
      rw [if_pos rfl] at hrun
      exact absurd hrun (by simp)
  | false =>
      rw [if_neg (by simp)] at hrun ⊢
      obtain ⟨le0, hle0, hrun⟩ := bind_ok_inv hrun
      rw [hle0, bindE_ok]
      try dsimp only
      obtain ⟨isInf, hinf, hrun⟩ := bind_ok_inv hrun
      rw [hinf, bindE_ok]
      try dsimp only
      by_cases hc : (le0 = true ∧ isInf = true)
      · rw [if_pos hc] at hrun ⊢
        obtain ⟨y, hy, hrun⟩ := bind_ok_inv hrun
        rw [hy, bindE_ok]
        try dsimp only
        obtain ⟨nterms, hnt, hrun⟩ := bind_ok_inv hrun
        rw [hnt, bindE_ok]
        try dsimp only
        obtain ⟨minv2, hm1, hrun⟩ := bind_ok_inv hrun
        rw [hm1, bindE_ok]
        try dsimp only
        obtain ⟨maxv2, hm2, hrun⟩ := bind_ok_inv hrun
        rw [hm2, bindE_ok]
        try dsimp only
        obtain ⟨neg, hneg, hrun⟩ := bind_ok_inv hrun
        rw [hneg, bindE_ok]
        try dsimp only
        simp only [List.find?_nil, List.nil_append, pureE_eq, Except.ok.injEq,
          Tab.InitSt.mk.injEq, List.cons.injEq, Tab.MergedEq.mk.injEq,
          and_true] at hrun
        obtain ⟨hcols2, hkey, hrep, hlo, hhi, hids⟩ := hrun
        rw [hkey, hfind]
        dsimp only
        rw [hlo, hmn, bindE_ok]
        try dsimp only
        rw [hhi, hmx, bindE_ok, hcols2]
        rfl
      · rw [if_neg hc] at hrun ⊢
        obtain ⟨y, hy, hrun⟩ := bind_ok_inv hrun
        rw [hy, bindE_ok]
        try dsimp only
        obtain ⟨nterms, hnt, hrun⟩ := bind_ok_inv hrun
        rw [hnt, bindE_ok]
        try dsimp only
        obtain ⟨minv2, hm1, hrun⟩ := bind_ok_inv hrun
        rw [hm1, bindE_ok]
        try dsimp only
        obtain ⟨maxv2, hm2, hrun⟩ := bind_ok_inv hrun
        rw [hm2, bindE_ok]
        try dsimp only
        obtain ⟨neg, hneg, hrun⟩ := bind_ok_inv hrun
        rw [hneg, bindE_ok]
        try dsimp only
        simp only [List.find?_nil, List.nil_append, pureE_eq, Except.ok.injEq,
          Tab.InitSt.mk.injEq, List.cons.injEq, Tab.MergedEq.mk.injEq,
          and_true] at hrun
        obtain ⟨hcols2, hkey, hrep, hlo, hhi, hids⟩ := hrun
        rw [hkey, hfind]
        dsimp only
        rw [hlo, hmn, bindE_ok]
        try dsimp only
        rw [hhi, hmx, bindE_ok, hcols2]
        rfl

def c10vx : VarT := ⟨0, PyVal.inf⟩

def c10key : Finset (VarT × PyVal) :=
  ([(c10vx, (.intv 1 : PyVal))] : List (VarT × PyVal)).toFinset

def c10e : Tab.MergedEq := ⟨c10key, [(c10vx, .intv 1)], .intv 1, .intv 3, [some 0]⟩

def c10st : Tab.InitSt := ⟨[c10vx], [c10e]⟩

theorem C10_addEq_merge_witness :
    Tab.addEq false false c10st [(c10vx, .intv 2)] PyVal.ninf (.intv 4) (some 7) =
      .ok ⟨[c10vx], c10st.eqs.map (fun q =>
        if q.key = c10key then
          { q with lo := (.intv 1 : PyVal), hi := (.intv 2 : PyVal),
                   ids := q.ids ++ [some 7] }
        else q)⟩ :=
  C10_addEq_merge false false c10st [(c10vx, .intv 2)] PyVal.ninf (.intv 4)
    (some 7) [c10vx] c10key [(c10vx, .intv 1)] PyVal.ninf (.intv 2) [some 7]
    rfl c10e rfl (.intv 1) (.intv 2) rfl rfl

/-
  ===================  claim proofs : C3  ===================
-/

namespace Simp

/-- every dict entry keyed by `v` holds candidate `c`, and a lookup
finds one. -/
def onlyV (cs : Cands) (v : VarT) (c : Cand) : Prop :=
  clookup cs v = some c ∧ ∀ p ∈ cs, p.1 = v → p.2 = c

/-- no dict entry keyed by `v`. -/
def noV (cs : Cands) (v : VarT) : Prop := ∀ p ∈ cs, p.1 ≠ v

theorem noV_clookup (cs : Cands) (v : VarT) (h : noV cs v) :
    clookup cs v = none := by
  unfold clookup
  have hf : cs.find? (fun p => p.1 = v) = none := by
    rw [List.find?_eq_none]
    intro p hp hc
    exact h p hp (of_decide_eq_true hc)
  rw [hf]

theorem clookup_cset_ne (cs : Cands) (v w : VarT) (c : Cand) (hne : w ≠ v) :
    clookup (cset cs w c) v = clookup cs v := by
  unfold cset clookup
  by_cases hf : (cs.find? (fun p => p.1 = w)).isSome
  · rw [if_pos hf, List.find?_map]
    have hpred : ((fun p : VarT × Cand => decide (p.1 = v)) ∘
        (fun p => if p.1 = w then (w, c) else p))
        = (fun p : VarT × Cand => decide (p.1 = v)) := by
      funext q
      by_cases hq : q.1 = w
      · simp [hq, hne]
      · simp [hq]
    rw [hpred]
    cases hfind : cs.find? (fun p : VarT × Cand => decide (p.1 = v)) with
    | none => rfl
    | some q =>
        have hq : q.1 = v := by simpa using List.find?_some hfind
        have hqw : (if q.1 = w then (w, c) else q) = q := by
          rw [if_neg (by rw [hq]; exact fun hx => hne hx.symm)]
        simp [hqw]
  · rw [if_neg hf, List.find?_append]
    have h2 : ([(w, c)] : Cands).find? (fun p => p.1 = v) = none := by
      rw [List.find?_eq_none]
      intro p hp hc
      have : p = (w, c) := by simpa using hp
      rw [this] at hc
      exact hne (of_decide_eq_true hc)
    rw [h2]
    cases cs.find? (fun p : VarT × Cand => decide (p.1 = v)) <;> rfl

theorem onlyV_cset_ne (cs : Cands) (v w : VarT) (c c2 : Cand) (hne : w ≠ v)
    (h : onlyV cs v c) : onlyV (cset cs w c2) v c := by
  refine ⟨by rw [clookup_cset_ne cs v w c2 hne]; exact h.1, ?_⟩
  intro p hp hpv
  unfold cset at hp
  by_cases hf : (cs.find? (fun p => p.1 = w)).isSome
  · rw [if_pos hf] at hp
    obtain ⟨q, hq, hfq⟩ := List.mem_map.mp hp
    by_cases hqw : q.1 = w
    · rw [if_pos hqw] at hfq
      rw [← hfq] at hpv
      exact absurd hpv hne
    · rw [if_neg hqw] at hfq
      exact h.2 p (hfq ▸ hq) hpv
  · rw [if_neg hf] at hp
    rcases List.mem_append.mp hp with hp | hp
    · exact h.2 p hp hpv
    · have : p = (w, c2) := by simpa using hp
      rw [this] at hpv
      exact absurd hpv hne

theorem noV_cset_ne (cs : Cands) (v w : VarT) (c2 : Cand) (hne : w ≠ v)
    (h : noV cs v) : noV (cset cs w c2) v := by
  intro p hp
  unfold cset at hp
  by_cases hf : (cs.find? (fun p => p.1 = w)).isSome
  · rw [if_pos hf] at hp
    obtain ⟨q, hq, hfq⟩ := List.mem_map.mp hp
    by_cases hqw : q.1 = w
    · rw [if_pos hqw] at hfq
      rw [← hfq]
      exact hne
    · rw [if_neg hqw] at hfq
      exact hfq ▸ h q hq
  · rw [if_neg hf] at hp
    rcases List.mem_append.mp hp with hp | hp
    · exact h p hp
    · have : p = (w, c2) := by simpa using hp
      rw [this]
      exact hne

theorem onlyV_cset_self (cs : Cands) (v : VarT) (c : Cand) :
    onlyV (cset cs v c) v c := by
  constructor
  · unfold cset clookup
    by_cases hf : (cs.find? (fun p => p.1 = v)).isSome
    · rw [if_pos hf, List.find?_map]
      obtain ⟨q, hq⟩ := Option.isSome_iff_exists.mp hf
      have hqv : q.1 = v := by simpa using List.find?_some hq
      have hpred : ((fun p : VarT × Cand => decide (p.1 = v)) ∘
          (fun p => if p.1 = v then (v, c) else p))
          = (fun p : VarT × Cand => decide (p.1 = v)) := by
        funext r
        by_cases hr : r.1 = v
        · simp [hr]
        · simp [hr]
      rw [hpred, hq]
      simp [hqv]
    · rw [if_neg hf, List.find?_append]
      have h1 : cs.find? (fun p => p.1 = v) = none := by
        cases hx : cs.find? (fun p : VarT × Cand => decide (p.1 = v)) with
        | none => rfl
        | some q => rw [hx] at hf; exact absurd rfl hf
      rw [h1]
      simp
  · intro p hp hpv
    unfold cset at hp
    by_cases hf : (cs.find? (fun p => p.1 = v)).isSome
    · rw [if_pos hf] at hp
      obtain ⟨q, hq, hfq⟩ := List.mem_map.mp hp
      by_cases hqv : q.1 = v
      · rw [if_pos hqv] at hfq
        rw [← hfq]
      · rw [if_neg hqv] at hfq
        exact absurd (hfq ▸ hpv) hqv
    · rw [if_neg hf] at hp
      rcases List.mem_append.mp hp with hp | hp
      · exfalso
        have h1 : cs.find? (fun p => p.1 = v) = none := by
          cases hx : cs.find? (fun p : VarT × Cand => decide (p.1 = v)) with
          | none => rfl
          | some q => rw [hx] at hf; exact absurd rfl hf
        rw [List.find?_eq_none] at h1
        exact h1 p hp (decide_eq_true hpv)
      · have : p = (v, c) := by simpa using hp
        rw [this]

theorem forceFold_not_mem_onlyV (terms : TermsL) (v : VarT) (c : Cand)
    (hnm : ¬ v ∈ terms.map Prod.fst) :
    ∀ cs : Cands, onlyV cs v c →
      onlyV (terms.foldl (fun acc p => cset acc p.1 .zero) cs) v c := by
  induction terms with
  | nil => intro cs h; exact h
  | cons q rest ih =>
      intro cs h
      rw [List.foldl_cons]
      have hqv : q.1 ≠ v := by
        intro hx
        exact hnm (by simp [hx])
      exact ih (by intro hx; exact hnm (by simp [hx])) _
        (onlyV_cset_ne cs v q.1 c .zero hqv h)

theorem forceFold_not_mem_noV (terms : TermsL) (v : VarT)
    (hnm : ¬ v ∈ terms.map Prod.fst) :
    ∀ cs : Cands, noV cs v →
      noV (terms.foldl (fun acc p => cset acc p.1 .zero) cs) v := by
  induction terms with
  | nil => intro cs h; exact h
  | cons q rest ih =>
      intro cs h
      rw [List.foldl_cons]
      have hqv : q.1 ≠ v := by
        intro hx
        exact hnm (by simp [hx])
      exact ih (by intro hx; exact hnm (by simp [hx])) _
        (noV_cset_ne cs v q.1 .zero hqv h)

theorem forceFold_mem (terms : TermsL) (v : VarT) :
    ∀ cs : Cands, v ∈ terms.map Prod.fst →
      onlyV (terms.foldl (fun acc p => cset acc p.1 .zero) cs) v .zero := by
  induction terms with
  | nil => intro cs hmem; simp at hmem
  | cons q rest ih =>
      intro cs hmem
      rw [List.foldl_cons]
      by_cases hr : v ∈ rest.map Prod.fst
      · exact ih _ hr
      · have hqv : q.1 = v := by
          rcases (by simpa using hmem : v = q.1 ∨ v ∈ rest.map Prod.fst) with h | h
          · exact h.symm
          · exact absurd h hr
        rw [hqv]
        exact forceFold_not_mem_onlyV rest v .zero hr _ (onlyV_cset_self cs v .zero)

theorem clookup_filterAmb_of_onlyV (cs : Cands) (v : VarT) (c : Cand)
    (h : onlyV cs v c) (hc : c ≠ .amb) :
    clookup (cs.filter (fun p => ¬(p.2 = Cand.amb))) v = some c := by
  obtain ⟨hl, hall⟩ := h
  unfold clookup at hl
  cases hfind : cs.find? (fun p : VarT × Cand => decide (p.1 = v)) with
  | none => rw [hfind] at hl; exact absurd hl (by simp)
  | some q =>
      rw [hfind] at hl
      have hq2 : q.2 = c := by
        have : some q.2 = some c := hl
        simpa using this
      have hqv : q.1 = v := by simpa using List.find?_some hfind
      have hqmem : q ∈ cs := List.mem_of_find?_eq_some hfind
      have hqf : q ∈ cs.filter (fun p => ¬(p.2 = Cand.amb)) := by
        rw [List.mem_filter]
        exact ⟨hqmem, by simp [hq2, hc]⟩
      have hs : ((cs.filter (fun p => ¬(p.2 = Cand.amb))).find?
          (fun p : VarT × Cand => decide (p.1 = v))).isSome = true := by
        rw [List.find?_isSome]
        exact ⟨q, hqf, by simp [hqv]⟩
      obtain ⟨r, hr⟩ := Option.isSome_iff_exists.mp hs
      have hrv : r.2 = c := by
        refine hall r ?_ (by simpa using List.find?_some hr)
        exact (List.mem_filter.mp (List.mem_of_find?_eq_some hr)).1
      unfold clookup
      rw [hr]
      dsimp only
      rw [hrv]

theorem clookup_filterAmb_of_onlyV_amb (cs : Cands) (v : VarT)
    (h : onlyV cs v .amb) :
    clookup (cs.filter (fun p => ¬(p.2 = Cand.amb))) v = none := by
  apply noV_clookup
  intro p hp hpv
  obtain ⟨hmem, hkeep⟩ := List.mem_filter.mp hp
  have := h.2 p hmem hpv
  rw [this] at hkeep
  simp at hkeep

theorem clookup_filterAmb_of_noV (cs : Cands) (v : VarT) (h : noV cs v) :
    clookup (cs.filter (fun p => ¬(p.2 = Cand.amb))) v = none :=
  noV_clookup _ _ (fun p hp => h p (List.mem_filter.mp hp).1)

instance {A B : Type} [DecidableEq A] [DecidableEq B] :
    DecidableEq (Except A B) := fun a b =>
  match a, b with
  | .error x, .error y =>
      if h : x = y then isTrue (by rw [h]) else isFalse (by simpa using h)
  | .ok x, .ok y =>
      if h : x = y then isTrue (by rw [h]) else isFalse (by simpa using h)
  | .error x, .ok y => isFalse (by simp)
  | .ok x, .error y => isFalse (by simp)

/-- some row of the (enumerated) scan list forces `v` to zero. -/
def forcesIn (L : List (Nat × Eqn)) (v : VarT) : Prop :=
  ∃ q ∈ L, rowClass q.2 = .ok .force ∧ v ∈ q.2.terms.map Prod.fst

/-- how many rows of the scan list propose a substitution for `v`. -/
def propCount (L : List (Nat × Eqn)) (v : VarT) : Nat :=
  L.countP (fun q => decide (rowClass q.2 = .ok (.propose v)))

theorem forcesIn_cons_elim {q : Nat × Eqn} {rest : List (Nat × Eqn)} {v : VarT}
    (h : forcesIn (q :: rest) v) :
    (rowClass q.2 = .ok .force ∧ v ∈ q.2.terms.map Prod.fst) ∨ forcesIn rest v := by
  obtain ⟨r, hr, hf⟩ := h
  rcases List.mem_cons.mp hr with hq | hr2
  · exact Or.inl (hq ▸ hf)
  · exact Or.inr ⟨r, hr2, hf⟩

/-- The state of one variable across a whole scan pass: zero-forcing
sticks, a forced variable ends zero, and (without a force) one proposal
ends as that row's reference while two or more end ambiguous. -/
theorem scanFold_char (v : VarT) (L : List (Nat × Eqn))
    (hall : ∀ q ∈ L, ∃ rc, rowClass q.2 = .ok rc) :
    ∀ cs : Cands, ∃ cs',
      L.foldlM (fun acc p => scanRow acc p.1 p.2) cs = .ok cs'
      ∧ (onlyV cs v .zero → onlyV cs' v .zero)
      ∧ (forcesIn L v → onlyV cs' v .zero)
      ∧ (¬ forcesIn L v → onlyV cs v .amb → onlyV cs' v .amb)
      ∧ (¬ forcesIn L v → 1 ≤ propCount L v →
          (∃ k, onlyV cs v (.eqRef k)) → onlyV cs' v .amb)
      ∧ (¬ forcesIn L v → 2 ≤ propCount L v → noV cs v → onlyV cs' v .amb)
      ∧ (¬ forcesIn L v → propCount L v = 0 → noV cs v → noV cs' v)
      ∧ (¬ forcesIn L v → propCount L v = 1 → noV cs v →
          ∃ k, onlyV cs' v (.eqRef k))
      ∧ (¬ forcesIn L v → propCount L v = 0 →
          (∃ k, onlyV cs v (.eqRef k)) → ∃ k, onlyV cs' v (.eqRef k)) := by
  induction L with
  | nil =>
      intro cs
      refine ⟨cs, by simp, fun h => h, ?_, fun _ h => h, ?_, ?_,
        fun _ _ h => h, ?_, fun _ _ h => h⟩
      · intro hf
        obtain ⟨r, hr, -⟩ := hf
        simp at hr
      · intro _ h2
        simp [propCount] at h2
      · intro _ h2
        simp [propCount] at h2
      · intro _ h1
        simp [propCount] at h1
  | cons q rest ih =>
      intro cs
      obtain ⟨rc, hrc⟩ := hall q (List.mem_cons_self q rest)
      have hallr : ∀ p ∈ rest, ∃ rc2, rowClass p.2 = .ok rc2 :=
        fun p hp => hall p (List.mem_cons_of_mem q hp)
      have hnfr : ¬ forcesIn (q :: rest) v → ¬ forcesIn rest v := by
        intro h hf
        obtain ⟨r, hr, hx⟩ := hf
        exact h ⟨r, List.mem_cons_of_mem q hr, hx⟩
      have common : propCount (q :: rest) v = propCount rest v →
          (rowClass q.2 = .ok .force → ¬ v ∈ q.2.terms.map Prod.fst) →
          ∀ cs1 : Cands, scanRow cs q.1 q.2 = .ok cs1 →
          (∀ c, onlyV cs v c → onlyV cs1 v c) →
          (noV cs v → noV cs1 v) →
          ∃ cs',
            (q :: rest).foldlM (fun acc p => scanRow acc p.1 p.2) cs = .ok cs'
            ∧ (onlyV cs v .zero → onlyV cs' v .zero)
            ∧ (forcesIn (q :: rest) v → onlyV cs' v .zero)
            ∧ (¬ forcesIn (q :: rest) v → onlyV cs v .amb → onlyV cs' v .amb)
            ∧ (¬ forcesIn (q :: rest) v → 1 ≤ propCount (q :: rest) v →
                (∃ k, onlyV cs v (.eqRef k)) → onlyV cs' v .amb)
            ∧ (¬ forcesIn (q :: rest) v → 2 ≤ propCount (q :: rest) v →
                noV cs v → onlyV cs' v .amb)
            ∧ (¬ forcesIn (q :: rest) v → propCount (q :: rest) v = 0 →
                noV cs v → noV cs' v)
            ∧ (¬ forcesIn (q :: rest) v → propCount (q :: rest) v = 1 →
                noV cs v → ∃ k, onlyV cs' v (.eqRef k))
            ∧ (¬ forcesIn (q :: rest) v → propCount (q :: rest) v = 0 →
                (∃ k, onlyV cs v (.eqRef k)) → ∃ k, onlyV cs' v (.eqRef k)) := by
        intro hc0 hhead cs1 hstep hpo hpn
        obtain ⟨cs', hfold, A2, A3, A4, A5, A6, A7, A8, A9⟩ := ih hallr cs1
        refine ⟨cs', ?_, ?_, ?_, ?_, ?_, ?_, ?_, ?_, ?_⟩
        · rw [List.foldlM_cons, hstep, bindE_ok]
          exact hfold
        · exact fun h => A2 (hpo _ h)
        · intro hf
          rcases forcesIn_cons_elim hf with ⟨hf1, hm⟩ | hf2
          · exact absurd hm (hhead hf1)
          · exact A3 hf2
        · exact fun hnf h => A4 (hnfr hnf) (hpo _ h)
        · rintro hnf hpc ⟨k, h⟩
          rw [hc0] at hpc
          exact A5 (hnfr hnf) hpc ⟨k, hpo _ h⟩
        · intro hnf hpc h
          rw [hc0] at hpc
          exact A6 (hnfr hnf) hpc (hpn h)
        · intro hnf hpc h
          rw [hc0] at hpc
          exact A7 (hnfr hnf) hpc (hpn h)
        · intro hnf hpc h
          rw [hc0] at hpc
          exact A8 (hnfr hnf) hpc (hpn h)
        · rintro hnf hpc ⟨k, h⟩
          rw [hc0] at hpc
          exact A9 (hnfr hnf) hpc ⟨k, hpo _ h⟩
      cases rc with
      | skip =>
          have hstep : scanRow cs q.1 q.2 = .ok cs := by
            unfold scanRow
            rw [hrc, bindE_ok]
            rfl
          have hc0 : propCount (q :: rest) v = propCount rest v := by
            unfold propCount
            rw [List.countP_cons]
            simp [hrc]
          exact common hc0 (fun hf => absurd (hrc.symm.trans hf) (by simp)) cs
            hstep (fun c h => h) (fun h => h)
      | plain =>
          have hstep : scanRow cs q.1 q.2 = .ok cs := by
            unfold scanRow
            rw [hrc, bindE_ok]
            rfl
          have hc0 : propCount (q :: rest) v = propCount rest v := by
            unfold propCount
            rw [List.countP_cons]
            simp [hrc]
          exact common hc0 (fun hf => absurd (hrc.symm.trans hf) (by simp)) cs
            hstep (fun c h => h) (fun h => h)
      | force =>
          have hstep : scanRow cs q.1 q.2 =
              .ok (q.2.terms.foldl (fun acc p => cset acc p.1 .zero) cs) := by
            unfold scanRow
            rw [hrc, bindE_ok]
            rfl
          have hc0 : propCount (q :: rest) v = propCount rest v := by
            unfold propCount
            rw [List.countP_cons]
            simp [hrc]
          by_cases hv : v ∈ q.2.terms.map Prod.fst
          · have hstar : onlyV (q.2.terms.foldl (fun acc p => cset acc p.1 .zero) cs)
                v .zero := forceFold_mem q.2.terms v cs hv
            obtain ⟨cs', hfold, A2, A3, A4, A5, A6, A7, A8, A9⟩ :=
              ih hallr (q.2.terms.foldl (fun acc p => cset acc p.1 .zero) cs)
            have hF : forcesIn (q :: rest) v :=
              ⟨q, List.mem_cons_self q rest, hrc, hv⟩
            refine ⟨cs', ?_, fun _ => A2 hstar, fun _ => A2 hstar,
              fun hnf => absurd hF hnf, fun hnf => absurd hF hnf,
              fun hnf => absurd hF hnf, fun hnf => absurd hF hnf,
              fun hnf => absurd hF hnf, fun hnf => absurd hF hnf⟩
            rw [List.foldlM_cons, hstep, bindE_ok]
            exact hfold
          · exact common hc0 (fun _ => hv) _ hstep
              (fun c h => forceFold_not_mem_onlyV q.2.terms v c hv cs h)
              (fun h => forceFold_not_mem_noV q.2.terms v hv cs h)
      | propose w =>
          by_cases hw : w = v
          · rw [hw] at hrc
            have hc1 : propCount (q :: rest) v = propCount rest v + 1 := by
              unfold propCount
              rw [List.countP_cons]
              simp [hrc]
            cases hlk : clookup cs v with
            | none =>
                have hstep : scanRow cs q.1 q.2 = .ok (cset cs v (.eqRef q.1)) := by
                  unfold scanRow
                  rw [hrc, bindE_ok]
                  dsimp only
                  rw [hlk]
                  rfl
                have hstar : onlyV (cset cs v (.eqRef q.1)) v (.eqRef q.1) :=
                  onlyV_cset_self cs v (.eqRef q.1)
                obtain ⟨cs', hfold, A2, A3, A4, A5, A6, A7, A8, A9⟩ :=
                  ih hallr (cset cs v (.eqRef q.1))
                refine ⟨cs', ?_, ?_, ?_, ?_, ?_, ?_, ?_, ?_, ?_⟩
                · rw [List.foldlM_cons, hstep, bindE_ok]
                  exact hfold
                · intro h
                  rw [h.1] at hlk
                  exact absurd hlk (by simp)
                · intro hf
                  rcases forcesIn_cons_elim hf with ⟨hf1, -⟩ | hf2
                  · exact absurd (hrc.symm.trans hf1) (by simp)
                  · exact A3 hf2
                · intro hnf h
                  rw [h.1] at hlk
                  exact absurd hlk (by simp)
                · rintro hnf hpc ⟨k, h⟩
                  rw [h.1] at hlk
                  exact absurd hlk (by simp)
                · intro hnf hpc h
                  rw [hc1] at hpc
                  exact A5 (hnfr hnf) (by omega) ⟨q.1, hstar⟩
                · intro hnf hpc h
                  rw [hc1] at hpc
                  omega
                · intro hnf hpc h
                  rw [hc1] at hpc
                  exact A9 (hnfr hnf) (by omega) ⟨q.1, hstar⟩
                · intro hnf hpc h
                  rw [hc1] at hpc
                  omega
            | some c =>
                cases c with
                | zero =>
                    have hstep : scanRow cs q.1 q.2 = .ok cs := by
                      unfold scanRow
                      rw [hrc, bindE_ok]
                      dsimp only
                      rw [hlk]
                      rfl
                    obtain ⟨cs', hfold, A2, A3, A4, A5, A6, A7, A8, A9⟩ :=
                      ih hallr cs
                    refine ⟨cs', ?_, fun h => A2 h, ?_, ?_, ?_, ?_, ?_, ?_, ?_⟩
                    · rw [List.foldlM_cons, hstep, bindE_ok]
                      exact hfold
                    · intro hf
                      rcases forcesIn_cons_elim hf with ⟨hf1, -⟩ | hf2
                      · exact absurd (hrc.symm.trans hf1) (by simp)
                      · exact A3 hf2
                    · intro hnf h
                      rw [h.1] at hlk
                      exact absurd hlk (by simp)
                    · rintro hnf hpc ⟨k, h⟩
                      rw [h.1] at hlk
                      exact absurd hlk (by simp)
                    · intro hnf hpc h
                      rw [noV_clookup cs v h] at hlk
                      exact absurd hlk (by simp)
                    · intro hnf hpc h
                      rw [noV_clookup cs v h] at hlk
                      exact absurd hlk (by simp)
                    · intro hnf hpc h
                      rw [noV_clookup cs v h] at hlk
                      exact absurd hlk (by simp)
                    · rintro hnf hpc ⟨k, h⟩
                      rw [h.1] at hlk
                      exact absurd hlk (by simp)
                | eqRef k0 =>
                    have hstep : scanRow cs q.1 q.2 = .ok (cset cs v .amb) := by
                      unfold scanRow
                      rw [hrc, bindE_ok]
                      dsimp only
                      rw [hlk]
                      rfl
                    have hstar : onlyV (cset cs v .amb) v .amb :=
                      onlyV_cset_self cs v .amb
                    obtain ⟨cs', hfold, A2, A3, A4, A5, A6, A7, A8, A9⟩ :=
                      ih hallr (cset cs v .amb)
                    refine ⟨cs', ?_, ?_, ?_, ?_, ?_, ?_, ?_, ?_, ?_⟩
                    · rw [List.foldlM_cons, hstep, bindE_ok]
                      exact hfold
                    · intro h
                      rw [h.1] at hlk
                      exact absurd hlk (by simp)
                    · intro hf
                      rcases forcesIn_cons_elim hf with ⟨hf1, -⟩ | hf2
                      · exact absurd (hrc.symm.trans hf1) (by simp)
                      · exact A3 hf2
                    · intro hnf h
                      exact A4 (hnfr hnf) hstar
                    · intro hnf hpc h
                      exact A4 (hnfr hnf) hstar
                    · intro hnf hpc h
                      rw [noV_clookup cs v h] at hlk
                      exact absurd hlk (by simp)
                    · intro hnf hpc h
                      rw [noV_clookup cs v h] at hlk
                      exact absurd hlk (by simp)
                    · intro hnf hpc h
                      rw [noV_clookup cs v h] at hlk
                      exact absurd hlk (by simp)
                    · intro hnf hpc h
                      rw [hc1] at hpc
                      omega
                | amb =>
                    have hstep : scanRow cs q.1 q.2 = .ok (cset cs v .amb) := by
                      unfold scanRow
                      rw [hrc, bindE_ok]
                      dsimp only
                      rw [hlk]
                      rfl
                    have hstar : onlyV (cset cs v .amb) v .amb :=
                      onlyV_cset_self cs v .amb
                    obtain ⟨cs', hfold, A2, A3, A4, A5, A6, A7, A8, A9⟩ :=
                      ih hallr (cset cs v .amb)
                    refine ⟨cs', ?_, ?_, ?_, ?_, ?_, ?_, ?_, ?_, ?_⟩
                    · rw [List.foldlM_cons, hstep, bindE_ok]
                      exact hfold
                    · intro h
                      rw [h.1] at hlk
                      exact absurd hlk (by simp)
                    · intro hf
                      rcases forcesIn_cons_elim hf with ⟨hf1, -⟩ | hf2
                      · exact absurd (hrc.symm.trans hf1) (by simp)
                      · exact A3 hf2
                    · intro hnf h
                      exact A4 (hnfr hnf) hstar
                    · intro hnf hpc h
                      exact A4 (hnfr hnf) hstar
                    · intro hnf hpc h
                      rw [noV_clookup cs v h] at hlk
                      exact absurd hlk (by simp)
                    · intro hnf hpc h
                      rw [noV_clookup cs v h] at hlk
                      exact absurd hlk (by simp)
                    · intro hnf hpc h
                      rw [noV_clookup cs v h] at hlk
                      exact absurd hlk (by simp)
                    · rintro hnf hpc ⟨k, h⟩
                      rw [h.1] at hlk
                      exact absurd hlk (by simp)
          · have hc0 : propCount (q :: rest) v = propCount rest v := by
              unfold propCount
              rw [List.countP_cons]
              simp [hrc, hw]
            have hhd : rowClass q.2 = .ok .force → ¬ v ∈ q.2.terms.map Prod.fst :=
              fun hf => absurd (hrc.symm.trans hf) (by simp)
            cases hlk : clookup cs w with
            | none =>
                have hstep : scanRow cs q.1 q.2 = .ok (cset cs w (.eqRef q.1)) := by
                  unfold scanRow
                  rw [hrc, bindE_ok]
                  dsimp only
                  rw [hlk]
                  rfl
                exact common hc0 hhd _ hstep
                  (fun c h => onlyV_cset_ne cs v w c (.eqRef q.1) hw h)
                  (fun h => noV_cset_ne cs v w (.eqRef q.1) hw h)
            | some c =>
                cases c with
                | zero =>
                    have hstep : scanRow cs q.1 q.2 = .ok cs := by
                      unfold scanRow
                      rw [hrc, bindE_ok]
                      dsimp only
                      rw [hlk]
                      rfl
                    exact common hc0 hhd cs hstep (fun c h => h) (fun h => h)
                | eqRef k0 =>
                    have hstep : scanRow cs q.1 q.2 = .ok (cset cs w .amb) := by
                      unfold scanRow
                      rw [hrc, bindE_ok]
                      dsimp only
                      rw [hlk]
                      rfl
                    exact common hc0 hhd _ hstep
                      (fun c h => onlyV_cset_ne cs v w c .amb hw h)
                      (fun h => noV_cset_ne cs v w .amb hw h)
                | amb =>
                    have hstep : scanRow cs q.1 q.2 = .ok (cset cs w .amb) := by
                      unfold scanRow
                      rw [hrc, bindE_ok]
                      dsimp only
                      rw [hlk]
                      rfl
                    exact common hc0 hhd _ hstep
                      (fun c h => onlyV_cset_ne cs v w c .amb hw h)
                      (fun h => noV_cset_ne cs v w .amb hw h)

end Simp

/-- the `while True` loop returns only when a scan yields no candidates. -/
theorem simplifyLoop_fixed (apz nans : Bool) (fuel : Nat) :
    ∀ eqs res, Simp.simplifyLoop apz nans fuel eqs = .ok res →
      Simp.scan res = .ok [] := by
  induction fuel with
  | zero =>
      intro eqs res h
      simp [Simp.simplifyLoop] at h
  | succ n ih =>
      intro eqs res h
      unfold Simp.simplifyLoop at h
      obtain ⟨cands, hscan, h⟩ := bind_ok_inv h
      by_cases hc : cands.isEmpty = true
      · rw [if_pos hc] at h
        have hres : eqs = res := by simpa using h
        have hnil : cands = [] := List.isEmpty_iff.mp hc
        rw [← hres, hscan, hnil]
      · rw [if_neg hc] at h
        obtain ⟨eqs2, happ, h2⟩ := bind_ok_inv h
        exact ih eqs2 res h2

/-- C3: the `_simplify` loop returns only at a fixed point — a scan of
the returned rows yields no candidates — and, within one scan, a
variable proposed by two or more distinct zero-rhs equality rows is
never substituted: its candidate is dropped as ambiguous (deferred),
unless some all-positive/all-negative row forces it to zero, in which
case it still ends as the ZERO candidate. -/
theorem C3_simplify_convergence (apz nans : Bool) (fuel : Nat)
    (eqs0 res eqs : List Eqn) (v : VarT) :
    (Simp.simplifyLoop apz nans fuel eqs0 = .ok res → Simp.scan res = .ok [])
    ∧ ((∀ eq ∈ eqs, ∃ rc, Simp.rowClass eq = .ok rc) →
       2 ≤ eqs.countP (fun eq => decide (Simp.rowClass eq = .ok (.propose v))) →
       ∃ cs, Simp.scan eqs = .ok cs
         ∧ (∀ k, Simp.clookup cs v ≠ some (.eqRef k))
         ∧ ((∃ eq ∈ eqs, Simp.rowClass eq = .ok .force ∧
              v ∈ eq.terms.map Prod.fst) →
             Simp.clookup cs v = some .zero)
         ∧ (¬ (∃ eq ∈ eqs, Simp.rowClass eq = .ok .force ∧
              v ∈ eq.terms.map Prod.fst) →
             Simp.clookup cs v = none)) := by
  constructor
  · exact simplifyLoop_fixed apz nans fuel eqs0 res
  · intro hall hcount
    have halle : ∀ q ∈ eqs.enum, ∃ rc, Simp.rowClass q.2 = .ok rc := by
      intro q hq
      refine hall q.2 ?_
      rw [← List.enum_map_snd eqs]
      exact List.mem_map_of_mem Prod.snd hq
    have hpc : Simp.propCount eqs.enum v
        = eqs.countP (fun eq => decide (Simp.rowClass eq = .ok (.propose v))) := by
      unfold Simp.propCount
      conv_rhs => rw [← List.enum_map_snd eqs]
      rw [List.countP_map]
      rfl
    have hfiff : Simp.forcesIn eqs.enum v ↔
        (∃ eq ∈ eqs, Simp.rowClass eq = .ok .force ∧
          v ∈ eq.terms.map Prod.fst) := by
      constructor
      · rintro ⟨q, hq, hx⟩
        refine ⟨q.2, ?_, hx⟩
        rw [← List.enum_map_snd eqs]
        exact List.mem_map_of_mem Prod.snd hq
      · rintro ⟨eq, heq, hx⟩
        have hm : eq ∈ List.map Prod.snd eqs.enum := by
          rw [List.enum_map_snd]
          exact heq
        obtain ⟨q, hq, hq2⟩ := List.mem_map.mp hm
        exact ⟨q, hq, by rw [hq2]; exact hx⟩
    obtain ⟨cs', hfold, A2, A3, A4, A5, A6, A7, A8, A9⟩ :=
      Simp.scanFold_char v eqs.enum halle []
    have hnoV : Simp.noV [] v := by
      intro p hp
      simp at hp
    have hscan : Simp.scan eqs = .ok (cs'.filter (fun p => ¬(p.2 = Simp.Cand.amb))) := by
      unfold Simp.scan
      rw [hfold, bindE_ok]
      rfl
    refine ⟨cs'.filter (fun p => ¬(p.2 = Simp.Cand.amb)), hscan, ?_, ?_, ?_⟩
    · intro k
      by_cases hfe : ∃ eq ∈ eqs, Simp.rowClass eq = .ok .force ∧
          v ∈ eq.terms.map Prod.fst
      · rw [Simp.clookup_filterAmb_of_onlyV cs' v .zero (A3 (hfiff.mpr hfe))
          (by simp)]
        simp
      · rw [Simp.clookup_filterAmb_of_onlyV_amb cs' v
          (A6 (fun hx => hfe (hfiff.mp hx)) (by rw [hpc]; exact hcount) hnoV)]
        simp
    · intro hfe
      exact Simp.clookup_filterAmb_of_onlyV cs' v .zero (A3 (hfiff.mpr hfe))
        (by simp)
    · intro hfe
      exact Simp.clookup_filterAmb_of_onlyV_amb cs' v
        (A6 (fun hx => hfe (hfiff.mp hx)) (by rw [hpc]; exact hcount) hnoV)

def c3u : VarT := ⟨5, PyVal.inf⟩

def c3w : VarT := ⟨6, PyVal.inf⟩

def c3z : VarT := ⟨7, PyVal.inf⟩

def c3eq1 : Eqn := ⟨some 1, [(c3u, .intv 1), (c3w, .intv (-1))], .EQ, none, .intv 0⟩

def c3eq2 : Eqn := ⟨some 2, [(c3u, .intv 1), (c3z, .intv (-1))], .EQ, none, .intv 0⟩

def c3eqs : List Eqn := [c3eq1, c3eq2]

theorem C3_simplify_witness :
    ∃ cs, Simp.scan c3eqs = .ok cs
      ∧ (∀ k, Simp.clookup cs c3u ≠ some (.eqRef k))
      ∧ Simp.clookup cs c3u = none := by
  obtain ⟨cs, h1, h2, h3, h4⟩ :=
    (C3_simplify_convergence false false 1 [] [] c3eqs c3u).2
      (by
        intro eq heq
        rcases (by simpa [c3eqs] using heq : eq = c3eq1 ∨ eq = c3eq2) with rfl | rfl
        · exact ⟨_, rfl⟩
        · exact ⟨_, rfl⟩)
      (by decide)
  refine ⟨cs, h1, h2, h4 ?_⟩
  rintro ⟨eq, heq, hf, -⟩
  rcases (by simpa [c3eqs] using heq : eq = c3eq1 ∨ eq = c3eq2) with rfl | rfl
  · exact absurd hf (by decide)
  · exact absurd hf (by decide)

/-
  ===================  claim proofs : C8  ===================
-/

theorem fdiv_gcd_zero_iff {g x : Int} (hg : 1 < g) (hdvd : g ∣ x) :
    x.fdiv g = 0 ↔ x = 0 := by
  obtain ⟨k, rfl⟩ := hdvd
  rw [Int.mul_fdiv_cancel_left k (by omega)]
  constructor
  · rintro rfl
    ring
  · intro h
    rcases mul_eq_zero.mp h with h | h
    · omega
    · exact h

/-- `_mul` yields the NaN marker pair exactly for a `0 * Inf` shape. -/
theorem rawMul_zero_iff (na da nb db : Int) :
    (Fracs.rawMul na da nb db).1 = 0 ∧ (Fracs.rawMul na da nb db).2 = 0 ↔
    (na = 0 ∨ nb = 0) ∧ (db = 0 ∨ da = 0) := by
  unfold Fracs.rawMul
  dsimp only
  have h1 : (if (Int.gcd na db : Int) > 1 then na.fdiv (Int.gcd na db) else na) = 0
      ↔ na = 0 := by
    by_cases hg : (Int.gcd na db : Int) > 1
    · rw [if_pos hg]
      exact fdiv_gcd_zero_iff hg Int.gcd_dvd_left
    · rw [if_neg hg]
  have h2 : (if (Int.gcd na db : Int) > 1 then db.fdiv (Int.gcd na db) else db) = 0
      ↔ db = 0 := by
    by_cases hg : (Int.gcd na db : Int) > 1
    · rw [if_pos hg]
      exact fdiv_gcd_zero_iff hg Int.gcd_dvd_right
    · rw [if_neg hg]
  have h3 : (if (Int.gcd nb da : Int) > 1 then nb.fdiv (Int.gcd nb da) else nb) = 0
      ↔ nb = 0 := by
    by_cases hg : (Int.gcd nb da : Int) > 1
    · rw [if_pos hg]
      exact fdiv_gcd_zero_iff hg Int.gcd_dvd_left
    · rw [if_neg hg]
  have h4 : (if (Int.gcd nb da : Int) > 1 then da.fdiv (Int.gcd nb da) else da) = 0
      ↔ da = 0 := by
    by_cases hg : (Int.gcd nb da : Int) > 1
    · rw [if_pos hg]
      exact fdiv_gcd_zero_iff hg Int.gcd_dvd_right
    · rw [if_neg hg]
  rw [mul_eq_zero, mul_eq_zero, h1, h2, h3, h4]

/-- the general tail of `div` never reads `allow_nans` unless the
operands form a `0 * Inf` shape. -/
theorem divGeneral_flags (nans nans' : Bool) (num den : PyVal)
    (h : ¬ ((num.nump = 0 ∨ den.denp = 0) ∧ (num.denp = 0 ∨ den.nump = 0))) :
    Fracs.div.divGeneral nans num den = Fracs.div.divGeneral nans' num den := by
  unfold Fracs.div.divGeneral
  dsimp only
  have hdd : (if den.nump < 0 then -den.denp else den.denp) = 0 ↔ den.denp = 0 := by
    by_cases hs : den.nump < 0 <;> simp [hs]
  have hdn : (if den.nump < 0 then -den.nump else den.nump) = 0 ↔ den.nump = 0 := by
    by_cases hs : den.nump < 0 <;> simp [hs]
  by_cases hr1 : (Fracs.rawMul num.nump num.denp
      (if den.nump < 0 then -den.denp else den.denp)
      (if den.nump < 0 then -den.nump else den.nump)).2 = 1
  · rw [if_pos hr1, if_pos hr1]
  · rw [if_neg hr1, if_neg hr1]
    have hz : ¬ ((Fracs.rawMul num.nump num.denp
        (if den.nump < 0 then -den.denp else den.denp)
        (if den.nump < 0 then -den.nump else den.nump)).1 = 0 ∧
        (Fracs.rawMul num.nump num.denp
        (if den.nump < 0 then -den.denp else den.denp)
        (if den.nump < 0 then -den.nump else den.nump)).2 = 0) := by
      rw [rawMul_zero_iff]
      intro hx
      refine h ⟨?_, ?_⟩
      · rcases hx.1 with h' | h'
        · exact Or.inl h'
        · exact Or.inr (hdd.mp h')
      · rcases hx.2 with h' | h'
        · exact Or.inr (hdn.mp h')
        · exact Or.inl h'
    rw [if_neg hz, if_neg hz]

/-- C8: the ambient division-policy flags are NOT captured at
construction — `div` reads them at each call — but their value is
irrelevant whenever no division by an exact zero and no `0 * Inf` NaN
shape occurs: on such operands two calls under any two ambient settings
coincide, so a solve whose arithmetic stays in this regime cannot
observe a mid-solve flag change. -/
theorem C8_ambient_policy (apz nans apz' nans' : Bool) (num den : PyVal)
    (hnn : num ≠ .nan) (hdn : den ≠ .nan)
    (hdz : den.nump ≠ 0)
    (hnum00 : ¬ (num.nump = 0 ∧ num.denp = 0))
    (hinf : ¬ (num.denp = 0 ∧ den.denp = 0)) :
    Fracs.div apz nans num den = Fracs.div apz' nans' num den := by
  have hgen : ¬ ((num.nump = 0 ∨ den.denp = 0) ∧ (num.denp = 0 ∨ den.nump = 0)) := by
    rintro ⟨h1 | h1, h2 | h2⟩
    · exact hnum00 ⟨h1, h2⟩
    · exact hdz h2
    · exact hinf ⟨h2, h1⟩
    · exact hdz h2
  unfold Fracs.div
  have hcond : ¬ (num = PyVal.nan ∨ den = PyVal.nan) := by
    rintro (h | h)
    · exact hnn h
    · exact hdn h
  rw [if_neg hcond, if_neg hcond]
  by_cases hd1 : den.denp = 1
  · rw [if_pos hd1, if_pos hd1]
    by_cases hden1 : den.nump = 1
    · rw [if_pos hden1, if_pos hden1]
    · rw [if_neg hden1, if_neg hden1, if_neg hdz, if_neg hdz]
      by_cases hnd1 : num.denp = 1
      · rw [if_pos hnd1, if_pos hnd1]
      · rw [if_neg hnd1, if_neg hnd1]
        exact divGeneral_flags nans nans' num den hgen
  · rw [if_neg hd1, if_neg hd1]
    exact divGeneral_flags nans nans' num den hgen

theorem C8_ambient_policy_witness :
    Fracs.div false false (.fracv 7 2) (.fracv 5 3)
      = Fracs.div true true (.fracv 7 2) (.fracv 5 3) :=
  C8_ambient_policy false false true true (.fracv 7 2) (.fracv 5 3)
    (by decide) (by decide) (by decide) (by decide) (by decide)

def c8v : VarT := ⟨0, .intv 5⟩

def c8a : VarT := ⟨1, PyVal.inf⟩

def c8b : VarT := ⟨2, PyVal.inf⟩

def c8eq : Eqn := ⟨some 9, [(c8a, .intv 1), (c8b, .intv (-1))], .EQ, some c8v, .intv 1⟩

def c8st : Slv.ResetSt := ⟨[], [], [], SolveRes.UNSOLVED⟩

/-- C8 (counterexample): the ambient settings are read mid-solve, not at
construction: the same classification step of `Solver.reset`, run on the
same constructed row, gives different outcomes under the two settings of
`allow_nans` (NotANumberError vs ValueError), and `div` by an exact zero
completes under `assume_positive_zero` but raises without it. -/
theorem C8_counterexample :
    Slv.resetRow false c8st c8eq ≠ Slv.resetRow true c8st c8eq
    ∧ Fracs.div true false (.intv 1) (.intv 0) = .ok PyVal.inf
    ∧ Fracs.div false false (.intv 1) (.intv 0) = .error .zeroDivision :=
  ⟨by decide, rfl, rfl⟩
